import Mathlib

/-!
Verification of the `mocking` repository.

Shallow embedding of `mocking.hpp` (decorated callables, call-count checkers),
`tokenizer1.hpp`, `tokenizer2.hpp` and `unique_tokenizer.hpp`, followed by the
theorems about them.

Conventions of the embedding.

* The C++ type `unsigned` is 32 bits wide: its values are the naturals below
  `UINT_RANGE` and arithmetic on it is taken modulo `UINT_RANGE`.
* A `std::shared_ptr<state>` is an address into a heap of control blocks, each
  holding the pointee and its use count; the pointee's destructor runs when the
  use count reaches zero.
* A callable is a function on an explicit state that either throws or returns;
  where the argument objects may be changed by the call (an rvalue moved from),
  it also yields the arguments as it leaves them.
* A `std::string_view` is a list of characters; `npos` is `none`.
-/

namespace Mocking

/-! ## mocking.hpp : call_count_checker -/

/-- Number of values of the C++ type `unsigned`. -/
def UINT_RANGE : Nat := 4294967296

/-- The captured construction site: `file_name()` and `line()`. -/
structure source_location where
  file_name : String
  line : Nat
deriving DecidableEq, Repr

/-- The fallback `no_source_location` of mocking.hpp, lines 13-18. -/
def no_source_location : source_location := ⟨"unknown", 0⟩

/-- The record `call_count_checker::state`: `calls_` is value-initialised to zero. -/
structure state where
  location_ : source_location
  expected_ : Option Nat
  calls_ : Nat
deriving DecidableEq, Repr

/-- The constructor `state(location, expected)`. -/
def state.ctor (location : source_location) (expected : Option Nat) : state :=
  ⟨location, expected, 0⟩

/-- The message streamed into `BOOST_TEST` by the destructor of `state`. -/
def state.message (s : state) (e : Nat) : String :=
  "Function defined at " ++ s.location_.file_name ++ ":" ++ toString s.location_.line
    ++ " expected " ++ toString e ++ " calls, " ++ toString s.calls_ ++ " seen"

/-- The destructor of `state`: with an expectation set, `BOOST_TEST(*expected_ == calls_, ...)`
reports a failure carrying the message when the two differ; `none` is "nothing reported". -/
def state.dtor (s : state) : Option String :=
  match s.expected_ with
  | some e => if e = s.calls_ then none else some (s.message e)
  | none => none

/-- The control block made by `std::make_shared<state>`: the pointee and the number of
`shared_ptr`s that own it. The pointee is destroyed when `use_count` reaches zero; the
record is kept so that the constants of a destroyed state can still be named. -/
structure control_block where
  obj : state
  use_count : Nat
deriving DecidableEq, Repr

/-- A `call_count_checker` object, that is its member `state_`. -/
inductive handle where
  /-- The object is not alive (destroyed). -/
  | dead
  /-- The object is alive and `state_` is empty (it was moved from). -/
  | null
  /-- The object is alive and `state_` points at the control block at address `a`. -/
  | ptr (a : Nat)
deriving DecidableEq, Repr

/-- The program state: the heap of control blocks (address = index), the checker objects
(identifier = index), and, in order, every run of the destructor of a `state` with the
address it ran on and what it reported. -/
structure World where
  heap : List control_block
  handles : List handle
  dtor_log : List (Nat × Option String)
deriving DecidableEq, Repr

/-- The state before anything was constructed. -/
def World.empty : World := ⟨[], [], []⟩

/-- Copying a `shared_ptr` that points at `a`: one more owner. -/
def World.acquire (w : World) (a : Nat) : World :=
  match w.heap[a]? with
  | some cb => { w with heap := w.heap.set a { cb with use_count := cb.use_count + 1 } }
  | none => w

/-- A `shared_ptr` that points at `a` gives up its ownership: the use count drops by one and,
when it reaches zero, the destructor of the pointee runs. -/
def World.release (w : World) (a : Nat) : World :=
  match w.heap[a]? with
  | some cb =>
    if cb.use_count - 1 = 0 then
      { w with heap := w.heap.set a { cb with use_count := 0 },
               dtor_log := w.dtor_log ++ [(a, cb.obj.dtor)] }
    else
      { w with heap := w.heap.set a { cb with use_count := cb.use_count - 1 } }
  | none => w

/-- The `acquire` of whatever a handle holds: nothing for an empty pointer. -/
def World.acquire_ptr (w : World) : handle → World
  | .ptr a => w.acquire a
  | _ => w

/-- The `release` of whatever a handle holds: nothing for an empty pointer. -/
def World.release_ptr (w : World) : handle → World
  | .ptr a => w.release a
  | _ => w

/-- The value of a live checker object; `none` for an identifier that names no live object. -/
def World.live (w : World) (h : Nat) : Option handle :=
  match w.handles[h]? with
  | some .dead => none
  | some p => some p
  | none => none

/-- The operations of `call_count_checker` (mocking.hpp, lines 67-84) and its destruction.
A constructed object gets the next free identifier. -/
inductive op where
  /-- The two constructors: `call_count_checker(location)` and
  `call_count_checker(expected, location)`. -/
  | construct (expected : Option Nat) (location : source_location)
  /-- The defaulted copy constructor, from the object `src`. -/
  | copy_construct (src : Nat)
  /-- The defaulted move constructor, from the object `src`. -/
  | move_construct (src : Nat)
  /-- The defaulted copy assignment `dst = src`. -/
  | copy_assign (dst src : Nat)
  /-- The defaulted move assignment `dst = std::move(src)`. -/
  | move_assign (dst src : Nat)
  /-- The call operator, whatever the arguments. -/
  | invoke (h : Nat)
  /-- The member `current_count()`. -/
  | current_count (h : Nat)
  /-- The end of the lifetime of the object `h`. -/
  | destroy (h : Nat)
deriving DecidableEq, Repr

/-- The member `current_count()`: `state_->calls_`; `none` where the object is not alive or
its pointer is empty. -/
def current_count (w : World) (h : Nat) : Option Nat :=
  match w.live h with
  | some (.ptr a) => (w.heap[a]?).map (fun cb => cb.obj.calls_)
  | _ => none

/-- The call operator `state_->calls_ += 1` on the state at address `a`. -/
def World.increment (w : World) (a : Nat) : Option World :=
  match w.heap[a]? with
  | some cb =>
    let obj1 : state := { cb.obj with calls_ := (cb.obj.calls_ + 1) % UINT_RANGE }
    some { w with heap := w.heap.set a { cb with obj := obj1 } }
  | none => none

/-- One operation on the program state; `none` where the operation has no defined behaviour
(an object that is not alive, a call through an empty pointer). -/
def step (w : World) : op → Option World
  | .construct expected location =>
    some { w with heap := w.heap ++ [⟨state.ctor location expected, 1⟩],
                  handles := w.handles ++ [.ptr w.heap.length] }
  | .copy_construct src =>
    match w.live src with
    | some p =>
      let w1 := w.acquire_ptr p
      some { w1 with handles := w1.handles ++ [p] }
    | none => none
  | .move_construct src =>
    match w.live src with
    | some p => some { w with handles := w.handles.set src .null ++ [p] }
    | none => none
  | .copy_assign dst src =>
    match w.live dst, w.live src with
    | some old, some p =>
      let w1 := w.acquire_ptr p
      some ({ w1 with handles := w1.handles.set dst p }.release_ptr old)
    | _, _ => none
  | .move_assign dst src =>
    match w.live dst, w.live src with
    | some _, some p =>
      let hs := w.handles.set src .null
      let old := hs.getD dst .null
      some ({ w with handles := hs.set dst p }.release_ptr old)
    | _, _ => none
  | .invoke h =>
    match w.live h with
    | some (.ptr a) => w.increment a
    | _ => none
  | .current_count h =>
    match current_count w h with
    | some _ => some w
    | none => none
  | .destroy h =>
    match w.live h with
    | some p => some ({ w with handles := w.handles.set h .dead }.release_ptr p)
    | none => none

/-- A sequence of operations, left to right. -/
def run (w : World) : List op → Option World
  | [] => some w
  | o :: os => (step w o).bind (fun w1 => run w1 os)

/-- Number of live checker objects whose pointer is the address `a`. -/
def refs (w : World) (a : Nat) : Nat := w.handles.count (.ptr a)

/-- What the destructor runs of the state at address `a` reported, in order. -/
def reports (w : World) (a : Nat) : List (Option String) :=
  (w.dtor_log.filter (fun e => e.1 = a)).map Prod.snd

/-- Whether the operation `o`, made in `w`, is a call on the state at address `a` (1) or
not (0). -/
def hits (a : Nat) (w : World) : op → Nat
  | .invoke h => if w.live h = some (.ptr a) then 1 else 0
  | _ => 0

/-- Number of calls made on the state at address `a` in the course of `run w os`. -/
def invocations (a : Nat) : World → List op → Nat
  | _, [] => 0
  | w, o :: os =>
    hits a w o + (match step w o with
                  | some w1 => invocations a w1 os
                  | none => 0)

/-- The `state` object at address `a`, if that address was allocated. -/
def objAt (w : World) (a : Nat) : Option state := (w.heap[a]?).map (fun cb => cb.obj)

/-- The state object after one call through its call operator. -/
def state.called (s : state) : state := { s with calls_ := (s.calls_ + 1) % UINT_RANGE }

/-! ## Ownership accounting of the checker states -/

/-- The accounting invariant, with `ex` the pointers held by temporaries in the middle of an
operation: a use count is the number of pointers to its block, the destructor of a state has
run (once) exactly when its use count is zero, and nothing refers to an unallocated address. -/
def Inv (w : World) (ex : List handle) : Prop :=
  (∀ a cb, w.heap[a]? = some cb →
      cb.use_count = refs w a + ex.count (.ptr a) ∧
      reports w a = if cb.use_count = 0 then [cb.obj.dtor] else []) ∧
  (∀ a, w.heap.length ≤ a → refs w a = 0 ∧ ex.count (.ptr a) = 0 ∧ reports w a = [])

/-- The world in which one checker object, number 0, owns the only state, with `c` calls
counted so far. -/
def solo (e : Option Nat) (loc : source_location) (c : Nat) : World :=
  ⟨[⟨⟨loc, e, c⟩, 1⟩], [.ptr 0], []⟩

/-! ## mocking.hpp : decorated_callable -/

/-- A callable object with arguments `α` and result `ρ`, run on the program state `σ`: it
either returns a result or throws an `ε`, and leaves a state behind in both cases. What the
callable does to the argument objects is not part of what it yields: the type is used for a
callable that leaves them as they are, and for a payload, after whose call nothing reads
them. `forwarded_callable` is the type that records them. -/
abbrev callable (σ ε α ρ : Type) : Type := α → σ → Except ε ρ × σ

/-- The struct `decorated_callable<decorator_t, callable_t>`. -/
structure decorated_callable (decorator_t callable_t : Type) where
  decorator_ : decorator_t
  callable_ : callable_t

/-- A callable as `callable`, one that may also change the argument objects it is handed:
`operator()` of `decorated_callable` takes its arguments as forwarding references
`args_t&&...`, so an rvalue argument bound to a by-value parameter is moved from, and an
argument bound to a non-const reference may be written to. Besides its outcome and the
state, the callable yields the argument objects as they are when it ends. -/
abbrev forwarded_callable (σ ε α ρ : Type) : Type := α → σ → Except ε ρ × α × σ

/-- A callable that leaves the argument objects as they are, as a `forwarded_callable`. So
is the call operator of `call_count_checker`, which takes `Args&&...` and names none of
them (mocking.hpp, lines 80-83). -/
def callable.untouched {σ ε α ρ : Type} (f : callable σ ε α ρ) : forwarded_callable σ ε α ρ :=
  fun args s => ((f args s).1, args, (f args s).2)

/-- The call operator of `decorated_callable` (mocking.hpp, lines 42-46):
`decorator_(std::forward<args_t>(args)...)` as a discarded-value statement, then
`return callable_(std::forward<args_t>(args)...)`. The pack is forwarded twice: the payload
is handed the argument objects as the decorator left them. An exception of the decorator
leaves the function before the payload is reached. -/
def decorated_callable.call_forwarding {σ ε α δ ρ : Type}
    (self : decorated_callable (forwarded_callable σ ε α δ) (forwarded_callable σ ε α ρ)) :
    forwarded_callable σ ε α ρ :=
  fun args s =>
    match self.decorator_ args s with
    | (.error e, args1, s1) => (.error e, args1, s1)
    | (.ok _, args1, s1) => self.callable_ args1 s1

/-- The call operator of `decorated_callable` where decorator and payload leave the argument
objects as they are: the outcome and the state of `call_forwarding` on the two members taken
as `callable.untouched`. -/
def decorated_callable.call {σ ε α δ ρ : Type}
    (self : decorated_callable (callable σ ε α δ) (callable σ ε α ρ)) : callable σ ε α ρ :=
  fun args s =>
    let r := (decorated_callable.mk (callable.untouched self.decorator_)
      (callable.untouched self.callable_)).call_forwarding args s
    (r.1, r.2.2)

/-- Instrumentation for stating what a composite invokes: `observed tag f` behaves as `f` on
the first component of the state and first appends `(tag, args)` to a journal of calls kept
in the second component. -/
def observed {σ ε α ρ : Type} (tag : String) (f : callable σ ε α ρ) :
    callable (σ × List (String × α)) ε α ρ :=
  fun args s =>
    let r := f args s.1
    (r.1, (r.2, s.2 ++ [(tag, args)]))

/-- The instrumentation `observed` for a `forwarded_callable`: the journal entry holds the
arguments as they are when the callable is entered. -/
def observed_forwarded {σ ε α ρ : Type} (tag : String) (f : forwarded_callable σ ε α ρ) :
    forwarded_callable (σ × List (String × α)) ε α ρ :=
  fun args s =>
    let r := f args s.1
    (r.1, r.2.1, (r.2.2, s.2 ++ [(tag, args)]))

/-- The lambda `[](std::string s) { return s.size(); }` called on an rvalue `std::string`:
the parameter `s` is move-constructed from the argument object, which is left moved-from
(empty, as the standard libraries leave a string that does not fit the small-string
buffer); the value is the number of characters received. -/
def size_by_value {σ ε : Type} : forwarded_callable σ ε String Nat :=
  fun arg s => (.ok arg.length, "", s)

/-- An argument of 61 characters, longer than any small-string buffer. -/
def long_argument : String :=
  "a string of sixty-one characters, too long for a small buffer"

/-! ## Scenarios on one checker state -/

/-- The world in which `n` checker objects, numbers `0` to `n - 1`, all refer to the only
state, with `c` calls counted so far. -/
def shared (e : Option Nat) (loc : source_location) (c n : Nat) : World :=
  ⟨[⟨⟨loc, e, c⟩, n⟩], List.replicate n (.ptr 0), []⟩

/-- Whether `os` only copies and calls checker objects that exist when it starts with the
`n` objects `0` to `n - 1`: each operation is a copy construction from an existing object
(which adds one) or a call through an existing object. -/
def copies_and_calls : Nat → List op → Bool
  | _, [] => true
  | n, .copy_construct src :: os => decide (src < n) && copies_and_calls (n + 1) os
  | n, .invoke h :: os => decide (h < n) && copies_and_calls n os
  | _, _ :: _ => false

/-- Number of copy constructions in `os` (the `K` of a scenario). -/
def copies (os : List op) : Nat :=
  (os.filter (fun o => match o with | .copy_construct _ => true | _ => false)).length

/-- Number of calls in `os` (the `M` of a scenario). -/
def calls (os : List op) : Nat :=
  (os.filter (fun o => match o with | .invoke _ => true | _ => false)).length

/-- Number of times the destructor of the state at address `a` has run. -/
def runs (w : World) (a : Nat) : Nat := (reports w a).length

/-! ## Callbacks -/

/-- What a call can end with other than a return. -/
inductive fault where
  /-- The exception `std::bad_function_call`, thrown by an empty `std::function`. -/
  | bad_function_call
  /-- Any other exception, named by its description. -/
  | thrown (what : String)
  /-- No exception: the operation has no defined behaviour (a call through a checker object
  that is not alive or whose pointer is empty), and the model ends the program there. -/
  | undefined
deriving DecidableEq, Repr

/-- The call operator of `std::function<R(Args...)>`: the stored target is called, and an
object without target (`none`) throws `std::bad_function_call`. -/
def function_call {σ α ρ : Type} (target : Option (callable σ fault α ρ)) :
    callable σ fault α ρ :=
  fun args s =>
    match target with
    | some f => f args s
    | none => (.error .bad_function_call, s)

/-- A range-based `for` statement whose body is the call `f(x)`: the elements are passed in
order and an exception ends the loop. -/
def for_each {σ ε α : Type} (f : callable σ ε α Unit) : List α → σ → Except ε Unit × σ
  | [], s => (.ok (), s)
  | x :: xs, s =>
    match f x s with
    | (.error e, s1) => (.error e, s1)
    | (.ok _, s1) => for_each f xs s1

/-- A callback that appends what it is passed to the state and returns. -/
def record {ε α : Type} : callable (List α) ε α Unit :=
  fun x seen => (.ok (), seen ++ [x])

/-! ## tokenizer1.hpp -/

/-- A `std::string_view`: the characters it views. -/
abbrev string_view : Type := List Char

/-- The delimiters `const char ws[] = " \t\n"`. -/
def ws : List Char := [' ', '\t', '\n']

/-- Search of `cs`, whose first character has position `k`, for the first character that
satisfies `p`: its position, or `none` (`npos`). -/
def find_if (p : Char → Bool) : List Char → Nat → Option Nat
  | [], _ => none
  | c :: cs, k => if p c then some k else find_if p cs (k + 1)

/-- The member `find_first_not_of(set, pos)` of `std::string_view`. -/
def find_first_not_of (input : string_view) (set : List Char) (pos : Nat) : Option Nat :=
  find_if (fun c => !set.contains c) (input.drop pos) pos

/-- The member `find_first_of(set, pos)` of `std::string_view`. -/
def find_first_of (input : string_view) (set : List Char) (pos : Nat) : Option Nat :=
  find_if (fun c => set.contains c) (input.drop pos) pos

/-- The member `substr(pos, count)` of `std::string_view` for `pos ≤ size()`, which holds at
its call sites; `count = none` is `npos`, the rest of the view. -/
def substr (input : string_view) (pos : Nat) (count : Option Nat) : string_view :=
  match count with
  | none => input.drop pos
  | some n => (input.drop pos).take n

/-- The `do ... while` loop of `tokenizer1::operator()` entered with cursor `b`; the first
argument bounds the number of iterations, and `none` is "bound reached". -/
def tokenizer1.loop {σ ε : Type} (string_token : callable σ ε string_view Unit)
    (input : string_view) : Nat → Nat → σ → Option (Except ε Unit × σ)
  | 0, _, _ => none
  | fuel + 1, b, s =>
    match find_first_not_of input ws b with
    | none => some (.ok (), s)
    | some a =>
      let b1 := find_first_of input ws a
      let tok := substr input a (b1.map (fun b2 => b2 - a))
      match string_token tok s with
      | (.error e, s1) => some (.error e, s1)
      | (.ok _, s1) =>
        match b1 with
        | none => some (.ok (), s1)
        | some b2 => tokenizer1.loop string_token input fuel b2 s1

/-- The call operator of `tokenizer1` on `input`, with `callback_.string_token` as
`string_token`: the loop entered with `b = 0`. -/
def tokenizer1 {σ ε : Type} (string_token : callable σ ε string_view Unit)
    (input : string_view) (s : σ) : Option (Except ε Unit × σ) :=
  tokenizer1.loop string_token input (input.length + 1) 0 s

/-- Whether a character is a delimiter: space, tab or newline. -/
def is_ws (c : Char) : Bool := c = ' ' || c = '\t' || c = '\n'

/-- The maximal runs of non-delimiter characters of a text, left to right: the non-empty
pieces into which the delimiters split it. -/
def maximal_runs (input : string_view) : List string_view :=
  (input.splitOnP is_ws).filter (fun t => !t.isEmpty)

/-! ## tokenizer2.hpp -/

/-- The error codes that `std::from_chars` can report. -/
inductive errc where
  | invalid_argument
  | result_out_of_range
deriving DecidableEq, Repr

/-- The least value of the C++ type `int` (32 bits). -/
def INT_MIN : Int := -2147483648

/-- The greatest value of the C++ type `int` (32 bits). -/
def INT_MAX : Int := 2147483647

/-- The number written by a list of decimal digits. -/
def digits_value (ds : List Char) : Nat :=
  ds.foldl (fun acc c => 10 * acc + (c.toNat - 48)) 0

/-- The standard function `std::from_chars(first, last, value)` for `int` in base 10, on the
characters `tok`: the pattern is an optional minus sign followed by decimal digits, as many
as there are; without a digit the result is `invalid_argument`, with a number outside the
range of `int` it is `result_out_of_range`, and otherwise `ec` is `std::errc{}` and `value`
is the number (`.ok`). The member `ptr` of the result, the end of the match, is not modelled:
the caller reads `ec` only. -/
def from_chars (tok : string_view) : Except errc Int :=
  let negative := tok.head? = some '-'
  let body := if negative then tok.tail else tok
  let ds := body.takeWhile Char.isDigit
  if ds.isEmpty then .error .invalid_argument
  else
    let v : Int := if negative then -(digits_value ds : Int) else (digits_value ds : Int)
    if INT_MIN ≤ v ∧ v ≤ INT_MAX then .ok v else .error .result_out_of_range

/-- The `do ... while` loop of `tokenizer2::operator()` entered with cursor `b`; the first
argument bounds the number of iterations, and `none` is "bound reached". -/
def tokenizer2.loop {σ ε : Type} (int_token : callable σ ε Int Unit)
    (string_token : callable σ ε string_view Unit)
    (input : string_view) : Nat → Nat → σ → Option (Except ε Unit × σ)
  | 0, _, _ => none
  | fuel + 1, b, s =>
    match find_first_not_of input ws b with
    | none => some (.ok (), s)
    | some a =>
      let b1 := find_first_of input ws a
      let tok := substr input a (b1.map (fun b2 => b2 - a))
      let called :=
        match from_chars tok with
        | .ok i => int_token i s
        | .error _ => string_token tok s
      match called with
      | (.error e, s1) => some (.error e, s1)
      | (.ok _, s1) =>
        match b1 with
        | none => some (.ok (), s1)
        | some b2 => tokenizer2.loop int_token string_token input fuel b2 s1

/-- The call operator of `tokenizer2` on `input`, with `callback_.int_token` and
`callback_.string_token` as the two callbacks: the loop entered with `b = 0`. -/
def tokenizer2 {σ ε : Type} (int_token : callable σ ε Int Unit)
    (string_token : callable σ ε string_view Unit)
    (input : string_view) (s : σ) : Option (Except ε Unit × σ) :=
  tokenizer2.loop int_token string_token input (input.length + 1) 0 s

/-- What `tokenizer2` does with one token: the `if` statement on the result of
`std::from_chars`. -/
def classify {σ ε : Type} (int_token : callable σ ε Int Unit)
    (string_token : callable σ ε string_view Unit) : callable σ ε string_view Unit :=
  fun tok s =>
    match from_chars tok with
    | .ok i => int_token i s
    | .error _ => string_token tok s

/-- A call received by a recording mock of `tokenizer2`. -/
inductive token_call where
  | int_token (i : Int)
  | string_token (tok : string_view)
deriving DecidableEq, Repr

/-- An `int_token` callback that appends its call to the state and returns. -/
def record_int {ε : Type} : callable (List token_call) ε Int Unit :=
  fun i seen => (.ok (), seen ++ [.int_token i])

/-- A `string_token` callback that appends its call to the state and returns. -/
def record_string {ε : Type} : callable (List token_call) ε string_view Unit :=
  fun tok seen => (.ok (), seen ++ [.string_token tok])

/-- The reading of "the token as a whole is the decimal text of an int" taken from the claim:
an optional minus sign followed by one or more decimal digits and nothing else, the number
written lying in the range of `int`. -/
def whole_decimal_int (tok : string_view) (v : Int) : Prop :=
  ∃ ds : List Char, ds ≠ [] ∧ (∀ c ∈ ds, c.isDigit = true) ∧
    ((tok = ds ∧ v = (digits_value ds : Int)) ∨
     (tok = '-' :: ds ∧ v = -(digits_value ds : Int))) ∧
    INT_MIN ≤ v ∧ v ≤ INT_MAX

/-- The tokens on which `std::from_chars` succeeds with value `v`: an optional minus sign, a
non-empty run of decimal digits that no further digit follows, then anything; `v` is the
number written by the sign and the digits and lies in the range of `int`. -/
def decimal_prefix_int (tok : string_view) (v : Int) : Prop :=
  ∃ ds rest : List Char, ds ≠ [] ∧ (∀ c ∈ ds, c.isDigit = true) ∧
    (∀ c, rest.head? = some c → c.isDigit = false) ∧
    ((tok = ds ++ rest ∧ v = (digits_value ds : Int)) ∨
     (tok = '-' :: (ds ++ rest) ∧ v = -(digits_value ds : Int))) ∧
    INT_MIN ≤ v ∧ v ≤ INT_MAX

/-! ## unique_tokenizer.hpp -/

/-- The order in which a `std::unordered_set<std::string_view>` is iterated. The standard
leaves it to the implementation: it is some arrangement of the elements, a function of the
sequence of first insertions. -/
structure unordered_set_order where
  arrange : List string_view → List string_view
  arrange_perm : ∀ l, (arrange l).Perm l

/-- The iteration order that follows the insertions. -/
def insertion_order : unordered_set_order := ⟨id, fun l => List.Perm.refl l⟩

/-- The iteration order that goes against the insertions. -/
def reverse_order : unordered_set_order := ⟨List.reverse, fun l => List.reverse_perm l⟩

/-- The member `string_token` of the local object `uniqifier`: `tokens_.insert(word)`, the
set being held as the list of its elements in the order of their first insertion. Elements
are compared by content. -/
def uniqifier.string_token {ε : Type} : callable (List string_view) ε string_view Unit :=
  fun word tokens_ => (.ok (), if word ∈ tokens_ then tokens_ else tokens_ ++ [word])

/-- The call operator of `unique_tokenizer` on `input`, with `callback_.string_token` as
`string_token`: `tokenizer1` runs on the input with the `uniqifier` as callback, then the
elements of `uniqifier.tokens_` are passed to `string_token` in iteration order. -/
def unique_tokenizer {σ ε : Type} (order : unordered_set_order)
    (string_token : callable σ ε string_view Unit) (input : string_view) (s : σ) :
    Option (Except ε Unit × σ) :=
  match tokenizer1 (uniqifier.string_token (ε := ε)) input [] with
  | none => none
  | some (.error e, _) => some (.error e, s)
  | some (.ok _, tokens_) => some (for_each string_token (order.arrange tokens_) s)

/-! ## mocking.hpp : checkers as decorators -/

/-- The call operator of the `call_count_checker` object `h` as a callable: whatever the
arguments, `state_->calls_ += 1`; the user state `τ` is not touched. -/
def call_count_checker.call {τ α : Type} (h : Nat) : callable (World × τ) fault α Unit :=
  fun _ s =>
    match step s.1 (.invoke h) with
    | some w1 => (.ok (), (w1, s.2))
    | none => (.error .undefined, s)

/-- The call operator of a `decorated_callable<call_count_checker, callable_t>` whose
decorator is the checker object `self.decorator_`. -/
def decorated_callable.invoke {τ α ρ : Type}
    (self : decorated_callable Nat (callable (World × τ) fault α ρ)) :
    callable (World × τ) fault α ρ :=
  (decorated_callable.mk (call_count_checker.call self.decorator_) self.callable_).call

/-- The struct `counted_function<Ret(Args...)>`: a
`decorated_callable<call_count_checker, std::function<Ret(Args...)>>`, the checker object
given by its number and the `std::function` by its target, if it has one. -/
abbrev counted_function (τ α ρ : Type) : Type :=
  decorated_callable Nat (Option (callable (World × τ) fault α ρ))

/-- The call operator that `counted_function` inherits from `decorated_callable`. -/
def counted_function.call {τ α ρ : Type} (self : counted_function τ α ρ) :
    callable (World × τ) fault α ρ :=
  (decorated_callable.mk (call_count_checker.call self.decorator_)
    (function_call self.callable_)).call

/-- The member `current_count()` of `counted_function`: `decorator().current_count()`. -/
def counted_function.current_count {τ α ρ : Type} (self : counted_function τ α ρ)
    (w : World) : Option Nat :=
  Mocking.current_count w self.decorator_

/-- A default-constructed `counted_function`: its checker is default-constructed (a new
state without expectation) and its `std::function` is empty. -/
def counted_function.default {τ α ρ : Type} (location : source_location) (w : World) :
    Option (counted_function τ α ρ × World) :=
  (step w (.construct none location)).map (fun w1 => (⟨w.handles.length, none⟩, w1))

/-- The function `expect_calls(expected, f, location)` (mocking.hpp, lines 87-92): a
decorated callable whose decorator is a new checker with the expectation and the location,
and whose payload is `f`. -/
def expect_calls {C : Type} (expected : Nat) (f : C) (location : source_location)
    (w : World) : Option (decorated_callable Nat C × World) :=
  (step w (.construct (some expected) location)).map (fun w1 => (⟨w.handles.length, f⟩, w1))

/-- The templated copy assignment of `decorated_callable` (mocking.hpp, lines 27-32):
`decorator_ = other.decorator_; callable_ = other.callable_;`, with `convert` the conversion
that the assignment of the payload applies (for instance from a lambda to a
`std::function`). The assigned object keeps its own checker object, whose pointer is
copy-assigned. -/
def decorated_callable.assign {C C2 : Type} (convert : C2 → C)
    (self : decorated_callable Nat C) (other : decorated_callable Nat C2) (w : World) :
    Option (decorated_callable Nat C × World) :=
  (step w (.copy_assign self.decorator_ other.decorator_)).map
    (fun w1 => (⟨self.decorator_, convert other.callable_⟩, w1))

/-- The templated move assignment of `decorated_callable` (mocking.hpp, lines 33-38):
`decorator_ = std::move(other.decorator_); callable_ = std::move(other.callable_);`. -/
def decorated_callable.assign_move {C C2 : Type} (convert : C2 → C)
    (self : decorated_callable Nat C) (other : decorated_callable Nat C2) (w : World) :
    Option (decorated_callable Nat C × World) :=
  (step w (.move_assign self.decorator_ other.decorator_)).map
    (fun w1 => (⟨self.decorator_, convert other.callable_⟩, w1))

/-- Whether a failure message names `part`: the characters of `part` occur in it, in a
row. -/
def carries (message part : String) : Prop := part.data <:+: message.data

/-! ## Comparing the two tokenizers -/

/-- The call that `tokenizer2` makes for the token `tok`. -/
def classified (tok : string_view) : token_call :=
  match from_chars tok with
  | .ok i => .int_token i
  | .error _ => .string_token tok

/-- The argument of a recorded call if it is a call of `string_token`. -/
def token_call.string_arg : token_call → Option string_view
  | .string_token tok => some tok
  | .int_token _ => none

/-- Instrumentation for counting calls: `counting f` behaves as `f` on the first component
of the state and adds one to the second component at each call. -/
def counting {σ ε α ρ : Type} (f : callable σ ε α ρ) : callable (σ × Nat) ε α ρ :=
  fun args s =>
    let r := f args s.1
    (r.1, (r.2, s.2 + 1))

/-- What holds once the checker object `fdec` was assigned, in the step from `w` to `w1`,
the pointer of the object `bdec`, which referred to the state at `a` holding `st`: `fdec`
refers to that state; every state is as before, none was added or reset; `current_count()`
through `fdec` is what it was through `bdec`; and after any further operations every object
that refers to the state, `fdec` included, reads the count at the assignment plus the number
of calls made since on that state through any object, modulo `2^32`. -/
def shares_state_after (w w1 : World) (fdec bdec a : Nat) (st : state) : Prop :=
  w1.live fdec = some (.ptr a) ∧
  (∀ x, objAt w1 x = objAt w x) ∧
  current_count w1 fdec = current_count w bdec ∧
  current_count w1 fdec = some st.calls_ ∧
  ∀ os w2 h, run w1 os = some w2 → w2.live h = some (.ptr a) →
    current_count w2 h = some ((st.calls_ + invocations a w1 os) % UINT_RANGE) ∧
    (w2.live fdec = some (.ptr a) → current_count w2 fdec = current_count w2 h)

/-- What it is for the call operator `call` of an assigned object, in the state `w1`, to
invoke the payload `p` behind the checker object `fdec` that refers to the state at `a`
holding `st`: for all arguments, the call counts one call on that state and its outcome is
the outcome of `p` run right after. -/
def invokes_payload_counted {τ α ρ : Type} (call p : callable (World × τ) fault α ρ)
    (w1 : World) (fdec a : Nat) (st : state) : Prop :=
  ∀ (x : α) (t : τ), ∃ w2, step w1 (.invoke fdec) = some w2 ∧
    objAt w2 a = some st.called ∧ call x (w1, t) = p x (w2, t)

/-! ## Example objects -/

/-- A world with three checker objects, each the only owner of its state: numbers 0 and 1
count without expectation, number 2 expects one call. -/
def three_checkers : World :=
  ⟨[⟨⟨no_source_location, none, 0⟩, 1⟩, ⟨⟨no_source_location, none, 0⟩, 1⟩,
    ⟨⟨no_source_location, some 1, 0⟩, 1⟩], [.ptr 0, .ptr 1, .ptr 2], []⟩

/-- A payload that returns at once. -/
def returns_unit : callable (World × Unit) fault Unit Unit := fun _ s => (.ok (), s)

/-- A world with two checker objects, each the only owner of its state: number 0 expects one
call and has counted one, number 1 counts without expectation. -/
def expecting_and_plain : World :=
  ⟨[⟨⟨no_source_location, some 1, 1⟩, 1⟩, ⟨⟨no_source_location, none, 0⟩, 1⟩],
    [.ptr 0, .ptr 1], []⟩

/-! ## A mock that reads the counts while it is called -/

/-- A payload that notes down, when it runs, what `current_count()` reads through the
checker objects `hs` and `hi`, and returns. -/
def probe {α : Type} (hs hi : Nat) :
    callable (World × List (Option Nat × Option Nat)) fault α Unit :=
  fun _ s => (.ok (), (s.1, s.2 ++ [(current_count s.1 hs, current_count s.1 hi)]))

/-- Whether `tokenizer2` passes the token to `int_token`. -/
def is_int_token (tok : string_view) : Bool :=
  match from_chars tok with
  | .ok _ => true
  | .error _ => false

/-- Number of the first `k` tokens that go to `string_token`. -/
def strings_among (toks : List string_view) (k : Nat) : Nat :=
  (toks.take k).countP (fun t => !is_int_token t)

/-- Number of the first `k` tokens that go to `int_token`. -/
def ints_among (toks : List string_view) (k : Nat) : Nat :=
  (toks.take k).countP is_int_token

/-- The field `string_token` (checker object `fs`) and the field `int_token` (checker object
`fi`) of a mock refer to two different states, at `as` and `ai`, which the objects `hs` and
`hi` also refer to, and the two counters hold `cs` and `ci`. -/
def mock_counts (w : World) (fs fi hs hi as ai cs ci : Nat) : Prop :=
  as ≠ ai ∧
  w.live fs = some (.ptr as) ∧ w.live hs = some (.ptr as) ∧
  w.live fi = some (.ptr ai) ∧ w.live hi = some (.ptr ai) ∧
  (∃ ss, objAt w as = some ss ∧ ss.calls_ = cs) ∧
  (∃ si, objAt w ai = some si ∧ si.calls_ = ci)

/-- What the probes of the mock note down for the tokens `toks` when the two counters start
at `cs` and `ci`. -/
def probes : List string_view → Nat → Nat → List (Option Nat × Option Nat)
  | [], _, _ => []
  | t :: ts, cs, ci =>
    if is_int_token t then
      (some cs, some ((ci + 1) % UINT_RANGE)) :: probes ts cs ((ci + 1) % UINT_RANGE)
    else
      (some ((cs + 1) % UINT_RANGE), some ci) :: probes ts ((cs + 1) % UINT_RANGE) ci

/-- The world of the test `hello_123_ordered` of tokenizer2_test1.cpp when the tokenizer
starts: object 0 is the checker of `string_calls`, object 1 its copy held by
`callback_.string_token`, object 2 the checker held by `callback_.int_token`. -/
def hello_123_ordered_world : World :=
  ⟨[⟨⟨no_source_location, some 1, 0⟩, 2⟩, ⟨⟨no_source_location, some 1, 0⟩, 1⟩],
    [.ptr 0, .ptr 0, .ptr 1], []⟩

/-- A world with two checker objects without expectation, each the only owner of its state,
nothing counted yet. -/
def two_counters : World :=
  ⟨[⟨⟨no_source_location, none, 0⟩, 1⟩, ⟨⟨no_source_location, none, 0⟩, 1⟩],
    [.ptr 0, .ptr 1], []⟩

/-! ## Theorems: ownership accounting of the checker states -/

theorem inv_empty : Inv World.empty [] := by
  constructor
  · intro a cb h; simp [World.empty] at h
  · intro a _; simp [World.empty, refs, reports]

theorem inv_in_range {w : World} {ex : List handle} (hi : Inv w ex) {a : Nat}
    (h : 0 < refs w a + ex.count (.ptr a)) : a < w.heap.length := by
  by_contra hlt
  have := hi.2 a (Nat.le_of_not_lt hlt)
  omega

theorem count_cons_ptr (p : handle) (ex : List handle) (a : Nat) :
    (p :: ex).count (.ptr a) = ex.count (.ptr a) + (if p = .ptr a then 1 else 0) := by
  rw [List.count_cons]; simp

theorem inv_acquire {w : World} {ex : List handle} (hi : Inv w ex) (p : handle)
    (hp : ∀ a, p = .ptr a → 0 < refs w a + ex.count (.ptr a)) :
    Inv (w.acquire_ptr p) (p :: ex) := by
  cases p with
  | dead => simpa [World.acquire_ptr, Inv, count_cons_ptr] using hi
  | null => simpa [World.acquire_ptr, Inv, count_cons_ptr] using hi
  | ptr a =>
    have hpos := hp a rfl
    have hlt := inv_in_range hi hpos
    have hget : w.heap[a]? = some w.heap[a] := List.getElem?_eq_getElem hlt
    have hcb := hi.1 a _ hget
    simp only [World.acquire_ptr, World.acquire, hget]
    constructor
    · intro b cb hb
      simp only [List.getElem?_set, refs, reports, count_cons_ptr] at hb ⊢
      by_cases hab : a = b
      · subst hab
        simp only [if_true, hlt] at hb
        cases hb
        simp only [refs, reports] at hcb
        have h1 := hcb.1
        have h2 := hcb.2
        have hne : w.heap[a].use_count ≠ 0 := by simp only [refs] at hpos; omega
        simp only [if_neg hne] at h2
        simp [h1, h2, Nat.add_assoc]
      · simp only [if_neg hab] at hb
        have := hi.1 b cb hb
        simp only [refs, reports] at this
        have hne : ¬ (handle.ptr a = handle.ptr b) := by simpa using hab
        simpa [hne] using this
    · intro b hb
      simp only [List.length_set] at hb
      have := hi.2 b hb
      have hne : ¬ (handle.ptr a = handle.ptr b) := by
        intro he; cases he; omega
      simpa [refs, reports, count_cons_ptr, hne] using this

theorem inv_release {w : World} {ex : List handle} (p : handle) (hi : Inv w (p :: ex)) :
    Inv (w.release_ptr p) ex := by
  cases p with
  | dead => simpa [World.release_ptr, Inv, count_cons_ptr] using hi
  | null => simpa [World.release_ptr, Inv, count_cons_ptr] using hi
  | ptr a =>
    have hlt : a < w.heap.length := by
      apply inv_in_range hi
      rw [count_cons_ptr]; simp
    have hget : w.heap[a]? = some w.heap[a] := List.getElem?_eq_getElem hlt
    have hcb := hi.1 a _ hget
    rw [count_cons_ptr] at hcb
    simp only [if_true] at hcb
    have hne : w.heap[a].use_count ≠ 0 := by omega
    have hrep : reports w a = [] := by simpa [hne] using hcb.2
    simp only [World.release_ptr, World.release, hget]
    have hother : ∀ b, ¬ (a = b) → ¬ (handle.ptr a = handle.ptr b) := by
      intro b hab he; cases he; exact hab rfl
    by_cases hz : w.heap[a].use_count - 1 = 0
    · simp only [if_pos hz]
      constructor
      · intro b cb hb
        by_cases hab : a = b
        · subst hab
          simp only [List.getElem?_set, if_true, hlt] at hb
          cases hb
          simp only [refs, reports] at hcb hrep ⊢
          simp only [List.filter_append, List.map_append, hrep]
          simp
          omega
        · simp only [List.getElem?_set, if_neg hab] at hb
          have := hi.1 b cb hb
          rw [count_cons_ptr] at this
          simp only [refs, reports] at this ⊢
          simp only [List.filter_append, List.map_append]
          simpa [hother b hab, hab] using this
      · intro b hb
        simp only [List.length_set] at hb
        have hab : ¬ (a = b) := by omega
        have := hi.2 b hb
        rw [count_cons_ptr] at this
        simp only [refs, reports] at this ⊢
        simp only [List.filter_append, List.map_append]
        simpa [hother b hab, hab] using this
    · simp only [if_neg hz]
      constructor
      · intro b cb hb
        by_cases hab : a = b
        · subst hab
          simp only [List.getElem?_set, if_true, hlt] at hb
          cases hb
          simp only [refs, reports] at hcb hrep ⊢
          simp only [hrep, if_neg hz]
          simp
          omega
        · simp only [List.getElem?_set, if_neg hab] at hb
          have := hi.1 b cb hb
          rw [count_cons_ptr] at this
          simp only [refs, reports] at this ⊢
          simpa [hother b hab] using this
      · intro b hb
        simp only [List.length_set] at hb
        have hab : ¬ (a = b) := by omega
        have := hi.2 b hb
        rw [count_cons_ptr] at this
        simp only [refs, reports] at this ⊢
        simpa [hother b hab] using this

theorem count_set_balance (l : List handle) (i : Nat) (p q x : handle) (h : l[i]? = some q) :
    (l.set i p).count x + (if q = x then 1 else 0) = l.count x + (if p = x then 1 else 0) := by
  obtain ⟨hlt, hq⟩ := List.getElem?_eq_some.mp h
  rw [List.count_set p x l i hlt, hq]
  have hmem : q ∈ l := List.getElem?_mem h
  by_cases hqx : q = x
  · subst hqx
    have : 0 < l.count q := List.count_pos_iff.mpr hmem
    by_cases hpx : p = q
    · simp [hpx]; omega
    · simp [hpx]; omega
  · by_cases hpx : p = x
    · simp [hqx, hpx]
    · simp [hqx, hpx]

theorem inv_set_handle {w : World} {ex : List handle} {p q : handle} {i : Nat}
    (hi : Inv w (p :: ex)) (hq : w.handles[i]? = some q) :
    Inv { w with handles := w.handles.set i p } (q :: ex) := by
  constructor
  · intro b cb hb
    have h1 := hi.1 b cb hb
    have h2 := count_set_balance w.handles i p q (.ptr b) hq
    rw [count_cons_ptr] at h1 ⊢
    simp only [refs, reports] at h1 ⊢
    refine ⟨by omega, h1.2⟩
  · intro b hb
    have h1 := hi.2 b hb
    have h2 := count_set_balance w.handles i p q (.ptr b) hq
    rw [count_cons_ptr] at h1 ⊢
    simp only [refs, reports] at h1 ⊢
    refine ⟨by omega, by omega, h1.2.2⟩

theorem inv_push_handle {w : World} {ex : List handle} {p : handle} (hi : Inv w (p :: ex)) :
    Inv { w with handles := w.handles ++ [p] } ex := by
  constructor
  · intro b cb hb
    have h1 := hi.1 b cb hb
    rw [count_cons_ptr] at h1
    simp only [refs, reports, List.count_append, List.count_singleton] at h1 ⊢
    simp only [beq_iff_eq]
    refine ⟨by omega, h1.2⟩
  · intro b hb
    have h1 := hi.2 b hb
    rw [count_cons_ptr] at h1
    simp only [refs, reports, List.count_append, List.count_singleton] at h1 ⊢
    simp only [beq_iff_eq]
    refine ⟨by omega, by omega, h1.2.2⟩

theorem inv_alloc {w : World} (hi : Inv w []) (st : state) :
    Inv { w with heap := w.heap ++ [⟨st, 1⟩] } [.ptr w.heap.length] := by
  constructor
  · intro b cb hb
    by_cases hlt : b < w.heap.length
    · rw [List.getElem?_append_left hlt] at hb
      have h1 := hi.1 b cb hb
      have hne : ¬ (handle.ptr w.heap.length = handle.ptr b) := by
        intro he; cases he; omega
      rw [count_cons_ptr]
      simpa [refs, reports, hne] using h1
    · have hge : w.heap.length ≤ b := Nat.le_of_not_lt hlt
      rw [List.getElem?_append_right hge] at hb
      have hb0 : b = w.heap.length := by
        by_contra hne
        have : 0 < b - w.heap.length := by omega
        obtain ⟨k, hk⟩ := Nat.exists_eq_succ_of_ne_zero (Nat.pos_iff_ne_zero.mp this)
        rw [hk] at hb
        simp at hb
      subst hb0
      simp at hb
      subst hb
      have h1 := hi.2 w.heap.length (Nat.le_refl _)
      rw [count_cons_ptr]
      simp only [refs, reports] at h1 ⊢
      simp [h1.1, h1.2.2]
  · intro b hb
    simp only [List.length_append, List.length_singleton] at hb
    have h1 := hi.2 b (by omega)
    have hne : ¬ (handle.ptr w.heap.length = handle.ptr b) := by
      intro he; cases he; omega
    rw [count_cons_ptr]
    simpa [refs, reports, hne] using h1

theorem inv_increment {w w1 : World} {a : Nat} (hi : Inv w []) (ha : 0 < refs w a)
    (h : w.increment a = some w1) : Inv w1 [] := by
  unfold World.increment at h
  cases hget : w.heap[a]? with
  | none => simp [hget] at h
  | some cb0 =>
    simp only [hget, Option.some.injEq] at h
    subst h
    have hcb := hi.1 a cb0 hget
    have hlt : a < w.heap.length := (List.getElem?_eq_some.mp hget).1
    constructor
    · intro b cb hb
      simp only [List.getElem?_set] at hb
      by_cases hab : a = b
      · subst hab
        simp only [if_true, hlt] at hb
        cases hb
        simp only [refs, reports] at hcb ha ⊢
        have hne : cb0.use_count ≠ 0 := by omega
        simp only [if_neg hne] at hcb ⊢
        exact hcb
      · simp only [if_neg hab] at hb
        exact hi.1 b cb hb
    · intro b hb
      simp only [List.length_set] at hb
      exact hi.2 b hb

theorem inv_cons_null {w : World} {ex : List handle} (hi : Inv w ex) : Inv w (.null :: ex) := by
  simpa [Inv, count_cons_ptr] using hi

theorem inv_cons_dead {w : World} {ex : List handle} (hi : Inv w ex) : Inv w (.dead :: ex) := by
  simpa [Inv, count_cons_ptr] using hi

theorem live_eq_some {w : World} {h : Nat} {p : handle} (hl : w.live h = some p) :
    w.handles[h]? = some p := by
  unfold World.live at hl
  cases hg : w.handles[h]? with
  | none => simp [hg] at hl
  | some q =>
    cases q <;> simp_all

theorem live_refs_pos {w : World} {h a : Nat} (hl : w.live h = some (.ptr a)) :
    0 < refs w a :=
  List.count_pos_iff.mpr (List.getElem?_mem (live_eq_some hl))

theorem acquire_ptr_handles (w : World) (p : handle) : (w.acquire_ptr p).handles = w.handles := by
  cases p <;> simp only [World.acquire_ptr]
  unfold World.acquire
  split <;> rfl

theorem step_inv {w w1 : World} {o : op} (hi : Inv w []) (hs : step w o = some w1) :
    Inv w1 [] := by
  cases o with
  | construct e loc =>
    simp only [step, Option.some.injEq] at hs
    subst hs
    exact inv_push_handle (inv_alloc hi (state.ctor loc e))
  | copy_construct src =>
    simp only [step] at hs
    cases hl : w.live src with
    | none => simp [hl] at hs
    | some p =>
      simp only [hl, Option.some.injEq] at hs
      subst hs
      rw [acquire_ptr_handles]
      have hacq : Inv (w.acquire_ptr p) [p] := by
        apply inv_acquire hi
        intro a hpa
        subst hpa
        have := live_refs_pos hl
        omega
      have := inv_push_handle hacq
      rwa [acquire_ptr_handles] at this
  | move_construct src =>
    simp only [step] at hs
    cases hl : w.live src with
    | none => simp [hl] at hs
    | some p =>
      simp only [hl, Option.some.injEq] at hs
      subst hs
      exact inv_push_handle (inv_set_handle (inv_cons_null hi) (live_eq_some hl))
  | copy_assign dst src =>
    simp only [step] at hs
    cases hd : w.live dst with
    | none => simp [hd] at hs
    | some old =>
      cases hl : w.live src with
      | none => simp [hd, hl] at hs
      | some p =>
        simp only [hd, hl, Option.some.injEq] at hs
        subst hs
        have hacq : Inv (w.acquire_ptr p) [p] := by
          apply inv_acquire hi
          intro a hpa
          subst hpa
          have := live_refs_pos hl
          omega
        have hdst : (w.acquire_ptr p).handles[dst]? = some old := by
          rw [acquire_ptr_handles]; exact live_eq_some hd
        exact inv_release old (inv_set_handle hacq hdst)
  | move_assign dst src =>
    simp only [step] at hs
    cases hd : w.live dst with
    | none => simp [hd] at hs
    | some old =>
      cases hl : w.live src with
      | none => simp [hd, hl] at hs
      | some p =>
        simp only [hd, hl, Option.some.injEq] at hs
        subst hs
        have h1 : Inv { w with handles := w.handles.set src .null } [p] :=
          inv_set_handle (inv_cons_null hi) (live_eq_some hl)
        have hlt : dst < (w.handles.set src .null).length := by
          rw [List.length_set]
          exact (List.getElem?_eq_some.mp (live_eq_some hd)).1
        have hget : (w.handles.set src .null)[dst]? =
            some ((w.handles.set src .null).getD dst .null) := by
          rw [List.getD_eq_getElem?_getD, List.getElem?_eq_getElem hlt]
          rfl
        exact inv_release _ (inv_set_handle h1 hget)
  | invoke h =>
    simp only [step] at hs
    cases hl : w.live h with
    | none => simp [hl] at hs
    | some p =>
      cases p with
      | dead => simp [hl] at hs
      | null => simp [hl] at hs
      | ptr a =>
        simp only [hl] at hs
        exact inv_increment hi (live_refs_pos hl) hs
  | current_count h =>
    simp only [step] at hs
    split at hs
    · simp only [Option.some.injEq] at hs
      subst hs
      exact hi
    · simp at hs
  | destroy h =>
    simp only [step] at hs
    cases hl : w.live h with
    | none => simp [hl] at hs
    | some p =>
      simp only [hl, Option.some.injEq] at hs
      subst hs
      exact inv_release p (inv_set_handle (inv_cons_dead hi) (live_eq_some hl))

theorem run_inv {os : List op} : ∀ {w w1 : World}, Inv w [] → run w os = some w1 → Inv w1 [] := by
  induction os with
  | nil =>
    intro w w1 hi hr
    simp only [run, Option.some.injEq] at hr
    subst hr
    exact hi
  | cons o os ih =>
    intro w w1 hi hr
    simp only [run] at hr
    cases hs : step w o with
    | none => simp [hs] at hr
    | some w2 =>
      simp only [hs, Option.some_bind] at hr
      exact ih (step_inv hi hs) hr

/-! ## The state object along a run -/

theorem objAt_acquire_ptr (w : World) (p : handle) (a : Nat) :
    objAt (w.acquire_ptr p) a = objAt w a := by
  cases p <;> simp only [World.acquire_ptr]
  rename_i b
  unfold World.acquire
  cases hg : w.heap[b]? with
  | none => rfl
  | some cb =>
    simp only [objAt, List.getElem?_set]
    by_cases hab : b = a
    · subst hab
      have hlt : b < w.heap.length := (List.getElem?_eq_some.mp hg).1
      simp [hlt, hg]
    · simp [hab]

theorem objAt_release_ptr (w : World) (p : handle) (a : Nat) :
    objAt (w.release_ptr p) a = objAt w a := by
  cases p <;> simp only [World.release_ptr]
  rename_i b
  unfold World.release
  cases hg : w.heap[b]? with
  | none => rfl
  | some cb =>
    have hlt : b < w.heap.length := (List.getElem?_eq_some.mp hg).1
    simp only []
    by_cases hz : cb.use_count - 1 = 0
    · rw [if_pos hz]
      by_cases hab : b = a
      · subst hab
        simp [objAt, List.getElem?_set, hlt, hg]
      · simp [objAt, List.getElem?_set, hab]
    · rw [if_neg hz]
      by_cases hab : b = a
      · subst hab
        simp [objAt, List.getElem?_set, hlt, hg]
      · simp [objAt, List.getElem?_set, hab]

theorem objAt_handles (w : World) (hs : List handle) (a : Nat) :
    objAt { w with handles := hs } a = objAt w a := rfl

theorem objAt_increment {w w1 : World} {b : Nat} (h : w.increment b = some w1) (a : Nat)
    {st : state} (hst : objAt w a = some st) :
    objAt w1 a = some (if b = a then st.called else st) := by
  unfold World.increment at h
  cases hg : w.heap[b]? with
  | none => simp [hg] at h
  | some cb =>
    simp only [hg, Option.some.injEq] at h
    subst h
    have hlt : b < w.heap.length := (List.getElem?_eq_some.mp hg).1
    by_cases hab : b = a
    · subst hab
      simp only [objAt, hg, Option.map_some', Option.some.injEq] at hst
      simp [objAt, List.getElem?_set, hlt, state.called, ← hst]
    · simpa [objAt, List.getElem?_set, hab] using hst

theorem step_objAt {w w1 : World} {o : op} (hs : step w o = some w1) (a : Nat) {st : state}
    (hst : objAt w a = some st) :
    objAt w1 a = some (if hits a w o = 1 then st.called else st) := by
  have hlt : a < w.heap.length := by
    simp only [objAt, Option.map_eq_some'] at hst
    obtain ⟨cb, hcb, _⟩ := hst
    exact (List.getElem?_eq_some.mp hcb).1
  cases o with
  | construct e loc =>
    simp only [step, Option.some.injEq] at hs
    subst hs
    simpa [objAt, hits, List.getElem?_append_left hlt] using hst
  | copy_construct src =>
    simp only [step] at hs
    cases hl : w.live src with
    | none => simp [hl] at hs
    | some p =>
      simp only [hl, Option.some.injEq] at hs
      subst hs
      simpa [hits, objAt_handles, objAt_acquire_ptr] using hst
  | move_construct src =>
    simp only [step] at hs
    cases hl : w.live src with
    | none => simp [hl] at hs
    | some p =>
      simp only [hl, Option.some.injEq] at hs
      subst hs
      simpa [hits, objAt_handles] using hst
  | copy_assign dst src =>
    simp only [step] at hs
    cases hd : w.live dst with
    | none => simp [hd] at hs
    | some old =>
      cases hl : w.live src with
      | none => simp [hd, hl] at hs
      | some p =>
        simp only [hd, hl, Option.some.injEq] at hs
        subst hs
        simpa [hits, objAt_release_ptr, objAt_handles, objAt_acquire_ptr] using hst
  | move_assign dst src =>
    simp only [step] at hs
    cases hd : w.live dst with
    | none => simp [hd] at hs
    | some old =>
      cases hl : w.live src with
      | none => simp [hd, hl] at hs
      | some p =>
        simp only [hd, hl, Option.some.injEq] at hs
        subst hs
        simpa [hits, objAt_release_ptr, objAt_handles] using hst
  | invoke h =>
    simp only [step] at hs
    cases hl : w.live h with
    | none => simp [hl] at hs
    | some p =>
      cases p with
      | dead => simp [hl] at hs
      | null => simp [hl] at hs
      | ptr b =>
        simp only [hl] at hs
        rw [objAt_increment hs a hst]
        by_cases hab : b = a
        · simp [hits, hl, hab]
        · simp [hits, hl, hab]
  | current_count h =>
    simp only [step] at hs
    split at hs
    · simp only [Option.some.injEq] at hs
      subst hs
      simpa [hits] using hst
    · simp at hs
  | destroy h =>
    simp only [step] at hs
    cases hl : w.live h with
    | none => simp [hl] at hs
    | some p =>
      simp only [hl, Option.some.injEq] at hs
      subst hs
      simpa [hits, objAt_release_ptr, objAt_handles] using hst

theorem called_calls_lt (st : state) : st.called.calls_ < UINT_RANGE := by
  simp only [state.called, UINT_RANGE]
  omega

theorem run_objAt {os : List op} (a : Nat) : ∀ {w w1 : World} {st : state},
    run w os = some w1 → objAt w a = some st → st.calls_ < UINT_RANGE →
    ∃ st1, objAt w1 a = some st1 ∧ st1.location_ = st.location_ ∧
      st1.expected_ = st.expected_ ∧
      st1.calls_ = (st.calls_ + invocations a w os) % UINT_RANGE := by
  induction os with
  | nil =>
    intro w w1 st hr hst hlt
    simp only [run, Option.some.injEq] at hr
    subst hr
    refine ⟨st, hst, rfl, rfl, ?_⟩
    simp only [invocations, Nat.add_zero]
    exact (Nat.mod_eq_of_lt hlt).symm
  | cons o os ih =>
    intro w w1 st hr hst hlt
    simp only [run] at hr
    cases hs : step w o with
    | none => simp [hs] at hr
    | some w2 =>
      simp only [hs, Option.some_bind] at hr
      have h2 := step_objAt hs a hst
      simp only [invocations, hs]
      by_cases hh : hits a w o = 1
      · rw [if_pos hh] at h2
        obtain ⟨st1, h1, hloc, hexp, hcalls⟩ := ih hr h2 (called_calls_lt st)
        refine ⟨st1, h1, hloc, hexp, ?_⟩
        rw [hcalls, hh]
        simp only [state.called, UINT_RANGE]
        omega
      · rw [if_neg hh] at h2
        obtain ⟨st1, h1, hloc, hexp, hcalls⟩ := ih hr h2 hlt
        refine ⟨st1, h1, hloc, hexp, ?_⟩
        have h0 : hits a w o = 0 := by
          cases o <;> simp only [hits] at hh ⊢
          split <;> simp_all
        rw [hcalls, h0, Nat.zero_add]

theorem run_solo_invokes (e : Option Nat) (loc : source_location) (os : List op) :
    ∀ (n c : Nat), run (solo e loc c) (List.replicate n (.invoke 0) ++ os) =
      run (solo e loc (if n = 0 then c else (c + n) % UINT_RANGE)) os := by
  intro n
  induction n with
  | zero => intro c; simp
  | succ n ih =>
    intro c
    have hstep : step (solo e loc c) (.invoke 0) = some (solo e loc ((c + 1) % UINT_RANGE)) := by
      simp [step, solo, World.live, World.increment]
    rw [List.replicate_succ, List.cons_append, run, hstep, Option.some_bind, ih]
    congr 2
    by_cases hn : n = 0
    · simp [hn]
    · simp only [if_neg hn, Nat.succ_ne_zero, if_false, UINT_RANGE]
      omega

theorem invocations_solo_invokes (e : Option Nat) (loc : source_location) (os : List op) :
    ∀ (n c : Nat), invocations 0 (solo e loc c) (List.replicate n (.invoke 0) ++ os) =
      n + invocations 0 (solo e loc (if n = 0 then c else (c + n) % UINT_RANGE)) os := by
  intro n
  induction n with
  | zero => intro c; simp
  | succ n ih =>
    intro c
    have hstep : step (solo e loc c) (.invoke 0) = some (solo e loc ((c + 1) % UINT_RANGE)) := by
      simp [step, solo, World.live, World.increment]
    have hhit : hits 0 (solo e loc c) (.invoke 0) = 1 := by
      simp [hits, solo, World.live]
    rw [List.replicate_succ, List.cons_append, invocations, hstep, hhit]
    simp only [ih]
    have : (if n = 0 then (c + 1) % UINT_RANGE else ((c + 1) % UINT_RANGE + n) % UINT_RANGE)
        = (if n + 1 = 0 then c else (c + (n + 1)) % UINT_RANGE) := by
      by_cases hn : n = 0
      · simp [hn]
      · simp only [if_neg hn, Nat.succ_ne_zero, if_false, UINT_RANGE]
        omega
    rw [this, ← Nat.add_assoc, Nat.add_comm 1 n]

/-! ## Theorems: the deferred verification (C1) -/

theorem objAt_alloc (w : World) (st : state) (hs : List handle) :
    objAt { w with heap := w.heap ++ [⟨st, 1⟩], handles := hs } w.heap.length = some st := by
  simp [objAt]

theorem inv_dtor_of_unreferenced {w : World} (hi : Inv w []) {a : Nat} {st : state}
    (hst : objAt w a = some st) (hgone : refs w a = 0) : reports w a = [st.dtor] := by
  simp only [objAt, Option.map_eq_some'] at hst
  obtain ⟨cb, hcb, hobj⟩ := hst
  have h := hi.1 a cb hcb
  have hz : cb.use_count = 0 := by simpa [hgone] using h.1
  rw [h.2, if_pos hz, hobj]

/-- C1 (as amended): a checker state is constructed with the optional expectation `e` at any
point of a program, the program runs on and ends with no checker object referring to that
state, and `N` calls were made on it. Then the destructor of the state ran exactly once; it
reported nothing if no expectation was set; with `e = some E` it reported a failure iff
`N % 2^32 ≠ E`, hence iff `N ≠ E` whenever `N < 2^32`. -/
theorem deferred_verification_verdict (pre rest : List op) (e : Option Nat)
    (loc : source_location) (w0 w : World)
    (hpre : run World.empty pre = some w0)
    (hrun : run w0 (.construct e loc :: rest) = some w)
    (hgone : refs w w0.heap.length = 0) :
    ∃ r, reports w w0.heap.length = [r] ∧
      (e = none → r = none) ∧
      (∀ E, e = some E →
        (r.isSome ↔
          invocations w0.heap.length w0 (.construct e loc :: rest) % UINT_RANGE ≠ E)) ∧
      (∀ E, e = some E →
        invocations w0.heap.length w0 (.construct e loc :: rest) < UINT_RANGE →
        (r.isSome ↔ invocations w0.heap.length w0 (.construct e loc :: rest) ≠ E)) := by
  have hi0 : Inv w0 [] := run_inv inv_empty hpre
  have hi : Inv w [] := run_inv hi0 hrun
  simp only [run, step, Option.some_bind] at hrun
  have hst := objAt_alloc w0 (state.ctor loc e) (w0.handles ++ [.ptr w0.heap.length])
  obtain ⟨st1, h1, _, hexp, hcalls⟩ :=
    run_objAt w0.heap.length hrun hst (by simp [state.ctor, UINT_RANGE])
  have hrep := inv_dtor_of_unreferenced hi h1 hgone
  have hinv : invocations w0.heap.length w0 (.construct e loc :: rest) =
      invocations w0.heap.length
        { w0 with heap := w0.heap ++ [⟨state.ctor loc e, 1⟩],
                  handles := w0.handles ++ [.ptr w0.heap.length] } rest := by
    simp [invocations, hits, step]
  rw [hinv]
  simp only [state.ctor, Nat.zero_add] at hcalls hexp ⊢
  generalize invocations _ _ rest = N at hcalls ⊢
  refine ⟨st1.dtor, hrep, ?_, ?_, ?_⟩
  · intro he
    simp [state.dtor, hexp, he]
  · intro E he
    have hE : st1.expected_ = some E := by rw [hexp, he]
    rw [← hcalls]
    simp only [state.dtor, hE]
    by_cases h : E = st1.calls_
    · simp [h]
    · simp only [if_neg h, Option.isSome_some, true_iff]
      exact fun h2 => h h2.symm
  · intro E he hlt
    have hE : st1.expected_ = some E := by rw [hexp, he]
    rw [Nat.mod_eq_of_lt hlt] at hcalls
    rw [← hcalls]
    simp only [state.dtor, hE]
    by_cases h : E = st1.calls_
    · simp [h]
    · simp only [if_neg h, Option.isSome_some, true_iff]
      exact fun h2 => h h2.symm

theorem deferred_verification_verdict_witness :
    ∃ r, reports ⟨[⟨⟨⟨"t.cpp", 36⟩, some 1, 2⟩, 0⟩], [.dead], [(0, some
        "Function defined at t.cpp:36 expected 1 calls, 2 seen")]⟩ 0 = [r] ∧
      ((some 1 : Option Nat) = none → r = none) ∧
      (∀ E, some 1 = some E →
        (r.isSome ↔
          invocations 0 World.empty
            [.construct (some 1) ⟨"t.cpp", 36⟩, .invoke 0, .invoke 0, .destroy 0]
            % UINT_RANGE ≠ E)) ∧
      (∀ E, some 1 = some E →
        invocations 0 World.empty
            [.construct (some 1) ⟨"t.cpp", 36⟩, .invoke 0, .invoke 0, .destroy 0]
          < UINT_RANGE →
        (r.isSome ↔ invocations 0 World.empty
            [.construct (some 1) ⟨"t.cpp", 36⟩, .invoke 0, .invoke 0, .destroy 0] ≠ E)) :=
  deferred_verification_verdict [] [.invoke 0, .invoke 0, .destroy 0] (some 1) ⟨"t.cpp", 36⟩
    World.empty _ rfl (by decide) (by decide)

theorem step_construct_empty (e : Option Nat) (loc : source_location) :
    step World.empty (.construct e loc) = some (solo e loc 0) := rfl

theorem invocations_scenario (e : Option Nat) (loc : source_location) (n : Nat) :
    invocations 0 World.empty (.construct e loc ::
      (List.replicate n (.invoke 0) ++ [.destroy 0])) = n := by
  rw [invocations, step_construct_empty]
  simp only [invocations_solo_invokes]
  simp [invocations, hits, step, solo, World.live]

theorem run_scenario (e : Option Nat) (loc : source_location) (n : Nat) :
    run World.empty (.construct e loc :: (List.replicate n (.invoke 0) ++ [.destroy 0])) =
      some ⟨[⟨⟨loc, e, n % UINT_RANGE⟩, 0⟩], [.dead],
        [(0, state.dtor ⟨loc, e, n % UINT_RANGE⟩)]⟩ := by
  rw [run, step_construct_empty, Option.some_bind, run_solo_invokes]
  have h : (if n = 0 then 0 else (0 + n) % UINT_RANGE) = n % UINT_RANGE := by
    by_cases hn : n = 0
    · simp [hn]
    · simp [hn]
  rw [h]
  rfl

/-- C1 as stated fails: with expectation `E = 0` and `N = 2^32` calls the 32-bit counter has
wrapped to zero when the state is destroyed, and nothing is reported although `N ≠ E` (the
checker was invoked at least once). -/
theorem verdict_wraps_counterexample :
    ∃ w, run World.empty (.construct (some 0) no_source_location ::
          (List.replicate UINT_RANGE (.invoke 0) ++ [.destroy 0])) = some w ∧
      invocations 0 World.empty (.construct (some 0) no_source_location ::
          (List.replicate UINT_RANGE (.invoke 0) ++ [.destroy 0])) = UINT_RANGE ∧
      UINT_RANGE ≠ 0 ∧
      reports w 0 = [none] := by
  refine ⟨_, run_scenario _ _ _, invocations_scenario _ _ _, by decide, ?_⟩
  rw [Nat.mod_self]
  rfl

/-! ## Theorems: decorated_callable (C2) -/

/-- The call operator on members that leave the argument objects as they are: the decorator
runs on the arguments, and when it returns the payload runs on the same arguments in the
state the decorator left; when it throws, that is the outcome. -/
theorem decorated_callable.call_eq {σ ε α δ ρ : Type}
    (self : decorated_callable (callable σ ε α δ) (callable σ ε α ρ)) (args : α) (s : σ) :
    self.call args s =
      (match self.decorator_ args s with
       | (.error e, s1) => (.error e, s1)
       | (.ok _, s1) => self.callable_ args s1) := by
  simp only [decorated_callable.call, decorated_callable.call_forwarding, callable.untouched]
  rcases self.decorator_ args s with ⟨r, s1⟩
  cases r <;> rfl

/-- The calls the call operator makes, for every decorator `d` and payload `p`: `d` on the
arguments `x` first; when `d` returns (its value is dropped), `p` on the argument objects as
`d` left them, whose outcome is the outcome of the whole; when `d` throws, nothing more. -/
theorem call_forwarding_observed {σ ε α δ ρ : Type}
    (d : forwarded_callable σ ε α δ) (p : forwarded_callable σ ε α ρ) (x : α) (s : σ)
    (journal : List (String × α)) :
    (decorated_callable.mk (observed_forwarded "decorator" d)
        (observed_forwarded "payload" p)).call_forwarding x (s, journal) =
      (match d x s with
       | (.ok _, x1, s1) =>
         ((p x1 s1).1, (p x1 s1).2.1,
           ((p x1 s1).2.2, journal ++ [("decorator", x), ("payload", x1)]))
       | (.error e, x1, s1) => (.error e, x1, (s1, journal ++ [("decorator", x)]))) := by
  simp only [decorated_callable.call_forwarding, observed_forwarded]
  rcases hd : d x s with ⟨r, x1, s1⟩
  cases r with
  | error e => simp
  | ok v => simp

/-- C2: the claim fails on the code at a decorator that takes its argument by value. The
composite of a decorator and a payload that are both `[](std::string s) { return s.size(); }`
is invoked on an rvalue string of 61 characters. The decorator is called on the 61
characters and leaves the argument object moved-from; the payload is then called on that
empty object, not on the same argument, and the composite returns 0, whereas the payload
called on the argument returns 61. The decorator's value (61) is dropped. -/
theorem decorated_call_hands_payload_moved_from_argument :
    (decorated_callable.mk (observed_forwarded "decorator" size_by_value)
        (observed_forwarded "payload" size_by_value)).call_forwarding long_argument
        ((), []) =
      ((.ok 0 : Except fault Nat), "",
        ((), [("decorator", long_argument), ("payload", "")])) ∧
    ((decorated_callable.mk size_by_value size_by_value).call_forwarding long_argument
        ()).1 = (.ok 0 : Except fault Nat) ∧
    (size_by_value long_argument ()).1 = (.ok 61 : Except fault Nat) ∧
    long_argument ≠ "" := by
  refine ⟨rfl, rfl, rfl, by decide⟩

/-! ## Theorems: one shared counter (C3) -/

theorem replicate_getElem?_lt {α : Type} (x : α) {n h : Nat} (hlt : h < n) :
    (List.replicate n x)[h]? = some x := by
  rw [List.getElem?_eq_getElem (by simpa using hlt)]
  simp

theorem live_shared (e : Option Nat) (loc : source_location) (c : Nat) {n h : Nat}
    (hlt : h < n) : (shared e loc c n).live h = some (.ptr 0) := by
  simp [World.live, shared, replicate_getElem?_lt _ hlt]

theorem current_count_shared (e : Option Nat) (loc : source_location) (c : Nat) {n h : Nat}
    (hlt : h < n) : current_count (shared e loc c n) h = some c := by
  rw [current_count, live_shared e loc c hlt]
  simp [shared]

theorem step_shared_copy (e : Option Nat) (loc : source_location) (c : Nat) {n src : Nat}
    (hlt : src < n) :
    step (shared e loc c n) (.copy_construct src) = some (shared e loc c (n + 1)) := by
  simp only [step, live_shared e loc c hlt]
  simp [shared, World.acquire_ptr, World.acquire, List.replicate_succ']

theorem step_shared_invoke (e : Option Nat) (loc : source_location) (c : Nat) {n h : Nat}
    (hlt : h < n) :
    step (shared e loc c n) (.invoke h) = some (shared e loc ((c + 1) % UINT_RANGE) n) := by
  simp only [step, live_shared e loc c hlt]
  simp [shared, World.increment]

theorem run_shared (e : Option Nat) (loc : source_location) (os : List op) :
    ∀ (c n : Nat), c < UINT_RANGE → copies_and_calls n os = true →
      run (shared e loc c n) os =
        some (shared e loc ((c + calls os) % UINT_RANGE) (n + copies os)) := by
  induction os with
  | nil =>
    intro c n hc _
    simp [run, calls, copies, Nat.mod_eq_of_lt hc]
  | cons o os ih =>
    intro c n hc hsc
    cases o with
    | copy_construct src =>
      simp only [copies_and_calls, Bool.and_eq_true, decide_eq_true_eq] at hsc
      rw [run, step_shared_copy e loc c hsc.1, Option.some_bind, ih c (n + 1) hc hsc.2]
      simp [calls, copies, Nat.add_assoc, Nat.add_comm 1]
    | invoke h =>
      simp only [copies_and_calls, Bool.and_eq_true, decide_eq_true_eq] at hsc
      have hc1 : (c + 1) % UINT_RANGE < UINT_RANGE := by
        simp only [UINT_RANGE]; omega
      rw [run, step_shared_invoke e loc c hsc.1, Option.some_bind,
        ih ((c + 1) % UINT_RANGE) n hc1 hsc.2]
      have h1 : calls (op.invoke h :: os) = calls os + 1 := by simp [calls]
      have h2 : copies (op.invoke h :: os) = copies os := by simp [copies]
      rw [h1, h2]
      congr 2
      simp only [UINT_RANGE]
      omega
    | construct _ _ => simp [copies_and_calls] at hsc
    | move_construct _ => simp [copies_and_calls] at hsc
    | copy_assign _ _ => simp [copies_and_calls] at hsc
    | move_assign _ _ => simp [copies_and_calls] at hsc
    | current_count _ => simp [copies_and_calls] at hsc
    | destroy _ => simp [copies_and_calls] at hsc

theorem current_count_of_objAt {w : World} {h a : Nat} {st : state}
    (hl : w.live h = some (.ptr a)) (hst : objAt w a = some st) :
    current_count w h = some st.calls_ := by
  simp only [objAt, Option.map_eq_some'] at hst
  obtain ⟨cb, hcb, hobj⟩ := hst
  simp [current_count, hl, hcb, hobj]

theorem current_count_eq_invocations {rest : List op} {e : Option Nat}
    {loc : source_location} {w0 w : World} {h : Nat}
    (hrun : run w0 (.construct e loc :: rest) = some w)
    (hl : w.live h = some (.ptr w0.heap.length)) :
    current_count w h =
      some (invocations w0.heap.length w0 (.construct e loc :: rest) % UINT_RANGE) := by
  simp only [run, step, Option.some_bind] at hrun
  have hst := objAt_alloc w0 (state.ctor loc e) (w0.handles ++ [.ptr w0.heap.length])
  obtain ⟨st1, h1, _, _, hcalls⟩ :=
    run_objAt w0.heap.length hrun hst (by simp [state.ctor, UINT_RANGE])
  have hinv : invocations w0.heap.length w0 (.construct e loc :: rest) =
      invocations w0.heap.length
        { w0 with heap := w0.heap ++ [⟨state.ctor loc e, 1⟩],
                  handles := w0.handles ++ [.ptr w0.heap.length] } rest := by
    simp [invocations, hits, step]
  rw [current_count_of_objAt hl h1, hcalls, hinv]
  simp [state.ctor]

/-- C3 (as amended): a checker is constructed and then copied `K` times and called `M`
times, the copies and calls interleaved in any order and made from or through any of the
objects that exist at that point. The program is defined, and `current_count()` read through
any of the `K + 1` objects is `M % 2^32`, hence `M` whenever `M < 2^32`: one counter. More
generally, after a checker was constructed anywhere in a program and the program ran on by
any operations, `current_count()` through every object that then refers to its state is the
number of calls made on that state, modulo `2^32`. -/
theorem copies_share_one_counter (e : Option Nat) (loc : source_location) (os : List op)
    (hsc : copies_and_calls 1 os = true) :
    (∃ w, run World.empty (.construct e loc :: os) = some w ∧
      ∀ h, h < copies os + 1 →
        current_count w h = some (calls os % UINT_RANGE) ∧
        (calls os < UINT_RANGE → current_count w h = some (calls os))) ∧
    (∀ (rest : List op) (w0 w : World) (h : Nat),
      run w0 (.construct e loc :: rest) = some w →
      w.live h = some (.ptr w0.heap.length) →
      current_count w h =
        some (invocations w0.heap.length w0 (.construct e loc :: rest) % UINT_RANGE)) := by
  have hrun := run_shared e loc os 0 1 (by decide) hsc
  rw [Nat.zero_add] at hrun
  refine ⟨⟨shared e loc (calls os % UINT_RANGE) (1 + copies os), ?_, ?_⟩, ?_⟩
  · rw [run, step_construct_empty, Option.some_bind]
    exact hrun
  · intro h hh
    have hcc := current_count_shared e loc (calls os % UINT_RANGE)
      (show h < 1 + copies os by omega)
    refine ⟨hcc, fun hlt => ?_⟩
    rw [hcc, Nat.mod_eq_of_lt hlt]
  · intro rest w0 w h hr hl
    exact current_count_eq_invocations hr hl

theorem copies_share_one_counter_witness :
    (∃ w, run World.empty (.construct (some 2) no_source_location ::
        [.invoke 0, .copy_construct 0, .copy_construct 1, .invoke 2, .invoke 1]) = some w ∧
      ∀ h, h < copies [.invoke 0, .copy_construct 0, .copy_construct 1, .invoke 2, .invoke 1]
          + 1 →
        current_count w h = some
          (calls [.invoke 0, .copy_construct 0, .copy_construct 1, .invoke 2, .invoke 1]
            % UINT_RANGE) ∧
        (calls [.invoke 0, .copy_construct 0, .copy_construct 1, .invoke 2, .invoke 1]
            < UINT_RANGE →
          current_count w h = some
            (calls [.invoke 0, .copy_construct 0, .copy_construct 1, .invoke 2, .invoke 1]))) ∧
    (∀ (rest : List op) (w0 w : World) (h : Nat),
      run w0 (.construct (some 2) no_source_location :: rest) = some w →
      w.live h = some (.ptr w0.heap.length) →
      current_count w h =
        some (invocations w0.heap.length w0
          (.construct (some 2) no_source_location :: rest) % UINT_RANGE)) :=
  copies_share_one_counter (some 2) no_source_location
    [.invoke 0, .copy_construct 0, .copy_construct 1, .invoke 2, .invoke 1] (by decide)

theorem calls_replicate_invoke (n h : Nat) : calls (List.replicate n (op.invoke h)) = n := by
  induction n with
  | zero => rfl
  | succ n ih =>
    rw [List.replicate_succ]
    have : calls (op.invoke h :: List.replicate n (op.invoke h)) =
        calls (List.replicate n (op.invoke h)) + 1 := by simp [calls]
    rw [this, ih]

/-- C3 as stated fails: with no copy (`K = 0`) and `M = 2^32` calls through the original
object, `current_count()` reads 0, not `M`. -/
theorem shared_counter_wraps_counterexample :
    ∃ w, run World.empty (.construct none no_source_location ::
        List.replicate UINT_RANGE (.invoke 0)) = some w ∧
      calls (List.replicate UINT_RANGE (.invoke 0)) = UINT_RANGE ∧
      current_count w 0 = some 0 ∧ UINT_RANGE ≠ 0 := by
  have h := run_solo_invokes none no_source_location [] UINT_RANGE 0
  rw [List.append_nil] at h
  refine ⟨solo none no_source_location 0, ?_, calls_replicate_invoke _ _, rfl, by decide⟩
  rw [run, step_construct_empty, Option.some_bind, h]
  have hz : (if UINT_RANGE = 0 then 0 else (0 + UINT_RANGE) % UINT_RANGE) = 0 := by
    simp [UINT_RANGE]
  rw [hz]
  rfl

/-! ## Theorems: the verification runs once, at the last release (C4) -/

theorem release_ptr_handles (w : World) (p : handle) : (w.release_ptr p).handles = w.handles := by
  cases p <;> simp only [World.release_ptr]
  unfold World.release
  split
  · split <;> rfl
  · rfl

theorem live_mem {w : World} {h : Nat} {p : handle} (hl : w.live h = some p) : p ∈ w.handles :=
  List.getElem?_mem (live_eq_some hl)

theorem step_handles_mem {w w1 : World} {o : op} (hs : step w o = some w1) :
    ∀ x ∈ w1.handles, x ∈ w.handles ∨ x = .null ∨ x = .dead ∨ x = .ptr w.heap.length := by
  intro x hx
  cases o with
  | construct e loc =>
    simp only [step, Option.some.injEq] at hs
    subst hs
    simp only [List.mem_append, List.mem_singleton] at hx
    rcases hx with hx | hx
    · exact Or.inl hx
    · exact Or.inr (Or.inr (Or.inr hx))
  | copy_construct src =>
    simp only [step] at hs
    cases hl : w.live src with
    | none => simp [hl] at hs
    | some p =>
      simp only [hl, Option.some.injEq] at hs
      subst hs
      simp only [acquire_ptr_handles, List.mem_append, List.mem_singleton] at hx
      rcases hx with hx | hx
      · exact Or.inl hx
      · exact Or.inl (hx ▸ live_mem hl)
  | move_construct src =>
    simp only [step] at hs
    cases hl : w.live src with
    | none => simp [hl] at hs
    | some p =>
      simp only [hl, Option.some.injEq] at hs
      subst hs
      simp only [List.mem_append, List.mem_singleton] at hx
      rcases hx with hx | hx
      · rcases List.mem_or_eq_of_mem_set hx with h1 | h1
        · exact Or.inl h1
        · exact Or.inr (Or.inl h1)
      · exact Or.inl (hx ▸ live_mem hl)
  | copy_assign dst src =>
    simp only [step] at hs
    cases hd : w.live dst with
    | none => simp [hd] at hs
    | some old =>
      cases hl : w.live src with
      | none => simp [hd, hl] at hs
      | some p =>
        simp only [hd, hl, Option.some.injEq] at hs
        subst hs
        simp only [release_ptr_handles, acquire_ptr_handles] at hx
        rcases List.mem_or_eq_of_mem_set hx with h1 | h1
        · exact Or.inl h1
        · exact Or.inl (h1 ▸ live_mem hl)
  | move_assign dst src =>
    simp only [step] at hs
    cases hd : w.live dst with
    | none => simp [hd] at hs
    | some old =>
      cases hl : w.live src with
      | none => simp [hd, hl] at hs
      | some p =>
        simp only [hd, hl, Option.some.injEq] at hs
        subst hs
        simp only [release_ptr_handles] at hx
        rcases List.mem_or_eq_of_mem_set hx with h1 | h1
        · rcases List.mem_or_eq_of_mem_set h1 with h2 | h2
          · exact Or.inl h2
          · exact Or.inr (Or.inl h2)
        · exact Or.inl (h1 ▸ live_mem hl)
  | invoke h =>
    simp only [step] at hs
    cases hl : w.live h with
    | none => simp [hl] at hs
    | some p =>
      cases p with
      | dead => simp [hl] at hs
      | null => simp [hl] at hs
      | ptr a =>
        simp only [hl, World.increment] at hs
        split at hs
        · simp only [Option.some.injEq] at hs
          subst hs
          exact Or.inl hx
        · simp at hs
  | current_count h =>
    simp only [step] at hs
    split at hs
    · simp only [Option.some.injEq] at hs
      subst hs
      exact Or.inl hx
    · simp at hs
  | destroy h =>
    simp only [step] at hs
    cases hl : w.live h with
    | none => simp [hl] at hs
    | some p =>
      simp only [hl, Option.some.injEq] at hs
      subst hs
      simp only [release_ptr_handles] at hx
      rcases List.mem_or_eq_of_mem_set hx with h1 | h1
      · exact Or.inl h1
      · exact Or.inr (Or.inr (Or.inl h1))

theorem step_refs_zero {w w1 : World} {o : op} {a : Nat} (hs : step w o = some w1)
    (ha : a < w.heap.length) (hz : refs w a = 0) : refs w1 a = 0 := by
  simp only [refs, List.count_eq_zero] at hz ⊢
  intro hmem
  rcases step_handles_mem hs _ hmem with h | h | h | h
  · exact hz h
  · cases h
  · cases h
  · cases h
    omega

theorem step_heap_length {w w1 : World} {o : op} (hs : step w o = some w1) :
    w.heap.length ≤ w1.heap.length := by
  by_contra hlt
  have hlt : w1.heap.length < w.heap.length := Nat.lt_of_not_le hlt
  have hget : objAt w w1.heap.length = some (w.heap[w1.heap.length]).obj := by
    simp [objAt, List.getElem?_eq_getElem hlt]
  have h1 := step_objAt hs _ hget
  simp [objAt] at h1

theorem inv_runs {w : World} (hi : Inv w []) {a : Nat} (ha : a < w.heap.length) :
    runs w a = if refs w a = 0 then 1 else 0 := by
  have h := hi.1 a _ (List.getElem?_eq_getElem ha)
  simp only [List.count_nil, Nat.add_zero] at h
  rw [runs, h.2, h.1]
  split <;> rfl

/-- C4: in every state `w` that a sequence of constructions, copies, moves, assignments,
calls and destructions reaches, and for every checker state ever allocated, the destructor of
that state (the deferred verification) has run zero times while some object still refers to
the state and exactly once when none does, whatever the number of copies and the order of
their destruction; and over any further operation the number of its runs grows by one exactly
when that operation takes the number of referring objects from positive to zero. -/
theorem verification_runs_once_at_last_release (os : List op) (w : World)
    (hrun : run World.empty os = some w) (a : Nat) (ha : a < w.heap.length) :
    (0 < refs w a → runs w a = 0) ∧
    (refs w a = 0 → runs w a = 1) ∧
    (∀ o w1, step w o = some w1 →
      runs w1 a = runs w a + (if 0 < refs w a ∧ refs w1 a = 0 then 1 else 0)) := by
  have hi : Inv w [] := run_inv inv_empty hrun
  have hr := inv_runs hi ha
  refine ⟨fun h => by rw [hr, if_neg (by omega)], fun h => by rw [hr, if_pos h], ?_⟩
  intro o w1 hs
  have hi1 : Inv w1 [] := step_inv hi hs
  have hr1 := inv_runs hi1 (Nat.lt_of_lt_of_le ha (step_heap_length hs))
  rw [hr, hr1]
  by_cases hz : refs w a = 0
  · have hz1 := step_refs_zero hs ha hz
    simp [hz, hz1]
  · by_cases hz1 : refs w1 a = 0
    · simp [hz, hz1, Nat.pos_of_ne_zero hz]
    · simp [hz, hz1]

theorem verification_runs_once_at_last_release_witness :
    (0 < refs ⟨[⟨⟨no_source_location, some 1, 1⟩, 1⟩], [.dead, .ptr 0], []⟩ 0 →
      runs ⟨[⟨⟨no_source_location, some 1, 1⟩, 1⟩], [.dead, .ptr 0], []⟩ 0 = 0) ∧
    (refs ⟨[⟨⟨no_source_location, some 1, 1⟩, 1⟩], [.dead, .ptr 0], []⟩ 0 = 0 →
      runs ⟨[⟨⟨no_source_location, some 1, 1⟩, 1⟩], [.dead, .ptr 0], []⟩ 0 = 1) ∧
    (∀ o w1, step ⟨[⟨⟨no_source_location, some 1, 1⟩, 1⟩], [.dead, .ptr 0], []⟩ o = some w1 →
      runs w1 0 = runs ⟨[⟨⟨no_source_location, some 1, 1⟩, 1⟩], [.dead, .ptr 0], []⟩ 0 +
        (if 0 < refs ⟨[⟨⟨no_source_location, some 1, 1⟩, 1⟩], [.dead, .ptr 0], []⟩ 0 ∧
            refs w1 0 = 0 then 1 else 0)) :=
  verification_runs_once_at_last_release
    [.construct (some 1) no_source_location, .copy_construct 0, .invoke 1, .destroy 0]
    ⟨[⟨⟨no_source_location, some 1, 1⟩, 1⟩], [.dead, .ptr 0], []⟩ (by decide) 0 (by decide)

/-! ## Theorems: the counter (C5) -/

theorem step_solo_invoke (e : Option Nat) (loc : source_location) (c : Nat) :
    step (solo e loc c) (.invoke 0) = some (solo e loc ((c + 1) % UINT_RANGE)) := by
  simp [step, solo, World.live, World.increment]

theorem current_count_solo (e : Option Nat) (loc : source_location) (c : Nat) :
    current_count (solo e loc c) 0 = some c := by
  simp [current_count, solo, World.live]

theorem current_count_construct (w : World) (e : Option Nat) (loc : source_location) :
    ∃ w1, step w (.construct e loc) = some w1 ∧ current_count w1 w.handles.length = some 0 := by
  refine ⟨_, rfl, ?_⟩
  simp [current_count, World.live, state.ctor]

/-- C5 (as amended): the counter of a checker state is zero right after construction; a call
through any object that refers to the state replaces it by `(calls_ + 1) % 2^32`, and every
other operation (construction, copy, move, assignment, destruction of an object,
`current_count()`, calls on other states) leaves it unchanged; over any run it ends at
`(calls_ + N) % 2^32` for `N` calls on the state, so it grows by exactly `N` and does not
decrease as long as `calls_ + N < 2^32`. -/
theorem counter_counts_calls_modulo (w : World) (a : Nat) (st : state)
    (hst : objAt w a = some st) (hlt : st.calls_ < UINT_RANGE) :
    (∀ e loc, ∃ w1, step w (.construct e loc) = some w1 ∧
      current_count w1 w.handles.length = some 0) ∧
    (∀ o w1, step w o = some w1 → ∃ st1, objAt w1 a = some st1 ∧
      st1.calls_ = if hits a w o = 1 then (st.calls_ + 1) % UINT_RANGE else st.calls_) ∧
    (∀ os w1, run w os = some w1 → ∃ st1, objAt w1 a = some st1 ∧
      st1.calls_ = (st.calls_ + invocations a w os) % UINT_RANGE ∧
      (st.calls_ + invocations a w os < UINT_RANGE →
        st1.calls_ = st.calls_ + invocations a w os ∧ st.calls_ ≤ st1.calls_)) := by
  refine ⟨fun e loc => current_count_construct w e loc, ?_, ?_⟩
  · intro o w1 hs
    have h := step_objAt hs a hst
    refine ⟨_, h, ?_⟩
    split <;> simp [state.called]
  · intro os w1 hr
    obtain ⟨st1, h1, _, _, hc⟩ := run_objAt a hr hst hlt
    refine ⟨st1, h1, hc, fun hb => ?_⟩
    rw [hc, Nat.mod_eq_of_lt hb]
    exact ⟨rfl, Nat.le_add_right _ _⟩

theorem counter_counts_calls_modulo_witness :
    (∀ e loc, ∃ w1, step (solo (some 2) no_source_location 1) (.construct e loc) = some w1 ∧
      current_count w1 (solo (some 2) no_source_location 1).handles.length = some 0) ∧
    (∀ o w1, step (solo (some 2) no_source_location 1) o = some w1 →
      ∃ st1, objAt w1 0 = some st1 ∧
        st1.calls_ = if hits 0 (solo (some 2) no_source_location 1) o = 1
          then ((⟨no_source_location, some 2, 1⟩ : state).calls_ + 1) % UINT_RANGE
          else (⟨no_source_location, some 2, 1⟩ : state).calls_) ∧
    (∀ os w1, run (solo (some 2) no_source_location 1) os = some w1 →
      ∃ st1, objAt w1 0 = some st1 ∧
        st1.calls_ = ((⟨no_source_location, some 2, 1⟩ : state).calls_ +
          invocations 0 (solo (some 2) no_source_location 1) os) % UINT_RANGE ∧
        ((⟨no_source_location, some 2, 1⟩ : state).calls_ +
            invocations 0 (solo (some 2) no_source_location 1) os < UINT_RANGE →
          st1.calls_ = (⟨no_source_location, some 2, 1⟩ : state).calls_ +
              invocations 0 (solo (some 2) no_source_location 1) os ∧
            (⟨no_source_location, some 2, 1⟩ : state).calls_ ≤ st1.calls_)) :=
  counter_counts_calls_modulo (solo (some 2) no_source_location 1) 0
    ⟨no_source_location, some 2, 1⟩ rfl (by decide)

theorem run_construct_invokes (e : Option Nat) (loc : source_location) (n : Nat) :
    run World.empty (.construct e loc :: List.replicate n (.invoke 0)) =
      some (solo e loc (n % UINT_RANGE)) := by
  have h := run_solo_invokes e loc [] n 0
  rw [List.append_nil] at h
  rw [run, step_construct_empty, Option.some_bind, h]
  by_cases hn : n = 0
  · simp [hn, run]
  · simp [hn, run]

/-- C5 as stated fails: after `2^32 - 1` calls the counter reads `2^32 - 1`, and one more
call takes it to 0: that call does not increase the counter by one, and the counter
decreases. -/
theorem counter_wraps_counterexample :
    ∃ w w1, run World.empty (.construct none no_source_location ::
        List.replicate (UINT_RANGE - 1) (.invoke 0)) = some w ∧
      step w (.invoke 0) = some w1 ∧
      current_count w 0 = some 4294967295 ∧ current_count w1 0 = some 0 := by
  refine ⟨solo none no_source_location 4294967295, solo none no_source_location 0, ?_, ?_,
    current_count_solo _ _ _, current_count_solo _ _ _⟩
  · rw [run_construct_invokes]
    rfl
  · rw [step_solo_invoke]
    rfl

/-! ## Theorems: the scan of tokenizer1 (C6, C7) -/

theorem ws_contains (c : Char) : ws.contains c = is_ws c := by
  rw [Bool.eq_iff_iff]
  simp [ws, is_ws, or_assoc]

theorem find_if_none {p : Char → Bool} : ∀ {l : List Char} {k : Nat},
    find_if p l k = none → ∀ c ∈ l, p c = false := by
  intro l
  induction l with
  | nil => intro k _ c hc; cases hc
  | cons x xs ih =>
    intro k h c hc
    simp only [find_if] at h
    by_cases hp : p x = true
    · simp [hp] at h
    · simp only [hp, Bool.false_eq_true, if_false] at h
      rcases List.mem_cons.mp hc with rfl | hc
      · simpa using hp
      · exact ih h c hc

theorem find_if_some {p : Char → Bool} : ∀ {l : List Char} {k i : Nat},
    find_if p l k = some i →
    ∃ pre c post, l = pre ++ c :: post ∧ (∀ x ∈ pre, p x = false) ∧ p c = true ∧
      i = k + pre.length := by
  intro l
  induction l with
  | nil => intro k i h; simp [find_if] at h
  | cons x xs ih =>
    intro k i h
    simp only [find_if] at h
    by_cases hp : p x = true
    · simp only [hp, if_true, Option.some.injEq] at h
      exact ⟨[], x, xs, rfl, by simp, hp, by simp [h]⟩
    · simp only [hp, Bool.false_eq_true, if_false] at h
      obtain ⟨pre, c, post, hl, hpre, hc, hi⟩ := ih h
      refine ⟨x :: pre, c, post, by simp [hl], ?_, hc, by simp [hi]; omega⟩
      intro y hy
      rcases List.mem_cons.mp hy with rfl | hy
      · simpa using hp
      · exact hpre y hy

theorem maximal_runs_cons_ws {c : Char} (hc : is_ws c = true) (l : List Char) :
    maximal_runs (c :: l) = maximal_runs l := by
  simp [maximal_runs, List.splitOnP_cons, hc]

theorem maximal_runs_skip : ∀ (pre l : List Char), (∀ c ∈ pre, is_ws c = true) →
    maximal_runs (pre ++ l) = maximal_runs l := by
  intro pre
  induction pre with
  | nil => intro l _; rfl
  | cons x xs ih =>
    intro l h
    rw [List.cons_append, maximal_runs_cons_ws (h x (List.mem_cons_self _ _))]
    exact ih l (fun c hc => h c (List.mem_cons_of_mem _ hc))

theorem maximal_runs_all_ws (l : List Char) (h : ∀ c ∈ l, is_ws c = true) :
    maximal_runs l = [] := by
  have := maximal_runs_skip l [] h
  rw [List.append_nil] at this
  rw [this]
  rfl

theorem maximal_runs_single (t : List Char) (hne : t ≠ []) (h : ∀ c ∈ t, is_ws c = false) :
    maximal_runs t = [t] := by
  have hs : t.splitOnP is_ws = [t] := List.splitOnP_eq_single _ _ (by simpa using h)
  cases t with
  | nil => exact absurd rfl hne
  | cons x xs => simp [maximal_runs, hs]

theorem maximal_runs_first (t : List Char) (hne : t ≠ []) (h : ∀ c ∈ t, is_ws c = false)
    (sep : Char) (hsep : is_ws sep = true) (rest : List Char) :
    maximal_runs (t ++ sep :: rest) = t :: maximal_runs (sep :: rest) := by
  have hs : (t ++ sep :: rest).splitOnP is_ws = t :: rest.splitOnP is_ws :=
    List.splitOnP_first _ _ (by simpa using h) sep hsep rest
  rw [maximal_runs_cons_ws hsep]
  cases t with
  | nil => exact absurd rfl hne
  | cons x xs =>
    rw [maximal_runs, hs]
    simp [maximal_runs]

theorem not_contains_false {c : Char} (h : (!ws.contains c) = false) : is_ws c = true := by
  rw [ws_contains] at h
  simpa using h

theorem not_contains_true {c : Char} (h : (!ws.contains c) = true) : is_ws c = false := by
  rw [ws_contains] at h
  simpa using h

theorem find_first_not_of_none {input : string_view} {b : Nat}
    (h : find_first_not_of input ws b = none) : ∀ c ∈ input.drop b, is_ws c = true :=
  fun c hc => not_contains_false (find_if_none h c hc)

theorem find_first_not_of_some {input : string_view} {b a : Nat}
    (h : find_first_not_of input ws b = some a) :
    ∃ pre c post, input.drop b = pre ++ c :: post ∧ (∀ x ∈ pre, is_ws x = true) ∧
      is_ws c = false ∧ a = b + pre.length := by
  obtain ⟨pre, c, post, hl, hpre, hc, ha⟩ := find_if_some h
  exact ⟨pre, c, post, hl, fun x hx => not_contains_false (hpre x hx),
    not_contains_true hc, ha⟩

theorem find_first_of_none {input : string_view} {a : Nat}
    (h : find_first_of input ws a = none) : ∀ c ∈ input.drop a, is_ws c = false := by
  intro c hc
  have := find_if_none h c hc
  rwa [ws_contains] at this

theorem find_first_of_some {input : string_view} {a b : Nat}
    (h : find_first_of input ws a = some b) :
    ∃ t sep rest, input.drop a = t ++ sep :: rest ∧ (∀ x ∈ t, is_ws x = false) ∧
      is_ws sep = true ∧ b = a + t.length := by
  obtain ⟨pre, c, post, hl, hpre, hc, ha⟩ := find_if_some h
  refine ⟨pre, c, post, hl, ?_, ?_, ha⟩
  · intro x hx
    have := hpre x hx
    rwa [ws_contains] at this
  · rwa [ws_contains] at hc

theorem drop_add_of_drop_eq {input pre rest : List Char} {b : Nat}
    (h : input.drop b = pre ++ rest) : input.drop (b + pre.length) = rest := by
  rw [← List.drop_drop, h, List.drop_left]

/-- What one entry of the scan loop at cursor `b` finds: nothing more to emit, a last token
that ends the text, or a token followed by a delimiter at the next cursor. -/
theorem scan_cases (input : string_view) (b : Nat) :
    (find_first_not_of input ws b = none ∧ maximal_runs (input.drop b) = []) ∨
    (∃ a, find_first_not_of input ws b = some a ∧ a < input.length ∧
      find_first_of input ws a = none ∧
      maximal_runs (input.drop b) = [substr input a none]) ∨
    (∃ a b2, find_first_not_of input ws b = some a ∧ a < input.length ∧
      find_first_of input ws a = some b2 ∧ b < b2 ∧ a < b2 ∧ b2 < input.length ∧
      maximal_runs (input.drop b) =
        substr input a (some (b2 - a)) :: maximal_runs (input.drop b2)) := by
  cases hf : find_first_not_of input ws b with
  | none => exact Or.inl ⟨rfl, maximal_runs_all_ws _ (find_first_not_of_none hf)⟩
  | some a =>
    right
    obtain ⟨pre, c, post, hl, hpre, hc, ha⟩ := find_first_not_of_some hf
    have hda : input.drop a = c :: post := by rw [ha]; exact drop_add_of_drop_eq hl
    have halt : a < input.length := by
      by_contra hge
      rw [List.drop_eq_nil_of_le (Nat.le_of_not_lt hge)] at hda
      cases hda
    have hruns : maximal_runs (input.drop b) = maximal_runs (c :: post) := by
      rw [hl, maximal_runs_skip pre _ hpre]
    cases hg : find_first_of input ws a with
    | none =>
      left
      refine ⟨a, rfl, halt, hg, ?_⟩
      have hall := find_first_of_none hg
      rw [hruns, substr, hda]
      rw [hda] at hall
      exact maximal_runs_single _ (by simp) hall
    | some b2 =>
      right
      obtain ⟨t, sep, rest, hl2, ht, hsep, hb2⟩ := find_first_of_some hg
      have htne : t ≠ [] := by
        intro hnil
        subst hnil
        rw [hda] at hl2
        simp only [List.nil_append, List.cons.injEq] at hl2
        rw [hl2.1, hsep] at hc
        cases hc
      have htlen : 0 < t.length := List.length_pos.mpr htne
      have hdb2 : input.drop b2 = sep :: rest := by rw [hb2]; exact drop_add_of_drop_eq hl2
      have hb2lt : b2 < input.length := by
        by_contra hge
        rw [List.drop_eq_nil_of_le (Nat.le_of_not_lt hge)] at hdb2
        cases hdb2
      refine ⟨a, b2, rfl, halt, hg, by omega, by omega, hb2lt, ?_⟩
      have htok : substr input a (some (b2 - a)) = t := by
        have : b2 - a = t.length := by omega
        rw [substr, this, hl2, List.take_left]
      rw [hruns, htok, hdb2, ← hda, hl2]
      exact maximal_runs_first t htne ht sep hsep rest

theorem tokenizer1_loop_eq {σ ε : Type} (cb : callable σ ε string_view Unit)
    (input : string_view) : ∀ (fuel b : Nat) (s : σ), input.length - b < fuel →
    tokenizer1.loop cb input fuel b s = some (for_each cb (maximal_runs (input.drop b)) s) := by
  intro fuel
  induction fuel with
  | zero => intro b s h; omega
  | succ fuel ih =>
    intro b s hfuel
    rcases scan_cases input b with ⟨hf, hr⟩ | ⟨a, hf, _, hg, hr⟩ | ⟨a, b2, hf, _, hg, hb, _, hlt, hr⟩
    · simp only [tokenizer1.loop, hf, hr, for_each]
    · simp only [tokenizer1.loop, hf, hg, hr, for_each, Option.map_none']
      rcases cb (substr input a none) s with ⟨r, s1⟩
      cases r <;> rfl
    · simp only [tokenizer1.loop, hf, hg, hr, for_each, Option.map_some']
      rcases cb (substr input a (some (b2 - a))) s with ⟨r, s1⟩
      cases r with
      | error e => rfl
      | ok v => exact ih b2 s1 (by omega)

theorem tokenizer1_eq {σ ε : Type} (cb : callable σ ε string_view Unit) (input : string_view)
    (s : σ) : tokenizer1 cb input s = some (for_each cb (maximal_runs input) s) := by
  have h := tokenizer1_loop_eq cb input (input.length + 1) 0 s (by omega)
  rw [List.drop_zero] at h
  exact h

theorem for_each_record {ε α : Type} : ∀ (l acc : List α),
    for_each (record (ε := ε)) l acc = (.ok (), acc ++ l) := by
  intro l
  induction l with
  | nil => intro acc; simp [for_each]
  | cons x xs ih =>
    intro acc
    have hrec : record (ε := ε) x acc = (.ok (), acc ++ [x]) := rfl
    rw [for_each, hrec]
    dsimp only
    rw [ih]
    simp

theorem splitOnP_pieces_free (p : Char → Bool) : ∀ (l : List Char),
    ∀ t ∈ l.splitOnP p, ∀ c ∈ t, p c = false := by
  intro l
  induction l with
  | nil =>
    intro t ht c hc
    simp only [List.splitOnP_nil, List.mem_singleton] at ht
    subst ht
    cases hc
  | cons x xs ih =>
    intro t ht c hc
    rw [List.splitOnP_cons] at ht
    by_cases hp : p x = true
    · simp only [hp, if_true, List.mem_cons] at ht
      rcases ht with rfl | ht
      · cases hc
      · exact ih t ht c hc
    · simp only [hp, Bool.false_eq_true, if_false] at ht
      cases hsp : xs.splitOnP p with
      | nil => simp [hsp, List.modifyHead] at ht
      | cons hd tl =>
        rw [hsp] at ht ih
        simp only [List.modifyHead, List.mem_cons] at ht
        rcases ht with rfl | ht
        · rcases List.mem_cons.mp hc with rfl | hc
          · simpa using hp
          · exact ih hd (List.mem_cons_self _ _) c hc
        · exact ih t (List.mem_cons_of_mem _ ht) c hc

theorem maximal_runs_mem {input : string_view} {t : string_view} (ht : t ∈ maximal_runs input) :
    t ≠ [] ∧ ∀ c ∈ t, is_ws c = false := by
  simp only [maximal_runs, List.mem_filter] at ht
  refine ⟨?_, splitOnP_pieces_free is_ws input t ht.1⟩
  intro hnil
  subst hnil
  simp at ht

/-- C6: for every callback and every input text, `tokenizer1` returns and has then called
`string_token` once per maximal run of non-delimiter characters, left to right, with exactly
that run as argument (up to the first call that throws); a recording callback ends with the
list of the runs. Every run is non-empty and free of space, tab and newline, and
`"hello"`, `"   hello    "` and `"hello world"` give `["hello"]`, `["hello"]` and
`["hello", "world"]`. -/
theorem tokenizer1_emits_maximal_runs {σ ε : Type} (cb : callable σ ε string_view Unit)
    (input : string_view) (s : σ) :
    tokenizer1 cb input s = some (for_each cb (maximal_runs input) s) ∧
    tokenizer1 (record (ε := ε)) input [] = some (.ok (), maximal_runs input) ∧
    (∀ t ∈ maximal_runs input, t ≠ [] ∧ ∀ c ∈ t, c ≠ ' ' ∧ c ≠ '\t' ∧ c ≠ '\n') ∧
    tokenizer1 (record (ε := ε)) "hello".toList [] = some (.ok (), ["hello".toList]) ∧
    tokenizer1 (record (ε := ε)) "   hello    ".toList [] = some (.ok (), ["hello".toList]) ∧
    tokenizer1 (record (ε := ε)) "hello world".toList [] =
      some (.ok (), ["hello".toList, "world".toList]) := by
  refine ⟨tokenizer1_eq cb input s, ?_, ?_, rfl, rfl, rfl⟩
  · rw [tokenizer1_eq, for_each_record, List.nil_append]
  · intro t ht
    obtain ⟨hne, hfree⟩ := maximal_runs_mem ht
    refine ⟨hne, fun c hc => ?_⟩
    have := hfree c hc
    simpa [is_ws, not_or, and_assoc] using this

/-! ### No token (C7) -/

theorem maximal_runs_eq_nil_iff (input : string_view) :
    maximal_runs input = [] ↔ ∀ c ∈ input, is_ws c = true := by
  constructor
  · induction input with
    | nil => intro _ c hc; cases hc
    | cons x xs ih =>
      intro h c hc
      by_cases hx : is_ws x = true
      · rw [maximal_runs_cons_ws hx] at h
        rcases List.mem_cons.mp hc with rfl | hc
        · exact hx
        · exact ih h c hc
      · exfalso
        have hx2 : is_ws x = false := by simpa using hx
        cases hsp : xs.splitOnP is_ws with
        | nil => exact List.splitOnP_ne_nil _ _ hsp
        | cons hd tl =>
          simp [maximal_runs, List.splitOnP_cons, hx2, hsp, List.modifyHead] at h
  · exact maximal_runs_all_ws input

theorem for_each_observed {σ ε α : Type} (tag : String) (cb : callable σ ε α Unit) :
    ∀ (l : List α) (s : σ) (j : List (String × α)),
    ∃ r s1 j1, for_each (observed tag cb) l (s, j) = (r, (s1, j ++ j1)) ∧
      (j1 = [] ↔ l = []) := by
  intro l
  induction l with
  | nil => intro s j; exact ⟨.ok (), s, [], by simp [for_each], by simp⟩
  | cons x xs ih =>
    intro s j
    have hobs : observed tag cb x (s, j) = ((cb x s).1, ((cb x s).2, j ++ [(tag, x)])) := rfl
    rcases hcb : cb x s with ⟨r, s1⟩
    rw [hcb] at hobs
    cases r with
    | error e =>
      refine ⟨.error e, s1, [(tag, x)], ?_, by simp⟩
      rw [for_each, hobs]
    | ok v =>
      obtain ⟨r2, s2, j2, h2, _⟩ := ih s1 (j ++ [(tag, x)])
      refine ⟨r2, s2, (tag, x) :: j2, ?_, by simp⟩
      rw [for_each, hobs]
      dsimp only
      rw [h2]
      simp

/-- C7: for every callback and every input text, `tokenizer1` returns, and the journal of
the calls it made of `string_token` is empty if and only if every character of the input is
a space, a tab or a newline (which includes the empty input). -/
theorem tokenizer1_no_call_iff_blank {σ ε : Type} (cb : callable σ ε string_view Unit)
    (input : string_view) (s : σ) (journal : List (String × string_view)) :
    ∃ r s1 made, tokenizer1 (observed "string_token" cb) input (s, journal) =
        some (r, (s1, journal ++ made)) ∧
      (made = [] ↔ ∀ c ∈ input, c = ' ' ∨ c = '\t' ∨ c = '\n') := by
  obtain ⟨r, s1, j1, h, hiff⟩ := for_each_observed "string_token" cb (maximal_runs input) s journal
  refine ⟨r, s1, j1, by rw [tokenizer1_eq, h], ?_⟩
  rw [hiff, maximal_runs_eq_nil_iff]
  simp [is_ws, or_assoc]

/-! ## Theorems: tokenizer2 (C8) -/

theorem tokenizer2_loop_eq_tokenizer1 {σ ε : Type} (it : callable σ ε Int Unit)
    (st : callable σ ε string_view Unit) (input : string_view) :
    ∀ (fuel b : Nat) (s : σ), tokenizer2.loop it st input fuel b s =
      tokenizer1.loop (classify it st) input fuel b s := by
  intro fuel
  induction fuel with
  | zero => intro b s; rfl
  | succ fuel ih =>
    intro b s
    simp only [tokenizer2.loop, tokenizer1.loop, classify, ih]

theorem tokenizer2_eq {σ ε : Type} (it : callable σ ε Int Unit)
    (st : callable σ ε string_view Unit) (input : string_view) (s : σ) :
    tokenizer2 it st input s = some (for_each (classify it st) (maximal_runs input) s) := by
  rw [tokenizer2, tokenizer2_loop_eq_tokenizer1]
  exact tokenizer1_eq (classify it st) input s

theorem takeWhile_of_split (p : Char → Bool) (ds rest : List Char)
    (hds : ∀ c ∈ ds, p c = true) (hrest : ∀ c, rest.head? = some c → p c = false) :
    (ds ++ rest).takeWhile p = ds := by
  rw [List.takeWhile_append_of_pos hds]
  cases rest with
  | nil => simp
  | cons c r =>
    have := hrest c rfl
    simp [List.takeWhile_cons, this]

theorem split_of_takeWhile (p : Char → Bool) (l : List Char) :
    l = l.takeWhile p ++ l.dropWhile p ∧ (∀ c ∈ l.takeWhile p, p c = true) ∧
      (∀ c, (l.dropWhile p).head? = some c → p c = false) := by
  refine ⟨(List.takeWhile_append_dropWhile p l).symm, fun c hc => List.mem_takeWhile_imp hc, ?_⟩
  intro c hc
  have := List.head?_dropWhile_not p l
  rw [hc] at this
  exact this

theorem from_chars_minus (body : List Char) :
    from_chars ('-' :: body) =
      if (body.takeWhile Char.isDigit).isEmpty then .error .invalid_argument
      else if INT_MIN ≤ -(digits_value (body.takeWhile Char.isDigit) : Int) ∧
          -(digits_value (body.takeWhile Char.isDigit) : Int) ≤ INT_MAX
        then .ok (-(digits_value (body.takeWhile Char.isDigit) : Int))
        else .error .result_out_of_range := by
  simp [from_chars]

theorem from_chars_plain (tok : List Char) (h : tok.head? ≠ some '-') :
    from_chars tok =
      if (tok.takeWhile Char.isDigit).isEmpty then .error .invalid_argument
      else if INT_MIN ≤ (digits_value (tok.takeWhile Char.isDigit) : Int) ∧
          (digits_value (tok.takeWhile Char.isDigit) : Int) ≤ INT_MAX
        then .ok (digits_value (tok.takeWhile Char.isDigit) : Int)
        else .error .result_out_of_range := by
  simp [from_chars, h]

theorem isEmpty_eq_false_of_ne_nil {l : List Char} (h : l ≠ []) : l.isEmpty = false := by
  cases l with
  | nil => exact absurd rfl h
  | cons _ _ => rfl

theorem from_chars_ok_iff (tok : string_view) (v : Int) :
    from_chars tok = .ok v ↔ decimal_prefix_int tok v := by
  constructor
  · intro h
    obtain ⟨hsplit, hds, hrest⟩ := split_of_takeWhile Char.isDigit
      (if tok.head? = some '-' then tok.tail else tok)
    by_cases hneg : tok.head? = some '-'
    · obtain ⟨body, rfl⟩ : ∃ body, tok = '-' :: body := by
        cases tok with
        | nil => simp at hneg
        | cons c cs =>
          simp only [List.head?_cons, Option.some.injEq] at hneg
          exact ⟨cs, by rw [hneg]⟩
      simp only [List.head?_cons, if_true, List.tail_cons] at hsplit hds hrest
      rw [from_chars_minus] at h
      by_cases hemp : (body.takeWhile Char.isDigit).isEmpty = true
      · simp [hemp] at h
      · by_cases hrange : INT_MIN ≤ -(digits_value (body.takeWhile Char.isDigit) : Int) ∧
          -(digits_value (body.takeWhile Char.isDigit) : Int) ≤ INT_MAX
        · simp only [hemp, Bool.false_eq_true, if_false, hrange, and_self, if_true,
            Except.ok.injEq] at h
          refine ⟨body.takeWhile Char.isDigit, body.dropWhile Char.isDigit, ?_, hds, hrest,
            Or.inr ⟨by rw [← hsplit], h.symm⟩, ?_, ?_⟩
          · intro hnil
            simp [hnil] at hemp
          · rw [← h]; exact hrange.1
          · rw [← h]; exact hrange.2
        · simp [hemp, hrange] at h
    · simp only [hneg, if_false] at hsplit hds hrest
      rw [from_chars_plain tok hneg] at h
      by_cases hemp : (tok.takeWhile Char.isDigit).isEmpty = true
      · simp [hemp] at h
      · by_cases hrange : INT_MIN ≤ (digits_value (tok.takeWhile Char.isDigit) : Int) ∧
          (digits_value (tok.takeWhile Char.isDigit) : Int) ≤ INT_MAX
        · simp only [hemp, Bool.false_eq_true, if_false, hrange, and_self, if_true,
            Except.ok.injEq] at h
          refine ⟨tok.takeWhile Char.isDigit, tok.dropWhile Char.isDigit, ?_, hds, hrest,
            Or.inl ⟨hsplit, h.symm⟩, ?_, ?_⟩
          · intro hnil
            simp [hnil] at hemp
          · rw [← h]; exact hrange.1
          · rw [← h]; exact hrange.2
        · simp [hemp, hrange] at h
  · rintro ⟨ds, rest, hne, hds, hrest, hcase, hmin, hmax⟩
    have htw : (ds ++ rest).takeWhile Char.isDigit = ds := takeWhile_of_split _ ds rest hds hrest
    rcases hcase with ⟨htok, hv⟩ | ⟨htok, hv⟩
    · have hhead : tok.head? ≠ some '-' := by
        cases ds with
        | nil => exact absurd rfl hne
        | cons d ds1 =>
          rw [htok]
          simp only [List.cons_append, List.head?_cons, ne_eq, Option.some.injEq]
          intro hd
          have := hds d (List.mem_cons_self _ _)
          rw [hd] at this
          exact absurd this (by decide)
      rw [from_chars_plain tok hhead, htok, htw, isEmpty_eq_false_of_ne_nil hne, ← hv]
      simp [hmin, hmax]
    · rw [htok, from_chars_minus, htw, isEmpty_eq_false_of_ne_nil hne, ← hv]
      simp [hmin, hmax]

theorem decimal_prefix_of_whole {tok : string_view} {v : Int} (h : whole_decimal_int tok v) :
    decimal_prefix_int tok v := by
  obtain ⟨ds, hne, hds, hcase, hmin, hmax⟩ := h
  refine ⟨ds, [], hne, hds, by simp, ?_, hmin, hmax⟩
  simpa using hcase

/-- C8 (as amended): for every pair of callbacks and every input, `tokenizer2` returns and
has then treated the maximal runs of non-delimiter characters, left to right, each by
`classify`: a token goes to `int_token` with value `v` exactly when `std::from_chars`
succeeds on it with `v`, that is when it starts with an optional minus sign and at least one
decimal digit and the number written by the sign and the whole run of digits lies in the
range of `int` (whatever follows the digits); every other token goes to `string_token`
unchanged. In particular a token that as a whole is the decimal text of an `int` goes to
`int_token` with that value, and `"hello 123"` gives `string_token("hello")` then
`int_token(123)`. -/
theorem tokenizer2_classifies_by_from_chars {σ ε : Type} (it : callable σ ε Int Unit)
    (st : callable σ ε string_view Unit) (input : string_view) (s : σ) :
    tokenizer2 it st input s = some (for_each (classify it st) (maximal_runs input) s) ∧
    (∀ tok v s1, decimal_prefix_int tok v → classify it st tok s1 = it v s1) ∧
    (∀ tok s1, (∀ v, ¬ decimal_prefix_int tok v) → classify it st tok s1 = st tok s1) ∧
    (∀ tok v s1, whole_decimal_int tok v → classify it st tok s1 = it v s1) ∧
    tokenizer2 (record_int (ε := ε)) record_string "hello 123".toList [] =
      some (.ok (), [.string_token "hello".toList, .int_token 123]) := by
  refine ⟨tokenizer2_eq it st input s, ?_, ?_, ?_, rfl⟩
  · intro tok v s1 h
    have := (from_chars_ok_iff tok v).mpr h
    simp only [classify, this]
  · intro tok s1 h
    cases hf : from_chars tok with
    | ok v => exact absurd ((from_chars_ok_iff tok v).mp hf) (h v)
    | error e => simp only [classify, hf]
  · intro tok v s1 h
    have := (from_chars_ok_iff tok v).mpr (decimal_prefix_of_whole h)
    simp only [classify, this]

/-- C8 as stated fails: on the input `"12ab"` the only call is `int_token(12)`, although the
token `"12ab"` is not, as a whole, the decimal text of any `int`. -/
theorem tokenizer2_prefix_counterexample :
    tokenizer2 (record_int (ε := fault)) record_string "12ab".toList [] =
      some (.ok (), [.int_token 12]) ∧
    ∀ v, ¬ whole_decimal_int "12ab".toList v := by
  refine ⟨rfl, ?_⟩
  rintro v ⟨ds, _, hds, hcase, _, _⟩
  rcases hcase with ⟨htok, _⟩ | ⟨htok, _⟩
  · have hmem : 'a' ∈ ds := by rw [← htok]; decide
    exact absurd (hds 'a' hmem) (by decide)
  · have := congrArg List.head? htok
    simp at this

/-! ## Theorems: unique_tokenizer (C9) -/

theorem for_each_uniqifier {ε : Type} : ∀ (l acc : List string_view), acc.Nodup →
    ∃ seen, for_each (uniqifier.string_token (ε := ε)) l acc = (.ok (), seen) ∧
      seen.Nodup ∧ ∀ t, t ∈ seen ↔ t ∈ acc ∨ t ∈ l := by
  intro l
  induction l with
  | nil => intro acc hacc; exact ⟨acc, rfl, hacc, by simp⟩
  | cons x xs ih =>
    intro acc hacc
    have hstep : uniqifier.string_token (ε := ε) x acc =
        (.ok (), if x ∈ acc then acc else acc ++ [x]) := rfl
    by_cases hx : x ∈ acc
    · rw [if_pos hx] at hstep
      obtain ⟨seen, hrun, hnd, hmem⟩ := ih acc hacc
      refine ⟨seen, ?_, hnd, ?_⟩
      · rw [for_each, hstep]
        exact hrun
      · intro t
        rw [hmem t, List.mem_cons]
        constructor
        · rintro (h | h)
          · exact Or.inl h
          · exact Or.inr (Or.inr h)
        · rintro (h | rfl | h)
          · exact Or.inl h
          · exact Or.inl hx
          · exact Or.inr h
    · rw [if_neg hx] at hstep
      have hacc2 : (acc ++ [x]).Nodup := by
        rw [List.nodup_append]
        refine ⟨hacc, List.nodup_singleton x, ?_⟩
        intro a ha hb
        rw [List.mem_singleton] at hb
        subst hb
        exact hx ha
      obtain ⟨seen, hrun, hnd, hmem⟩ := ih (acc ++ [x]) hacc2
      refine ⟨seen, ?_, hnd, ?_⟩
      · rw [for_each, hstep]
        exact hrun
      · intro t
        rw [hmem t, List.mem_append, List.mem_singleton, List.mem_cons, or_assoc]

/-- C9: for every iteration order of the set, every callback and every input text,
`unique_tokenizer` returns, having passed to its callback, one after the other (up to the
first call that throws), the elements of a list `emitted` that has no repetition and whose
members are exactly the tokens `tokenizer1` produces on that input; so the number of
emissions is the number of distinct tokens. On `"hello hello hello"` the one emission is
`"hello"`, and on `"hello world"` the emissions are `"hello"` and `"world"` in some order. -/
theorem unique_tokenizer_emits_each_distinct_token_once {σ ε : Type}
    (order : unordered_set_order) (cb : callable σ ε string_view Unit)
    (input : string_view) (s : σ) :
    (∃ emitted, unique_tokenizer order cb input s = some (for_each cb emitted s) ∧
      emitted.Nodup ∧ (∀ t, t ∈ emitted ↔ t ∈ maximal_runs input) ∧
      emitted.length = (maximal_runs input).toFinset.card) ∧
    unique_tokenizer order (record (ε := ε)) "hello hello hello".toList [] =
      some (.ok (), ["hello".toList]) ∧
    (∃ emitted, emitted.Perm ["hello".toList, "world".toList] ∧
      unique_tokenizer order (record (ε := ε)) "hello world".toList [] =
        some (.ok (), emitted)) ∧
    unique_tokenizer insertion_order (record (ε := ε)) "hello world".toList [] =
      some (.ok (), ["hello".toList, "world".toList]) ∧
    unique_tokenizer reverse_order (record (ε := ε)) "hello world".toList [] =
      some (.ok (), ["world".toList, "hello".toList]) := by
  refine ⟨?_, ?_, ?_, rfl, rfl⟩
  · obtain ⟨seen, hrun, hnd, hmem⟩ :=
      for_each_uniqifier (ε := ε) (maximal_runs input) [] List.nodup_nil
    have hperm := order.arrange_perm seen
    refine ⟨order.arrange seen, ?_, hperm.nodup_iff.mpr hnd, ?_, ?_⟩
    · simp only [unique_tokenizer, tokenizer1_eq, hrun]
    · intro t
      rw [hperm.mem_iff, hmem t]
      simp
    · rw [hperm.length_eq, ← List.toFinset_card_of_nodup hnd]
      congr 1
      ext t
      simp [hmem t]
  · have h1 : tokenizer1 (uniqifier.string_token (ε := ε)) "hello hello hello".toList [] =
        some (.ok (), ["hello".toList]) := rfl
    have hperm := order.arrange_perm ["hello".toList]
    rw [List.perm_singleton] at hperm
    simp only [unique_tokenizer, h1, hperm]
    rfl
  · have h1 : tokenizer1 (uniqifier.string_token (ε := ε)) "hello world".toList [] =
        some (.ok (), ["hello".toList, "world".toList]) := rfl
    refine ⟨order.arrange ["hello".toList, "world".toList], order.arrange_perm _, ?_⟩
    simp only [unique_tokenizer, h1, for_each_record, List.nil_append]

/-! ## Theorems: an unassigned callback (C10) -/

theorem for_each_unassigned {σ α : Type} (s : σ) (l : List α) :
    for_each (function_call (none : Option (callable σ fault α Unit))) l s =
      if l.isEmpty then (.ok (), s) else (.error .bad_function_call, s) := by
  cases l with
  | nil => rfl
  | cons x xs => rfl

theorem isEmpty_iff_eq_nil {α : Type} (l : List α) : l.isEmpty = true ↔ l = [] := by
  cases l <;> simp

theorem classify_unassigned {σ : Type} (tok : string_view) (s : σ) :
    classify (function_call (none : Option (callable σ fault Int Unit)))
      (function_call (none : Option (callable σ fault string_view Unit))) tok s =
      function_call (none : Option (callable σ fault string_view Unit)) tok s := by
  simp only [classify, function_call]
  cases from_chars tok <;> rfl

theorem for_each_congr {σ ε α : Type} {f g : callable σ ε α Unit} (h : ∀ x s, f x s = g x s) :
    ∀ (l : List α) (s : σ), for_each f l s = for_each g l s := by
  intro l
  induction l with
  | nil => intro s; rfl
  | cons x xs ih =>
    intro s
    simp only [for_each, h x s, ih]

theorem blank_iff (input : string_view) :
    (∀ c ∈ input, c = ' ' ∨ c = '\t' ∨ c = '\n') ↔ maximal_runs input = [] := by
  rw [maximal_runs_eq_nil_iff]
  simp [is_ws, or_assoc]

/-- C10: a callback slot that was never assigned a callable is an empty `std::function`. For
every input, `tokenizer1` run against it returns normally, with the state untouched, when the
input has no token (every character is a space, a tab or a newline), and otherwise ends with
`std::bad_function_call`, thrown by the call made for the first token, which is its only
call; the same holds for `tokenizer2` with both slots unassigned and for `unique_tokenizer`.
So `"boom"` throws and `"   "` does not. -/
theorem unassigned_callback_throws_at_first_token {σ : Type} (order : unordered_set_order)
    (input : string_view) (s : σ) (journal : List (String × string_view)) :
    tokenizer1 (function_call (none : Option (callable σ fault string_view Unit))) input s =
      (if ∀ c ∈ input, c = ' ' ∨ c = '\t' ∨ c = '\n' then some (.ok (), s)
       else some (.error .bad_function_call, s)) ∧
    tokenizer1 (observed "string_token"
        (function_call (none : Option (callable σ fault string_view Unit)))) input (s, journal) =
      (match (maximal_runs input).head? with
       | none => some (.ok (), (s, journal))
       | some t => some (.error .bad_function_call, (s, journal ++ [("string_token", t)]))) ∧
    tokenizer2 (function_call (none : Option (callable σ fault Int Unit)))
        (function_call (none : Option (callable σ fault string_view Unit))) input s =
      (if ∀ c ∈ input, c = ' ' ∨ c = '\t' ∨ c = '\n' then some (.ok (), s)
       else some (.error .bad_function_call, s)) ∧
    unique_tokenizer order
        (function_call (none : Option (callable σ fault string_view Unit))) input s =
      (if ∀ c ∈ input, c = ' ' ∨ c = '\t' ∨ c = '\n' then some (.ok (), s)
       else some (.error .bad_function_call, s)) ∧
    tokenizer1 (function_call (none : Option (callable σ fault string_view Unit)))
      "boom".toList s = some (.error .bad_function_call, s) ∧
    tokenizer1 (function_call (none : Option (callable σ fault string_view Unit)))
      "   ".toList s = some (.ok (), s) := by
  have hblank : (maximal_runs input).isEmpty = true ↔
      ∀ c ∈ input, c = ' ' ∨ c = '\t' ∨ c = '\n' := by
    rw [isEmpty_iff_eq_nil, blank_iff]
  refine ⟨?_, ?_, ?_, ?_, rfl, rfl⟩
  · rw [tokenizer1_eq, for_each_unassigned]
    by_cases h : (maximal_runs input).isEmpty = true
    · rw [if_pos h, if_pos (hblank.mp h)]
    · rw [if_neg h, if_neg (fun hb => h (hblank.mpr hb))]
  · rw [tokenizer1_eq]
    cases maximal_runs input with
    | nil => rfl
    | cons t ts => rfl
  · rw [tokenizer2_eq, for_each_congr classify_unassigned, for_each_unassigned]
    by_cases h : (maximal_runs input).isEmpty = true
    · rw [if_pos h, if_pos (hblank.mp h)]
    · rw [if_neg h, if_neg (fun hb => h (hblank.mpr hb))]
  · obtain ⟨seen, hrun, _, hmem⟩ :=
      for_each_uniqifier (ε := fault) (maximal_runs input) [] List.nodup_nil
    simp only [unique_tokenizer, tokenizer1_eq, hrun, for_each_unassigned]
    have hnil : (order.arrange seen).isEmpty = true ↔ (maximal_runs input).isEmpty = true := by
      rw [isEmpty_iff_eq_nil, isEmpty_iff_eq_nil, ← List.length_eq_zero,
        (order.arrange_perm seen).length_eq, List.length_eq_zero]
      constructor
      · intro h
        rw [List.eq_nil_iff_forall_not_mem]
        intro t ht
        have := (hmem t).mpr (Or.inr ht)
        rw [h] at this
        cases this
      · intro h
        rw [List.eq_nil_iff_forall_not_mem]
        intro t ht
        rcases (hmem t).mp ht with h1 | h1
        · cases h1
        · rw [h] at h1
          cases h1
    by_cases h : (maximal_runs input).isEmpty = true
    · rw [if_pos (hnil.mpr h), if_pos (hblank.mp h)]
    · rw [if_neg (fun hb => h (hnil.mp hb)), if_neg (fun hb => h (hblank.mpr hb))]

/-! ## Theorems: failures through a decorated callable (C12) -/

/-- C12: for every decorator `d`, payload `p`, arguments and state. If `d` throws, the
invocation ends with that same exception in the state `d` left, and `p` was not called (the
journal shows the call of `d` only). If `d` returns and `p` throws, the invocation ends with
exactly the exception of `p`. If both return, the invocation returns, with the result of
`p`. And the invocation throws nothing else: an exception it ends with is the one `d` threw
or the one `p` threw. The same holds where decorator and payload may change the argument
objects: an exception of the decorator is the outcome, and when the decorator returns the
outcome is that of the payload's call, its exception included. -/
theorem decorated_call_propagates_failures {σ ε α δ ρ : Type}
    (d : callable σ ε α δ) (p : callable σ ε α ρ) (x : α) (s : σ)
    (journal : List (String × α)) :
    (∀ e s1, d x s = (.error e, s1) →
      (decorated_callable.mk d p).call x s = (.error e, s1) ∧
      (decorated_callable.mk (observed "decorator" d) (observed "payload" p)).call x
        (s, journal) = (.error e, (s1, journal ++ [("decorator", x)]))) ∧
    (∀ r s1 e s2, d x s = (.ok r, s1) → p x s1 = (.error e, s2) →
      (decorated_callable.mk d p).call x s = (.error e, s2)) ∧
    (∀ r s1 v s2, d x s = (.ok r, s1) → p x s1 = (.ok v, s2) →
      (decorated_callable.mk d p).call x s = (.ok v, s2)) ∧
    (∀ e, ((decorated_callable.mk d p).call x s).1 = .error e →
      (d x s).1 = .error e ∨ ∃ r, (d x s).1 = .ok r ∧ (p x (d x s).2).1 = .error e) ∧
    (∀ (d1 : forwarded_callable σ ε α δ) (p1 : forwarded_callable σ ε α ρ),
      (∀ e x1 s1, d1 x s = (.error e, x1, s1) →
        (decorated_callable.mk d1 p1).call_forwarding x s = (.error e, x1, s1)) ∧
      (∀ r x1 s1, d1 x s = (.ok r, x1, s1) →
        (decorated_callable.mk d1 p1).call_forwarding x s = p1 x1 s1)) := by
  refine ⟨?_, ?_, ?_, ?_, ?_⟩
  rotate_left 4
  · intro d1 p1
    constructor
    · intro e x1 s1 hd
      simp only [decorated_callable.call_forwarding, hd]
    · intro r x1 s1 hd
      simp only [decorated_callable.call_forwarding, hd]
  · intro e s1 hd
    constructor
    · simp only [decorated_callable.call_eq, hd]
    · simp only [decorated_callable.call_eq, observed, hd]
  · intro r s1 e s2 hd hp
    simp only [decorated_callable.call_eq, hd, hp]
  · intro r s1 v s2 hd hp
    simp only [decorated_callable.call_eq, hd, hp]
  · intro e h
    simp only [decorated_callable.call_eq] at h
    rcases hd : d x s with ⟨r, s1⟩
    rw [hd] at h
    cases r with
    | error e1 =>
      left
      simpa using h
    | ok v =>
      right
      exact ⟨v, rfl, h⟩

/-! ## Theorems: the failure message (C13) -/

theorem message_carries (s : state) (E : Nat) :
    carries (s.message E) s.location_.file_name ∧
    carries (s.message E) (toString s.location_.line) ∧
    carries (s.message E) (toString E) ∧
    carries (s.message E) (toString s.calls_) := by
  simp only [carries, state.message, String.data_append]
  refine ⟨⟨"Function defined at ".data, ":".data ++ (toString s.location_.line).data ++
      " expected ".data ++ (toString E).data ++ " calls, ".data ++
      (toString s.calls_).data ++ " seen".data, by simp [List.append_assoc]⟩,
    ⟨"Function defined at ".data ++ s.location_.file_name.data ++ ":".data,
      " expected ".data ++ (toString E).data ++ " calls, ".data ++
      (toString s.calls_).data ++ " seen".data, by simp [List.append_assoc]⟩,
    ⟨"Function defined at ".data ++ s.location_.file_name.data ++ ":".data ++
      (toString s.location_.line).data ++ " expected ".data,
      " calls, ".data ++ (toString s.calls_).data ++ " seen".data,
      by simp [List.append_assoc]⟩,
    ⟨"Function defined at ".data ++ s.location_.file_name.data ++ ":".data ++
      (toString s.location_.line).data ++ " expected ".data ++ (toString E).data ++
      " calls, ".data, " seen".data, by simp [List.append_assoc]⟩⟩

/-- C13: a checker state is constructed with the optional expectation `e` at the location
`loc` (`expect_calls` constructs it so, with its own arguments), the program runs on and ends with no object referring to the state, whose counter
then holds `N`. The destructor has reported exactly one outcome. With `e = some E` and
`E ≠ N` it is the failure whose message is "Function defined at `file`:`line` expected `E`
calls, `N` seen", `file` and `line` being those of `loc`: the message carries the file name,
the line, `E` and `N`. With `E = N`, or without expectation, nothing is reported. -/
theorem verification_failure_message (pre rest : List op) (e : Option Nat)
    (loc : source_location) (w0 w : World)
    (hpre : run World.empty pre = some w0)
    (hrun : run w0 (.construct e loc :: rest) = some w)
    (hgone : refs w w0.heap.length = 0) :
    (∀ (C : Type) (f : C) (E : Nat), expect_calls E f loc w0 =
      (step w0 (.construct (some E) loc)).map (fun w1 => (⟨w0.handles.length, f⟩, w1))) ∧
    ∃ N, objAt w w0.heap.length = some ⟨loc, e, N⟩ ∧
      (e = none → reports w w0.heap.length = [none]) ∧
      (∀ E, e = some E → E = N → reports w w0.heap.length = [none]) ∧
      (∀ E, e = some E → E ≠ N →
        reports w w0.heap.length =
          [some ("Function defined at " ++ loc.file_name ++ ":" ++ toString loc.line
            ++ " expected " ++ toString E ++ " calls, " ++ toString N ++ " seen")] ∧
        carries ("Function defined at " ++ loc.file_name ++ ":" ++ toString loc.line
            ++ " expected " ++ toString E ++ " calls, " ++ toString N ++ " seen")
          loc.file_name ∧
        carries ("Function defined at " ++ loc.file_name ++ ":" ++ toString loc.line
            ++ " expected " ++ toString E ++ " calls, " ++ toString N ++ " seen")
          (toString loc.line) ∧
        carries ("Function defined at " ++ loc.file_name ++ ":" ++ toString loc.line
            ++ " expected " ++ toString E ++ " calls, " ++ toString N ++ " seen")
          (toString E) ∧
        carries ("Function defined at " ++ loc.file_name ++ ":" ++ toString loc.line
            ++ " expected " ++ toString E ++ " calls, " ++ toString N ++ " seen")
          (toString N)) := by
  have hi : Inv w [] := run_inv (run_inv inv_empty hpre) hrun
  simp only [run, step, Option.some_bind] at hrun
  have hst := objAt_alloc w0 (state.ctor loc e) (w0.handles ++ [.ptr w0.heap.length])
  obtain ⟨st1, h1, hloc, hexp, _⟩ :=
    run_objAt w0.heap.length hrun hst (by simp [state.ctor, UINT_RANGE])
  have hrep := inv_dtor_of_unreferenced hi h1 hgone
  simp only [state.ctor] at hloc hexp
  have hst1 : st1 = ⟨loc, e, st1.calls_⟩ := by
    cases st1
    simp only at hloc hexp
    rw [hloc, hexp]
  refine ⟨fun C f E => rfl, st1.calls_, by rw [h1, ← hst1], ?_, ?_, ?_⟩
  · intro he
    rw [hrep]
    simp [state.dtor, hexp, he]
  · intro E he hEN
    rw [hrep]
    simp [state.dtor, hexp, he, hEN]
  · intro E he hEN
    have hm := message_carries st1 E
    have hmsg : st1.message E = "Function defined at " ++ loc.file_name ++ ":" ++
        toString loc.line ++ " expected " ++ toString E ++ " calls, " ++
        toString st1.calls_ ++ " seen" := by
      rw [state.message, hloc]
    rw [hmsg, hloc] at hm
    refine ⟨?_, hm⟩
    rw [hrep]
    simp only [state.dtor, hexp, he, if_neg hEN, hmsg]

theorem verification_failure_message_witness :
    (∀ (C : Type) (f : C) (E : Nat), expect_calls E f ⟨"t.cpp", 36⟩ World.empty =
      (step World.empty (.construct (some E) ⟨"t.cpp", 36⟩)).map
        (fun w1 => (⟨World.empty.handles.length, f⟩, w1))) ∧
    ∃ N, objAt ⟨[⟨⟨⟨"t.cpp", 36⟩, some 1, 2⟩, 0⟩], [.dead], [(0, some
        "Function defined at t.cpp:36 expected 1 calls, 2 seen")]⟩
        World.empty.heap.length = some ⟨⟨"t.cpp", 36⟩, some 1, N⟩ ∧
      ((some 1 : Option Nat) = none → reports ⟨[⟨⟨⟨"t.cpp", 36⟩, some 1, 2⟩, 0⟩], [.dead],
        [(0, some "Function defined at t.cpp:36 expected 1 calls, 2 seen")]⟩
        World.empty.heap.length = [none]) ∧
      (∀ E, some 1 = some E → E = N → reports ⟨[⟨⟨⟨"t.cpp", 36⟩, some 1, 2⟩, 0⟩], [.dead],
        [(0, some "Function defined at t.cpp:36 expected 1 calls, 2 seen")]⟩
        World.empty.heap.length = [none]) ∧
      (∀ E, some 1 = some E → E ≠ N →
        reports ⟨[⟨⟨⟨"t.cpp", 36⟩, some 1, 2⟩, 0⟩], [.dead],
          [(0, some "Function defined at t.cpp:36 expected 1 calls, 2 seen")]⟩
          World.empty.heap.length =
          [some ("Function defined at " ++ (⟨"t.cpp", 36⟩ : source_location).file_name ++ ":"
            ++ toString (⟨"t.cpp", 36⟩ : source_location).line
            ++ " expected " ++ toString E ++ " calls, " ++ toString N ++ " seen")] ∧
        carries ("Function defined at " ++ (⟨"t.cpp", 36⟩ : source_location).file_name ++ ":"
            ++ toString (⟨"t.cpp", 36⟩ : source_location).line
            ++ " expected " ++ toString E ++ " calls, " ++ toString N ++ " seen")
          (⟨"t.cpp", 36⟩ : source_location).file_name ∧
        carries ("Function defined at " ++ (⟨"t.cpp", 36⟩ : source_location).file_name ++ ":"
            ++ toString (⟨"t.cpp", 36⟩ : source_location).line
            ++ " expected " ++ toString E ++ " calls, " ++ toString N ++ " seen")
          (toString (⟨"t.cpp", 36⟩ : source_location).line) ∧
        carries ("Function defined at " ++ (⟨"t.cpp", 36⟩ : source_location).file_name ++ ":"
            ++ toString (⟨"t.cpp", 36⟩ : source_location).line
            ++ " expected " ++ toString E ++ " calls, " ++ toString N ++ " seen")
          (toString E) ∧
        carries ("Function defined at " ++ (⟨"t.cpp", 36⟩ : source_location).file_name ++ ":"
            ++ toString (⟨"t.cpp", 36⟩ : source_location).line
            ++ " expected " ++ toString E ++ " calls, " ++ toString N ++ " seen")
          (toString N)) :=
  verification_failure_message [] [.invoke 0, .invoke 0, .destroy 0] (some 1) ⟨"t.cpp", 36⟩
    World.empty _ rfl (by decide) (by decide)

/-! ## Theorems: round trip through tokenizer1 (C19) -/

theorem intercalate_cons_cons (sep t t2 : List Char) (ts : List (List Char)) :
    List.intercalate sep (t :: t2 :: ts) = t ++ sep ++ List.intercalate sep (t2 :: ts) := by
  simp [List.intercalate, List.intersperse]

theorem maximal_runs_intercalate : ∀ (ts : List string_view),
    (∀ t ∈ ts, t ≠ [] ∧ ∀ c ∈ t, is_ws c = false) →
    maximal_runs (List.intercalate [' '] ts) = ts := by
  intro ts
  induction ts with
  | nil => intro _; rfl
  | cons t rest ih =>
    intro h
    obtain ⟨hne, hfree⟩ := h t (List.mem_cons_self _ _)
    cases rest with
    | nil =>
      have : List.intercalate [' '] [t] = t := by simp [List.intercalate, List.intersperse]
      rw [this]
      exact maximal_runs_single t hne hfree
    | cons t2 rest2 =>
      have hrest := ih (fun u hu => h u (List.mem_cons_of_mem _ hu))
      rw [intercalate_cons_cons, List.append_assoc, List.singleton_append,
        maximal_runs_first t hne hfree ' ' (by decide), maximal_runs_cons_ws (by decide), hrest]

/-- C19: for every list `ts` of non-empty strings without space, tab or newline,
`tokenizer1` run on the strings of `ts` joined by single spaces calls its callback on exactly
the elements of `ts`, in order: a recording callback ends with `ts`. -/
theorem tokenizer1_round_trip {σ ε : Type} (cb : callable σ ε string_view Unit) (s : σ)
    (ts : List string_view)
    (hts : ∀ t ∈ ts, t ≠ [] ∧ ∀ c ∈ t, c ≠ ' ' ∧ c ≠ '\t' ∧ c ≠ '\n') :
    tokenizer1 (record (ε := ε)) (List.intercalate [' '] ts) [] = some (.ok (), ts) ∧
    tokenizer1 cb (List.intercalate [' '] ts) s = some (for_each cb ts s) := by
  have h : ∀ t ∈ ts, t ≠ [] ∧ ∀ c ∈ t, is_ws c = false := by
    intro t ht
    refine ⟨(hts t ht).1, fun c hc => ?_⟩
    have := (hts t ht).2 c hc
    simp [is_ws, this.1, this.2.1, this.2.2]
  constructor
  · rw [tokenizer1_eq, for_each_record, maximal_runs_intercalate ts h, List.nil_append]
  · rw [tokenizer1_eq, maximal_runs_intercalate ts h]

theorem tokenizer1_round_trip_witness :
    tokenizer1 (record (ε := fault))
        (List.intercalate [' '] ["hello".toList, "world".toList]) [] =
      some (.ok (), ["hello".toList, "world".toList]) ∧
    tokenizer1 (record (ε := fault)) (List.intercalate [' '] ["hello".toList, "world".toList])
        ["seen".toList] =
      some (for_each (record (ε := fault)) ["hello".toList, "world".toList] ["seen".toList]) :=
  tokenizer1_round_trip (record (ε := fault)) ["seen".toList] ["hello".toList, "world".toList]
    (by decide)

/-! ## Theorems: tokenizer2 splits as tokenizer1 does (C15) -/

theorem for_each_classify_record {ε : Type} : ∀ (l : List string_view) (acc : List token_call),
    for_each (classify (record_int (ε := ε)) record_string) l acc =
      (.ok (), acc ++ l.map classified) := by
  intro l
  induction l with
  | nil => intro acc; simp [for_each]
  | cons t ts ih =>
    intro acc
    have hstep : classify (record_int (ε := ε)) record_string t acc =
        (.ok (), acc ++ [classified t]) := by
      simp only [classify, classified, record_int, record_string]
      cases from_chars t <;> rfl
    rw [for_each, hstep]
    dsimp only
    rw [ih]
    simp

theorem string_args_sublist : ∀ (l : List string_view),
    ((l.map classified).filterMap token_call.string_arg).Sublist l := by
  intro l
  induction l with
  | nil => exact List.Sublist.slnil
  | cons t ts ih =>
    rw [List.map_cons]
    cases hf : from_chars t with
    | ok v =>
      have : classified t = .int_token v := by simp [classified, hf]
      rw [List.filterMap_cons, this]
      exact List.Sublist.cons t ih
    | error e =>
      have : classified t = .string_token t := by simp [classified, hf]
      rw [List.filterMap_cons, this]
      exact List.Sublist.cons₂ t ih

/-- C15: for every input, the scan of `tokenizer2` is the scan of `tokenizer1` in which each
call of the callback is replaced by one call of `int_token` or of `string_token`. With
recording callbacks both return; `tokenizer2` has made as many calls as `tokenizer1`
produced tokens, the `k`-th call being made for the `k`-th token (`string_token` with that
token, or `int_token` with the value parsed from it), and the arguments of its `string_token`
calls form, in order, a sublist of the `tokenizer1` tokens. -/
theorem tokenizer2_refines_tokenizer1 {σ ε : Type} (it : callable σ ε Int Unit)
    (st : callable σ ε string_view Unit) (input : string_view) (s : σ) :
    tokenizer2 it st input s = tokenizer1 (classify it st) input s ∧
    ∃ (toks : List string_view) (calls : List token_call),
      tokenizer1 (record (ε := ε)) input [] = some (.ok (), toks) ∧
      tokenizer2 (record_int (ε := ε)) record_string input [] = some (.ok (), calls) ∧
      calls.length = toks.length ∧
      (∀ (k : Nat) (t : string_view), toks[k]? = some t →
        calls[k]? = some (token_call.string_token t) ∨
        ∃ v, from_chars t = .ok v ∧ calls[k]? = some (token_call.int_token v)) ∧
      (calls.filterMap token_call.string_arg).Sublist toks := by
  refine ⟨by rw [tokenizer2_eq, tokenizer1_eq], maximal_runs input,
    (maximal_runs input).map classified, ?_, ?_, by simp, ?_, string_args_sublist _⟩
  · rw [tokenizer1_eq, for_each_record, List.nil_append]
  · rw [tokenizer2_eq, for_each_classify_record, List.nil_append]
  · intro k t hk
    rw [List.getElem?_map, hk, Option.map_some']
    cases hf : from_chars t with
    | ok v =>
      right
      exact ⟨v, rfl, by simp [classified, hf]⟩
    | error e =>
      left
      simp [classified, hf]

/-! ## Theorems: termination and number of calls (C16) -/

theorem maximal_runs_length_cons {x : Char} (hx : is_ws x = false) (xs : List Char) :
    ((xs = [] ∨ ∃ y ys, xs = y :: ys ∧ is_ws y = true) →
      (maximal_runs (x :: xs)).length = (maximal_runs xs).length + 1) ∧
    ((∃ y ys, xs = y :: ys ∧ is_ws y = false) →
      (maximal_runs (x :: xs)).length = (maximal_runs xs).length) := by
  constructor
  · rintro (rfl | ⟨y, ys, rfl, hy⟩)
    · simp [maximal_runs, List.splitOnP_cons, hx, List.modifyHead]
    · simp [maximal_runs, List.splitOnP_cons, hx, hy, List.modifyHead]
  · rintro ⟨y, ys, rfl, hy⟩
    cases hsp : ys.splitOnP is_ws with
    | nil => exact absurd hsp (List.splitOnP_ne_nil _ _)
    | cons hd tl =>
      simp [maximal_runs, List.splitOnP_cons, hx, hy, hsp, List.modifyHead]

theorem maximal_runs_length_bound : ∀ (l : List Char),
    2 * (maximal_runs l).length ≤ l.length + 1 ∧
    ((l = [] ∨ ∃ y ys, l = y :: ys ∧ is_ws y = true) →
      2 * (maximal_runs l).length ≤ l.length) := by
  intro l
  induction l with
  | nil => exact ⟨by simp [maximal_runs], fun _ => by simp [maximal_runs]⟩
  | cons x xs ih =>
    by_cases hx : is_ws x = true
    · rw [maximal_runs_cons_ws hx]
      simp only [List.length_cons]
      exact ⟨by omega, fun _ => by omega⟩
    · have hx2 : is_ws x = false := by simpa using hx
      have hlen := maximal_runs_length_cons hx2 xs
      constructor
      · cases xs with
        | nil =>
          rw [hlen.1 (Or.inl rfl)]
          simp [maximal_runs]
        | cons y ys =>
          by_cases hy : is_ws y = true
          · rw [hlen.1 (Or.inr ⟨y, ys, rfl, hy⟩)]
            have := ih.2 (Or.inr ⟨y, ys, rfl, hy⟩)
            simp only [List.length_cons] at this ⊢
            omega
          · have hy2 : is_ws y = false := by simpa using hy
            rw [hlen.2 ⟨y, ys, rfl, hy2⟩]
            have := ih.1
            simp only [List.length_cons] at this ⊢
            omega
      · rintro (h | ⟨y, ys, h, hy⟩)
        · cases h
        · simp only [List.cons.injEq] at h
          rw [h.1, hy] at hx2
          cases hx2

theorem for_each_counting {σ ε α : Type} (f : callable σ ε α Unit) :
    ∀ (l : List α) (s : σ) (c : Nat),
    ∃ r s1 m, for_each (counting f) l (s, c) = (r, (s1, c + m)) ∧ m ≤ l.length := by
  intro l
  induction l with
  | nil => intro s c; exact ⟨.ok (), s, 0, rfl, Nat.le_refl _⟩
  | cons x xs ih =>
    intro s c
    have hc : counting f x (s, c) = ((f x s).1, ((f x s).2, c + 1)) := rfl
    rcases hf : f x s with ⟨r, s1⟩
    rw [hf] at hc
    cases r with
    | error e =>
      refine ⟨.error e, s1, 1, ?_, by simp⟩
      rw [for_each, hc]
    | ok v =>
      obtain ⟨r2, s2, m, h2, hm⟩ := ih s1 (c + 1)
      refine ⟨r2, s2, m + 1, ?_, by simpa using hm⟩
      rw [for_each, hc]
      dsimp only
      rw [h2, Nat.add_assoc, Nat.add_comm 1 m]

theorem classify_counting {σ ε : Type} (it : callable σ ε Int Unit)
    (st : callable σ ε string_view Unit) (tok : string_view) (s : σ × Nat) :
    classify (counting it) (counting st) tok s = counting (classify it st) tok s := by
  simp only [classify, counting]
  cases from_chars tok <;> rfl

theorem cursor_increases {input : string_view} {b a b2 : Nat}
    (hf : find_first_not_of input ws b = some a) (hg : find_first_of input ws a = some b2) :
    b ≤ a ∧ a < b2 ∧ b2 < input.length := by
  rcases scan_cases input b with ⟨h, _⟩ | ⟨a1, h, _, hn, _⟩ | ⟨a1, b3, h, _, hs, _, hab, hlt, _⟩
  · rw [hf] at h; cases h
  · rw [hf] at h
    cases h
    rw [hg] at hn
    cases hn
  · rw [hf] at h
    cases h
    rw [hg] at hs
    cases hs
    obtain ⟨pre, c, post, _, _, _, ha⟩ := find_first_not_of_some hf
    exact ⟨by omega, hab, hlt⟩

/-- C16: for every input of length `n`, every callback and every start of the cursor, the
scan loops of `tokenizer1` and of `tokenizer2` return as soon as they are allowed more than
`n - b` iterations (so the `n + 1` of the call operators always suffice). An iteration that
does not exit takes the cursor from `b` to a `b2` with `b < b2 < n`. And the number `m` of
callback calls made over the whole scan is at most `(n + 1) / 2`; the bound is reached by
`"a b c"`, with 3 calls for 5 characters. -/
theorem scans_terminate_within_bound {σ ε : Type} (cb : callable σ ε string_view Unit)
    (it : callable σ ε Int Unit) (st : callable σ ε string_view Unit)
    (input : string_view) (s : σ) (c : Nat) :
    (∀ fuel b, input.length - b < fuel →
      (tokenizer1.loop cb input fuel b s).isSome = true ∧
      (tokenizer2.loop it st input fuel b s).isSome = true) ∧
    (∀ b a b2, find_first_not_of input ws b = some a → find_first_of input ws a = some b2 →
      b < b2 ∧ b2 < input.length) ∧
    (∃ r s1 m, tokenizer1 (counting cb) input (s, c) = some (r, (s1, c + m)) ∧
      m ≤ (input.length + 1) / 2) ∧
    (∃ r s1 m, tokenizer2 (counting it) (counting st) input (s, c) = some (r, (s1, c + m)) ∧
      m ≤ (input.length + 1) / 2) ∧
    tokenizer1 (counting (record (ε := ε))) "a b c".toList ([], 0) =
      some (.ok (), (["a".toList, "b".toList, "c".toList], 3)) := by
  have hbound := (maximal_runs_length_bound input).1
  refine ⟨?_, ?_, ?_, ?_, rfl⟩
  · intro fuel b hfuel
    rw [tokenizer2_loop_eq_tokenizer1, tokenizer1_loop_eq cb input fuel b s hfuel,
      tokenizer1_loop_eq (classify it st) input fuel b s hfuel]
    exact ⟨rfl, rfl⟩
  · intro b a b2 hf hg
    have := cursor_increases hf hg
    exact ⟨by omega, this.2.2⟩
  · obtain ⟨r, s1, m, h, hm⟩ := for_each_counting cb (maximal_runs input) s c
    refine ⟨r, s1, m, by rw [tokenizer1_eq, h], ?_⟩
    omega
  · obtain ⟨r, s1, m, h, hm⟩ := for_each_counting (classify it st) (maximal_runs input) s c
    refine ⟨r, s1, m, ?_, by omega⟩
    rw [tokenizer2_eq, for_each_congr (classify_counting it st), h]

/-! ## Theorems: single operations on a checker object -/

theorem live_congr {w w1 : World} (h : w1.handles = w.handles) (x : Nat) :
    w1.live x = w.live x := by
  simp only [World.live, h]

theorem live_ne_dead {w : World} {h : Nat} {p : handle} (hl : w.live h = some p) :
    p ≠ .dead := by
  intro hp
  subst hp
  have := live_eq_some hl
  simp [World.live, this] at hl

theorem live_of_getElem? {w : World} {h : Nat} {p : handle} (hg : w.handles[h]? = some p)
    (hp : p ≠ .dead) : w.live h = some p := by
  cases p with
  | dead => exact absurd rfl hp
  | null => simp [World.live, hg]
  | ptr a => simp [World.live, hg]

theorem live_lt {w : World} {h : Nat} {p : handle} (hl : w.live h = some p) :
    h < w.handles.length :=
  (List.getElem?_eq_some.mp (live_eq_some hl)).1

theorem step_invoke_spec {w : World} {h a : Nat} {st : state}
    (hl : w.live h = some (.ptr a)) (hst : objAt w a = some st) :
    ∃ w1, step w (.invoke h) = some w1 ∧ w1.handles = w.handles ∧
      w1.dtor_log = w.dtor_log ∧
      (∀ b, objAt w1 b = if b = a then some st.called else objAt w b) := by
  simp only [objAt, Option.map_eq_some'] at hst
  obtain ⟨cb, hcb, hobj⟩ := hst
  have hlt : a < w.heap.length := (List.getElem?_eq_some.mp hcb).1
  have hstep : step w (.invoke h) =
      some { w with heap := w.heap.set a { cb with obj := cb.obj.called } } := by
    simp only [step, hl, World.increment, hcb, state.called]
  refine ⟨_, hstep, rfl, rfl, ?_⟩
  intro b
  by_cases hba : b = a
  · subst hba
    simp [objAt, List.getElem?_set, hlt, hobj]
  · have hab : ¬ (a = b) := fun h => hba h.symm
    simp [objAt, List.getElem?_set, hba, hab]

theorem step_copy_assign_spec {w : World} {dst src : Nat} {old p : handle}
    (hd : w.live dst = some old) (hs : w.live src = some p) :
    ∃ w1, step w (.copy_assign dst src) = some w1 ∧ w1.handles = w.handles.set dst p ∧
      (∀ b, objAt w1 b = objAt w b) := by
  have hstep : step w (.copy_assign dst src) =
      some ({ w.acquire_ptr p with handles := (w.acquire_ptr p).handles.set dst p }.release_ptr
        old) := by
    simp only [step, hd, hs]
  refine ⟨_, hstep, ?_, ?_⟩
  · simp only [release_ptr_handles, acquire_ptr_handles]
  · intro b
    rw [objAt_release_ptr, objAt_handles, objAt_acquire_ptr]

theorem step_move_assign_spec {w : World} {dst src : Nat} {old p : handle}
    (hd : w.live dst = some old) (hs : w.live src = some p) :
    ∃ w1, step w (.move_assign dst src) = some w1 ∧
      w1.handles = (w.handles.set src .null).set dst p ∧
      (∀ b, objAt w1 b = objAt w b) := by
  have hstep : step w (.move_assign dst src) =
      some ({ w with handles := (w.handles.set src .null).set dst p }.release_ptr
        ((w.handles.set src .null).getD dst .null)) := by
    simp only [step, hd, hs]
  refine ⟨_, hstep, ?_, ?_⟩
  · simp only [release_ptr_handles]
  · intro b
    rw [objAt_release_ptr, objAt_handles]

theorem live_set_self {w1 : World} {h : Nat} {p : handle} {l : List handle}
    (hl : h < l.length) (hp : p ≠ .dead) (hw : w1.handles = l.set h p) :
    w1.live h = some p := by
  apply live_of_getElem? _ hp
  rw [hw, List.getElem?_set]
  simp [hl]

theorem current_count_eq_map {w : World} {h a : Nat} (hl : w.live h = some (.ptr a)) :
    current_count w h = (objAt w a).map (fun st => st.calls_) := by
  simp only [current_count, hl, objAt, Option.map_map]
  rfl

/-! ## Theorems: a failing payload is still counted (C17) -/

theorem checker_call_spec {τ α : Type} {w : World} {h a : Nat} {st : state}
    (hl : w.live h = some (.ptr a)) (hst : objAt w a = some st) (t : τ) (x : α) :
    ∃ w1, step w (.invoke h) = some w1 ∧
      call_count_checker.call h x (w, t) = (.ok (), (w1, t)) ∧
      w1.handles = w.handles ∧ w1.dtor_log = w.dtor_log ∧
      (∀ b, objAt w1 b = if b = a then some st.called else objAt w b) ∧
      current_count w1 h = some ((st.calls_ + 1) % UINT_RANGE) := by
  obtain ⟨w1, hstep, hh, hlog, hobj⟩ := step_invoke_spec hl hst
  refine ⟨w1, hstep, by simp only [call_count_checker.call, hstep], hh, hlog, hobj, ?_⟩
  have hl1 : w1.live h = some (.ptr a) := by rw [live_congr hh]; exact hl
  rw [current_count_eq_map hl1, hobj a]
  simp [state.called]

theorem live_after_construct (w : World) (e : Option Nat) (loc : source_location) :
    ∃ w1, step w (.construct e loc) = some w1 ∧
      w1.live w.handles.length = some (.ptr w.heap.length) ∧
      objAt w1 w.heap.length = some (state.ctor loc e) := by
  refine ⟨_, rfl, ?_, ?_⟩
  · simp [World.live]
  · simp [objAt]

/-- C17 (as amended): a decorated callable whose decorator is a checker object that refers
to a state with counter `c` is invoked. The counter is first replaced by `(c + 1) % 2^32`,
so it is one higher whenever `c + 1 < 2^32`, and the payload then runs in that state: the
outcome of the invocation is the outcome of the payload, its fault included. With an unbound
`std::function` as payload the invocation ends with `std::bad_function_call` and the counter
at `(c + 1) % 2^32`; a default-constructed `counted_function` invoked once fails so and then
reads `current_count() = 1`. -/
theorem checker_counts_failed_invocations {τ α ρ : Type} (w : World) (t : τ) (h a : Nat)
    (st : state) (x : α) (p : callable (World × τ) fault α ρ) (loc : source_location)
    (hl : w.live h = some (.ptr a)) (hst : objAt w a = some st) :
    (∃ w1, step w (.invoke h) = some w1 ∧
      current_count w h = some st.calls_ ∧
      current_count w1 h = some ((st.calls_ + 1) % UINT_RANGE) ∧
      (st.calls_ + 1 < UINT_RANGE → current_count w1 h = some (st.calls_ + 1)) ∧
      (decorated_callable.mk h p).invoke x (w, t) = p x (w1, t) ∧
      counted_function.call (⟨h, none⟩ : counted_function τ α ρ) x (w, t) =
        (.error .bad_function_call, (w1, t))) ∧
    (∃ (f : counted_function τ α ρ) (w2 w3 : World),
      counted_function.default loc w = some (f, w2) ∧
      f.call x (w2, t) = (.error .bad_function_call, (w3, t)) ∧
      f.current_count w2 = some 0 ∧ f.current_count w3 = some 1) := by
  constructor
  · obtain ⟨w1, hstep, hcall, _, _, _, hcount⟩ := checker_call_spec hl hst t x
    refine ⟨w1, hstep, ?_, hcount, ?_, ?_, ?_⟩
    · rw [current_count_eq_map hl, hst]
      rfl
    · intro hlt
      rw [hcount, Nat.mod_eq_of_lt hlt]
    · simp only [decorated_callable.invoke, decorated_callable.call_eq, hcall]
    · simp only [counted_function.call, decorated_callable.call_eq, hcall, function_call]
  · obtain ⟨w2, hstep2, hl2, hst2⟩ := live_after_construct w none loc
    obtain ⟨w3, _, hcall, _, _, _, hcount⟩ := checker_call_spec hl2 hst2 t x
    refine ⟨⟨w.handles.length, none⟩, w2, w3, ?_, ?_, ?_, ?_⟩
    · simp only [counted_function.default, hstep2, Option.map_some']
    · simp only [counted_function.call, decorated_callable.call_eq, hcall, function_call]
    · simp only [counted_function.current_count]
      rw [current_count_eq_map hl2, hst2]
      rfl
    · simp only [counted_function.current_count]
      rw [hcount]
      rfl

theorem checker_counts_failed_invocations_witness :
    (∃ w1, step (solo none no_source_location 3) (.invoke 0) = some w1 ∧
      current_count (solo none no_source_location 3) 0 =
        some (⟨no_source_location, none, 3⟩ : state).calls_ ∧
      current_count w1 0 =
        some (((⟨no_source_location, none, 3⟩ : state).calls_ + 1) % UINT_RANGE) ∧
      ((⟨no_source_location, none, 3⟩ : state).calls_ + 1 < UINT_RANGE →
        current_count w1 0 = some ((⟨no_source_location, none, 3⟩ : state).calls_ + 1)) ∧
      (decorated_callable.mk 0
          (function_call (none : Option (callable (World × Unit) fault Unit Unit)))).invoke ()
          (solo none no_source_location 3, ()) =
        function_call (none : Option (callable (World × Unit) fault Unit Unit)) () (w1, ()) ∧
      counted_function.call (⟨0, none⟩ : counted_function Unit Unit Unit) ()
          (solo none no_source_location 3, ()) =
        (.error .bad_function_call, (w1, ()))) ∧
    (∃ (f : counted_function Unit Unit Unit) (w2 w3 : World),
      counted_function.default no_source_location (solo none no_source_location 3) =
        some (f, w2) ∧
      f.call () (w2, ()) = (.error .bad_function_call, (w3, ())) ∧
      f.current_count w2 = some 0 ∧ f.current_count w3 = some 1) :=
  checker_counts_failed_invocations (solo none no_source_location 3) () 0 0
    ⟨no_source_location, none, 3⟩ ()
    (function_call (none : Option (callable (World × Unit) fault Unit Unit)))
    no_source_location rfl rfl

/-- C17 as stated fails: after `2^32 - 1` calls `current_count()` is `2^32 - 1`; the next
invocation, of an unbound payload, fails with `std::bad_function_call` and leaves
`current_count()` at 0, which is not one higher than before. -/
theorem failed_invocation_wraps_counterexample :
    ∃ w w1, run World.empty (.construct none no_source_location ::
        List.replicate (UINT_RANGE - 1) (.invoke 0)) = some w ∧
      counted_function.call (⟨0, none⟩ : counted_function Unit Unit Unit) () (w, ()) =
        (.error .bad_function_call, (w1, ())) ∧
      current_count w 0 = some 4294967295 ∧ current_count w1 0 = some 0 := by
  refine ⟨solo none no_source_location 4294967295, solo none no_source_location 0, ?_, ?_,
    current_count_solo _ _ _, current_count_solo _ _ _⟩
  · rw [run_construct_invokes]
    rfl
  · have hstep := step_solo_invoke none no_source_location 4294967295
    simp only [counted_function.call, decorated_callable.call_eq, call_count_checker.call, hstep,
      function_call]
    rfl

/-! ## Theorems: assignment of a decorated callable (C14) -/

theorem shares_state_after_of {w w1 : World} {fdec bdec a : Nat} {st : state}
    (hb : w.live bdec = some (.ptr a)) (hst : objAt w a = some st)
    (hlt : st.calls_ < UINT_RANGE) (hl1 : w1.live fdec = some (.ptr a))
    (hobj : ∀ x, objAt w1 x = objAt w x) : shares_state_after w w1 fdec bdec a st := by
  have hc1 : current_count w1 fdec = some st.calls_ := by
    rw [current_count_eq_map hl1, hobj a, hst]
    rfl
  have hc0 : current_count w bdec = some st.calls_ := by
    rw [current_count_eq_map hb, hst]
    rfl
  refine ⟨hl1, hobj, by rw [hc1, hc0], hc1, ?_⟩
  intro os w2 h hrun hl2
  have hst1 : objAt w1 a = some st := by rw [hobj a]; exact hst
  obtain ⟨st2, h2, _, _, hcalls⟩ := run_objAt a hrun hst1 hlt
  have hread : ∀ g, w2.live g = some (.ptr a) → current_count w2 g = some st2.calls_ := by
    intro g hg
    rw [current_count_eq_map hg, h2]
    rfl
  exact ⟨by rw [hread h hl2, hcalls], fun hf2 => by rw [hread fdec hf2, hread h hl2]⟩

theorem assign_copy_spec {C C2 : Type} (convert : C2 → C) (f : decorated_callable Nat C)
    (b : decorated_callable Nat C2) {w : World} {old : handle} {a : Nat} {st : state}
    (hf : w.live f.decorator_ = some old) (hb : w.live b.decorator_ = some (.ptr a))
    (hst : objAt w a = some st) (hlt : st.calls_ < UINT_RANGE) :
    ∃ w1, f.assign convert b w = some (⟨f.decorator_, convert b.callable_⟩, w1) ∧
      w1.live b.decorator_ = some (.ptr a) ∧
      shares_state_after w w1 f.decorator_ b.decorator_ a st := by
  obtain ⟨w1, hstep, hh, hobj⟩ := step_copy_assign_spec hf hb
  have hl1 : w1.live f.decorator_ = some (.ptr a) :=
    live_set_self (live_lt hf) (by simp) hh
  refine ⟨w1, by simp only [decorated_callable.assign, hstep, Option.map_some'], ?_,
    shares_state_after_of hb hst hlt hl1 hobj⟩
  by_cases hsame : b.decorator_ = f.decorator_
  · rw [hsame]; exact hl1
  · apply live_of_getElem? _ (by simp)
    rw [hh, List.getElem?_set_ne (fun h => hsame h.symm)]
    exact live_eq_some hb

theorem assign_move_spec {C C2 : Type} (convert : C2 → C) (f : decorated_callable Nat C)
    (b : decorated_callable Nat C2) {w : World} {old : handle} {a : Nat} {st : state}
    (hf : w.live f.decorator_ = some old) (hb : w.live b.decorator_ = some (.ptr a))
    (hst : objAt w a = some st) (hlt : st.calls_ < UINT_RANGE) :
    ∃ w1, f.assign_move convert b w = some (⟨f.decorator_, convert b.callable_⟩, w1) ∧
      (b.decorator_ ≠ f.decorator_ → w1.live b.decorator_ = some .null) ∧
      shares_state_after w w1 f.decorator_ b.decorator_ a st := by
  obtain ⟨w1, hstep, hh, hobj⟩ := step_move_assign_spec hf hb
  have hl1 : w1.live f.decorator_ = some (.ptr a) :=
    live_set_self (by rw [List.length_set]; exact live_lt hf) (by simp) hh
  refine ⟨w1, by simp only [decorated_callable.assign_move, hstep, Option.map_some'], ?_,
    shares_state_after_of hb hst hlt hl1 hobj⟩
  intro hne
  apply live_of_getElem? _ (by simp)
  rw [hh, List.getElem?_set_ne (fun h => hne h.symm), List.getElem?_set]
  simp [live_lt hb]

theorem invokes_payload_counted_of {τ α ρ : Type} {p : callable (World × τ) fault α ρ}
    {w w1 : World} {fdec bdec a : Nat} {st : state}
    (hs : shares_state_after w w1 fdec bdec a st) (hst : objAt w a = some st) :
    invokes_payload_counted (counted_function.call ⟨fdec, some p⟩) p w1 fdec a st ∧
    invokes_payload_counted (decorated_callable.invoke ⟨fdec, p⟩) p w1 fdec a st := by
  have hst1 : objAt w1 a = some st := by rw [hs.2.1 a]; exact hst
  constructor
  · intro x t
    obtain ⟨w2, hstep, hcall, _, _, hobj, _⟩ := checker_call_spec hs.1 hst1 t x
    refine ⟨w2, hstep, by simp [hobj a], ?_⟩
    simp only [counted_function.call, decorated_callable.call_eq, hcall, function_call]
  · intro x t
    obtain ⟨w2, hstep, hcall, _, _, hobj, _⟩ := checker_call_spec hs.1 hst1 t x
    refine ⟨w2, hstep, by simp [hobj a], ?_⟩
    simp only [decorated_callable.invoke, decorated_callable.call_eq, hcall]

/-- C14: a decorated callable `b` whose checker refers to the state at `a`, with count `c`,
is assigned to a `counted_function` field `f` or to a decorated callable field `g`, by the
copy or by the move assignment. The assigned object keeps its own checker object and has the
payload of `b`; its checker now refers to the state of `b` (after a copy so does `b`, after a
move `b` is left empty); no state is added or reset and `current_count()` through the field
is `c`, the count of `b`; after any further operations, whatever object of the state they
call through, the field and every other object of that state read one and the same count,
`c` plus the number of these calls (modulo `2^32`); and a call of the field counts on that
state and then runs the payload of `b`. -/
theorem assignment_shares_checker_state {τ α ρ : Type}
    (f : counted_function τ α ρ)
    (g b : decorated_callable Nat (callable (World × τ) fault α ρ))
    (w : World) (oldf oldg : handle) (a : Nat) (st : state)
    (hf : w.live f.decorator_ = some oldf) (hg : w.live g.decorator_ = some oldg)
    (hb : w.live b.decorator_ = some (.ptr a))
    (hst : objAt w a = some st) (hlt : st.calls_ < UINT_RANGE) :
    (∃ w1, f.assign some b w = some (⟨f.decorator_, some b.callable_⟩, w1) ∧
      w1.live b.decorator_ = some (.ptr a) ∧
      shares_state_after w w1 f.decorator_ b.decorator_ a st ∧
      invokes_payload_counted (counted_function.call ⟨f.decorator_, some b.callable_⟩)
        b.callable_ w1 f.decorator_ a st) ∧
    (∃ w1, f.assign_move some b w = some (⟨f.decorator_, some b.callable_⟩, w1) ∧
      (b.decorator_ ≠ f.decorator_ → w1.live b.decorator_ = some .null) ∧
      shares_state_after w w1 f.decorator_ b.decorator_ a st ∧
      invokes_payload_counted (counted_function.call ⟨f.decorator_, some b.callable_⟩)
        b.callable_ w1 f.decorator_ a st) ∧
    (∃ w1, g.assign id b w = some (⟨g.decorator_, b.callable_⟩, w1) ∧
      w1.live b.decorator_ = some (.ptr a) ∧
      shares_state_after w w1 g.decorator_ b.decorator_ a st ∧
      invokes_payload_counted (decorated_callable.invoke ⟨g.decorator_, b.callable_⟩)
        b.callable_ w1 g.decorator_ a st) ∧
    (∃ w1, g.assign_move id b w = some (⟨g.decorator_, b.callable_⟩, w1) ∧
      (b.decorator_ ≠ g.decorator_ → w1.live b.decorator_ = some .null) ∧
      shares_state_after w w1 g.decorator_ b.decorator_ a st ∧
      invokes_payload_counted (decorated_callable.invoke ⟨g.decorator_, b.callable_⟩)
        b.callable_ w1 g.decorator_ a st) := by
  refine ⟨?_, ?_, ?_, ?_⟩
  · obtain ⟨w1, h1, h2, h3⟩ := assign_copy_spec some f b hf hb hst hlt
    exact ⟨w1, h1, h2, h3, (invokes_payload_counted_of h3 hst).1⟩
  · obtain ⟨w1, h1, h2, h3⟩ := assign_move_spec some f b hf hb hst hlt
    exact ⟨w1, h1, h2, h3, (invokes_payload_counted_of h3 hst).1⟩
  · obtain ⟨w1, h1, h2, h3⟩ := assign_copy_spec id g b hg hb hst hlt
    exact ⟨w1, h1, h2, h3, (invokes_payload_counted_of h3 hst).2⟩
  · obtain ⟨w1, h1, h2, h3⟩ := assign_move_spec id g b hg hb hst hlt
    exact ⟨w1, h1, h2, h3, (invokes_payload_counted_of h3 hst).2⟩

theorem assignment_shares_checker_state_witness :
    (∃ w1, decorated_callable.assign some (⟨0, none⟩ : counted_function Unit Unit Unit)
        (⟨2, returns_unit⟩ : decorated_callable Nat (callable (World × Unit) fault Unit Unit))
        three_checkers = some (⟨0, some returns_unit⟩, w1) ∧
      w1.live 2 = some (.ptr 2) ∧
      shares_state_after three_checkers w1 0 2 2 ⟨no_source_location, some 1, 0⟩ ∧
      invokes_payload_counted (counted_function.call ⟨0, some returns_unit⟩)
        returns_unit w1 0 2 ⟨no_source_location, some 1, 0⟩) ∧
    (∃ w1, decorated_callable.assign_move some (⟨0, none⟩ : counted_function Unit Unit Unit)
        (⟨2, returns_unit⟩ : decorated_callable Nat (callable (World × Unit) fault Unit Unit))
        three_checkers = some (⟨0, some returns_unit⟩, w1) ∧
      ((2 : Nat) ≠ 0 → w1.live 2 = some .null) ∧
      shares_state_after three_checkers w1 0 2 2 ⟨no_source_location, some 1, 0⟩ ∧
      invokes_payload_counted (counted_function.call ⟨0, some returns_unit⟩)
        returns_unit w1 0 2 ⟨no_source_location, some 1, 0⟩) ∧
    (∃ w1, decorated_callable.assign id
        (⟨1, returns_unit⟩ : decorated_callable Nat (callable (World × Unit) fault Unit Unit))
        (⟨2, returns_unit⟩ : decorated_callable Nat (callable (World × Unit) fault Unit Unit))
        three_checkers = some (⟨1, returns_unit⟩, w1) ∧
      w1.live 2 = some (.ptr 2) ∧
      shares_state_after three_checkers w1 1 2 2 ⟨no_source_location, some 1, 0⟩ ∧
      invokes_payload_counted (decorated_callable.invoke ⟨1, returns_unit⟩)
        returns_unit w1 1 2 ⟨no_source_location, some 1, 0⟩) ∧
    (∃ w1, decorated_callable.assign_move id
        (⟨1, returns_unit⟩ : decorated_callable Nat (callable (World × Unit) fault Unit Unit))
        (⟨2, returns_unit⟩ : decorated_callable Nat (callable (World × Unit) fault Unit Unit))
        three_checkers = some (⟨1, returns_unit⟩, w1) ∧
      ((2 : Nat) ≠ 1 → w1.live 2 = some .null) ∧
      shares_state_after three_checkers w1 1 2 2 ⟨no_source_location, some 1, 0⟩ ∧
      invokes_payload_counted (decorated_callable.invoke ⟨1, returns_unit⟩)
        returns_unit w1 1 2 ⟨no_source_location, some 1, 0⟩) :=
  assignment_shares_checker_state (⟨0, none⟩ : counted_function Unit Unit Unit)
    ⟨1, returns_unit⟩ ⟨2, returns_unit⟩ three_checkers (.ptr 0) (.ptr 1) 2
    ⟨no_source_location, some 1, 0⟩ rfl rfl rfl rfl (by decide)

/-! ## Theorems: overwriting the last handle (C18) -/

theorem hits_zero_of_unreferenced {w : World} {a : Nat} (hz : refs w a = 0) (o : op) :
    hits a w o = 0 := by
  cases o with
  | invoke h =>
    simp only [hits]
    split
    · rename_i hl
      have := live_refs_pos hl
      omega
    · rfl
  | _ => rfl

theorem objAt_lt {w : World} {a : Nat} {st : state} (hst : objAt w a = some st) :
    a < w.heap.length := by
  simp only [objAt, Option.map_eq_some'] at hst
  obtain ⟨cb, hcb, _⟩ := hst
  exact (List.getElem?_eq_some.mp hcb).1

theorem run_unreferenced {os : List op} {a : Nat} {st : state} : ∀ {w w2 : World},
    run w os = some w2 → objAt w a = some st → refs w a = 0 →
    objAt w2 a = some st ∧ refs w2 a = 0 ∧ invocations a w os = 0 := by
  induction os with
  | nil =>
    intro w w2 hr hst hz
    simp only [run, Option.some.injEq] at hr
    subst hr
    exact ⟨hst, hz, rfl⟩
  | cons o os ih =>
    intro w w2 hr hst hz
    simp only [run] at hr
    cases hs : step w o with
    | none => simp [hs] at hr
    | some w1 =>
      simp only [hs, Option.some_bind] at hr
      have h1 := step_objAt hs a hst
      rw [hits_zero_of_unreferenced hz o] at h1
      simp only [Nat.zero_ne_one, if_false] at h1
      have hz1 := step_refs_zero hs (objAt_lt hst) hz
      obtain ⟨h2, hz2, hinv⟩ := ih hr h1 hz1
      refine ⟨h2, hz2, ?_⟩
      simp only [invocations, hs, hits_zero_of_unreferenced hz o, hinv]

theorem refs_after_overwrite {l : List handle} {dst a : Nat} {p : handle}
    (hd : l[dst]? = some (.ptr a)) (hone : l.count (.ptr a) = 1) (hp : p ≠ .ptr a) :
    (l.set dst p).count (.ptr a) = 0 := by
  have := count_set_balance l dst p (.ptr a) (.ptr a) hd
  simp only [if_true, if_neg hp] at this
  omega

theorem dtor_isSome_iff (st : state) :
    st.dtor.isSome = true ↔ ∃ E, st.expected_ = some E ∧ st.calls_ ≠ E := by
  simp only [state.dtor]
  cases he : st.expected_ with
  | none => simp
  | some E =>
    by_cases h : E = st.calls_
    · simp [h]
    · simp only [if_neg h, Option.isSome_some, true_iff]
      exact ⟨E, rfl, fun h2 => h h2.symm⟩

theorem released_for_good {w1 : World} {a : Nat} {st : state} {p : handle} {dst : Nat}
    (hi1 : Inv w1 []) (hst1 : objAt w1 a = some st) (hz : refs w1 a = 0)
    (hl1 : w1.live dst = some p) :
    reports w1 a = [st.dtor] ∧
    (∀ os2 w2, run w1 os2 = some w2 →
      objAt w2 a = some st ∧ reports w2 a = [st.dtor] ∧ invocations a w1 os2 = 0) ∧
    (∀ a2 st2, p = .ptr a2 → objAt w1 a2 = some st2 →
      ∃ w2, step w1 (.invoke dst) = some w2 ∧ objAt w2 a2 = some st2.called ∧
        objAt w2 a = some st) := by
  refine ⟨inv_dtor_of_unreferenced hi1 hst1 hz, ?_, ?_⟩
  · intro os2 w2 hr
    obtain ⟨h2, hz2, hinv⟩ := run_unreferenced hr hst1 hz
    exact ⟨h2, inv_dtor_of_unreferenced (run_inv hi1 hr) h2 hz2, hinv⟩
  · intro a2 st2 hp hst2
    subst hp
    obtain ⟨w2, hstep, _, _, hobj⟩ := step_invoke_spec hl1 hst2
    have hne : a ≠ a2 := by
      intro h
      subst h
      have := live_refs_pos hl1
      omega
    refine ⟨w2, hstep, by simp [hobj a2], ?_⟩
    rw [hobj a, if_neg hne]
    exact hst1

/-- C18: in a reachable state, the checker object `dst` is the only one that refers to the
state at `a`, which holds expectation and count `st`, and `dst` is assigned (by copy or by
move) from an object `src` that holds something else, `p`. Before the assignment the
destructor of the state had not run; the assignment succeeds and right after it the
destructor has run exactly once, with the verdict of the count reached before the assignment
(a failure iff an expectation `E` was set and the count differs from `E`); nothing refers to
the old state any more and nothing that follows changes it or makes its destructor run
again; and a call through `dst` counts on the state that `src` brought, not on the old one.
The assignments of `decorated_callable` are these assignments of their checker objects. -/
theorem overwriting_last_handle_runs_verification (os : List op) (w : World)
    (dst src a : Nat) (st : state) (p : handle)
    (hrun : run World.empty os = some w)
    (hd : w.live dst = some (.ptr a)) (hone : refs w a = 1)
    (hs : w.live src = some p) (hp : p ≠ .ptr a) (hst : objAt w a = some st) :
    runs w a = 0 ∧
    (st.dtor.isSome = true ↔ ∃ E, st.expected_ = some E ∧ st.calls_ ≠ E) ∧
    (∀ o, (o = .copy_assign dst src ∨ o = .move_assign dst src) →
      ∃ w1, step w o = some w1 ∧ w1.live dst = some p ∧ refs w1 a = 0 ∧
        reports w1 a = [st.dtor] ∧
        (∀ os2 w2, run w1 os2 = some w2 →
          objAt w2 a = some st ∧ reports w2 a = [st.dtor] ∧ invocations a w1 os2 = 0) ∧
        (∀ a2 st2, p = .ptr a2 → objAt w1 a2 = some st2 →
          ∃ w2, step w1 (.invoke dst) = some w2 ∧ objAt w2 a2 = some st2.called ∧
            objAt w2 a = some st)) ∧
    (∀ (C C2 : Type) (convert : C2 → C) (c : C) (c2 : C2),
      decorated_callable.assign convert ⟨dst, c⟩ ⟨src, c2⟩ w =
        (step w (.copy_assign dst src)).map (fun w1 => (⟨dst, convert c2⟩, w1)) ∧
      decorated_callable.assign_move convert ⟨dst, c⟩ ⟨src, c2⟩ w =
        (step w (.move_assign dst src)).map (fun w1 => (⟨dst, convert c2⟩, w1))) := by
  have hi : Inv w [] := run_inv inv_empty hrun
  have ha : a < w.heap.length := objAt_lt hst
  have hpd : p ≠ .dead := live_ne_dead hs
  have hne : dst ≠ src := by
    intro h
    subst h
    rw [hd] at hs
    simp only [Option.some.injEq] at hs
    exact hp hs.symm
  refine ⟨?_, dtor_isSome_iff st, ?_, fun C C2 convert c c2 => ⟨rfl, rfl⟩⟩
  · rw [inv_runs hi ha, if_neg (by omega)]
  · rintro o (rfl | rfl)
    · obtain ⟨w1, hstep, hh, hobj⟩ := step_copy_assign_spec hd hs
      have hl1 : w1.live dst = some p := live_set_self (live_lt hd) hpd hh
      have hz : refs w1 a = 0 := by
        rw [refs, hh]
        exact refs_after_overwrite (live_eq_some hd) hone hp
      have hst1 : objAt w1 a = some st := by rw [hobj a]; exact hst
      obtain ⟨h1, h2, h3⟩ := released_for_good (step_inv hi hstep) hst1 hz hl1
      exact ⟨w1, hstep, hl1, hz, h1, h2, h3⟩
    · obtain ⟨w1, hstep, hh, hobj⟩ := step_move_assign_spec hd hs
      have hl1 : w1.live dst = some p :=
        live_set_self (by rw [List.length_set]; exact live_lt hd) hpd hh
      have hz : refs w1 a = 0 := by
        rw [refs, hh]
        apply refs_after_overwrite _ _ hp
        · rw [List.getElem?_set_ne (fun h => hne h.symm)]
          exact live_eq_some hd
        · have := count_set_balance w.handles src .null p (.ptr a) (live_eq_some hs)
          simp only [if_neg hp] at this
          simp only [refs] at hone
          simpa [hone] using this
      have hst1 : objAt w1 a = some st := by rw [hobj a]; exact hst
      obtain ⟨h1, h2, h3⟩ := released_for_good (step_inv hi hstep) hst1 hz hl1
      exact ⟨w1, hstep, hl1, hz, h1, h2, h3⟩

theorem overwriting_last_handle_runs_verification_witness :
    runs expecting_and_plain 0 = 0 ∧
    ((⟨no_source_location, some 1, 1⟩ : state).dtor.isSome = true ↔
      ∃ E, (⟨no_source_location, some 1, 1⟩ : state).expected_ = some E ∧
        (⟨no_source_location, some 1, 1⟩ : state).calls_ ≠ E) ∧
    (∀ o, (o = .copy_assign 0 1 ∨ o = .move_assign 0 1) →
      ∃ w1, step expecting_and_plain o = some w1 ∧ w1.live 0 = some (.ptr 1) ∧
        refs w1 0 = 0 ∧
        reports w1 0 = [(⟨no_source_location, some 1, 1⟩ : state).dtor] ∧
        (∀ os2 w2, run w1 os2 = some w2 →
          objAt w2 0 = some ⟨no_source_location, some 1, 1⟩ ∧
          reports w2 0 = [(⟨no_source_location, some 1, 1⟩ : state).dtor] ∧
          invocations 0 w1 os2 = 0) ∧
        (∀ a2 st2, handle.ptr 1 = .ptr a2 → objAt w1 a2 = some st2 →
          ∃ w2, step w1 (.invoke 0) = some w2 ∧ objAt w2 a2 = some st2.called ∧
            objAt w2 0 = some ⟨no_source_location, some 1, 1⟩)) ∧
    (∀ (C C2 : Type) (convert : C2 → C) (c : C) (c2 : C2),
      decorated_callable.assign convert ⟨0, c⟩ ⟨1, c2⟩ expecting_and_plain =
        (step expecting_and_plain (.copy_assign 0 1)).map
          (fun w1 => (⟨0, convert c2⟩, w1)) ∧
      decorated_callable.assign_move convert ⟨0, c⟩ ⟨1, c2⟩ expecting_and_plain =
        (step expecting_and_plain (.move_assign 0 1)).map
          (fun w1 => (⟨0, convert c2⟩, w1))) :=
  overwriting_last_handle_runs_verification
    [.construct (some 1) no_source_location, .construct none no_source_location, .invoke 0]
    expecting_and_plain 0 1 0 ⟨no_source_location, some 1, 1⟩ (.ptr 1)
    (by decide) rfl rfl rfl (by decide) rfl

/-! ## Theorems: counts seen by the payloads of a mock (C11) -/

theorem mock_call_string {α : Type} {w : World} {fs fi hs hi as ai cs ci : Nat}
    (hm : mock_counts w fs fi hs hi as ai cs ci) (x : α)
    (log : List (Option Nat × Option Nat)) :
    ∃ w1, counted_function.call ⟨fs, some (probe hs hi)⟩ x (w, log) =
        (.ok (), (w1, log ++ [(some ((cs + 1) % UINT_RANGE), some ci)])) ∧
      mock_counts w1 fs fi hs hi as ai ((cs + 1) % UINT_RANGE) ci := by
  obtain ⟨hne, hfs, hhs, hfi, hhi, ⟨ss, hss, hcs⟩, ⟨si, hsi, hci⟩⟩ := hm
  obtain ⟨w1, _, hcall, hh, _, hobj, _⟩ := checker_call_spec hfs hss log x
  have has : objAt w1 as = some ss.called := by simp [hobj as]
  have hai : objAt w1 ai = some si := by
    rw [hobj ai, if_neg (fun h => hne h.symm)]
    exact hsi
  have l1 : w1.live hs = some (.ptr as) := by rw [live_congr hh]; exact hhs
  have l2 : w1.live hi = some (.ptr ai) := by rw [live_congr hh]; exact hhi
  have c1 : current_count w1 hs = some ((cs + 1) % UINT_RANGE) := by
    rw [current_count_eq_map l1, has]
    simp [state.called, hcs]
  have c2 : current_count w1 hi = some ci := by
    rw [current_count_eq_map l2, hai]
    simp [hci]
  refine ⟨w1, ?_, hne, by rw [live_congr hh]; exact hfs, l1, by rw [live_congr hh]; exact hfi,
    l2, ⟨ss.called, has, by simp [state.called, hcs]⟩, ⟨si, hai, hci⟩⟩
  simp only [counted_function.call, decorated_callable.call_eq, hcall, function_call, probe, c1, c2]

theorem mock_call_int {α : Type} {w : World} {fs fi hs hi as ai cs ci : Nat}
    (hm : mock_counts w fs fi hs hi as ai cs ci) (x : α)
    (log : List (Option Nat × Option Nat)) :
    ∃ w1, counted_function.call ⟨fi, some (probe hs hi)⟩ x (w, log) =
        (.ok (), (w1, log ++ [(some cs, some ((ci + 1) % UINT_RANGE))])) ∧
      mock_counts w1 fs fi hs hi as ai cs ((ci + 1) % UINT_RANGE) := by
  obtain ⟨hne, hfs, hhs, hfi, hhi, ⟨ss, hss, hcs⟩, ⟨si, hsi, hci⟩⟩ := hm
  obtain ⟨w1, _, hcall, hh, _, hobj, _⟩ := checker_call_spec hfi hsi log x
  have hai : objAt w1 ai = some si.called := by simp [hobj ai]
  have has : objAt w1 as = some ss := by
    rw [hobj as, if_neg hne]
    exact hss
  have l1 : w1.live hs = some (.ptr as) := by rw [live_congr hh]; exact hhs
  have l2 : w1.live hi = some (.ptr ai) := by rw [live_congr hh]; exact hhi
  have c1 : current_count w1 hs = some cs := by
    rw [current_count_eq_map l1, has]
    simp [hcs]
  have c2 : current_count w1 hi = some ((ci + 1) % UINT_RANGE) := by
    rw [current_count_eq_map l2, hai]
    simp [state.called, hci]
  refine ⟨w1, ?_, hne, by rw [live_congr hh]; exact hfs, l1, by rw [live_congr hh]; exact hfi,
    l2, ⟨ss, has, hcs⟩, ⟨si.called, hai, by simp [state.called, hci]⟩⟩
  simp only [counted_function.call, decorated_callable.call_eq, hcall, function_call, probe, c1, c2]

theorem for_each_mock {fs fi hs hi as ai : Nat} : ∀ (toks : List string_view) (w : World)
    (cs ci : Nat) (log : List (Option Nat × Option Nat)),
    mock_counts w fs fi hs hi as ai cs ci →
    ∃ w1, for_each (classify (counted_function.call ⟨fi, some (probe hs hi)⟩)
        (counted_function.call ⟨fs, some (probe hs hi)⟩)) toks (w, log) =
      (.ok (), (w1, log ++ probes toks cs ci)) := by
  intro toks
  induction toks with
  | nil => intro w cs ci log _; exact ⟨w, by simp [for_each, probes]⟩
  | cons t ts ih =>
    intro w cs ci log hm
    cases hf : from_chars t with
    | ok v =>
      obtain ⟨w1, hcall, hm1⟩ := mock_call_int hm v log
      obtain ⟨w2, h2⟩ := ih w1 cs ((ci + 1) % UINT_RANGE)
        (log ++ [(some cs, some ((ci + 1) % UINT_RANGE))]) hm1
      refine ⟨w2, ?_⟩
      have hint : is_int_token t = true := by simp [is_int_token, hf]
      simp only [for_each, classify, hf, hcall, h2, probes, hint, if_true,
        List.append_assoc, List.singleton_append]
    | error e =>
      obtain ⟨w1, hcall, hm1⟩ := mock_call_string hm t log
      obtain ⟨w2, h2⟩ := ih w1 ((cs + 1) % UINT_RANGE) ci
        (log ++ [(some ((cs + 1) % UINT_RANGE), some ci)]) hm1
      refine ⟨w2, ?_⟩
      have hint : is_int_token t = false := by simp [is_int_token, hf]
      simp only [for_each, classify, hf, hcall, h2, probes, hint, Bool.false_eq_true, if_false,
        List.append_assoc, List.singleton_append]

theorem probes_length : ∀ (toks : List string_view) (cs ci : Nat),
    (probes toks cs ci).length = toks.length := by
  intro toks
  induction toks with
  | nil => intro cs ci; rfl
  | cons t ts ih =>
    intro cs ci
    simp only [probes]
    split <;> simp [ih]

theorem among_cons (t : string_view) (ts : List string_view) (k : Nat) :
    strings_among (t :: ts) (k + 1) =
      strings_among ts k + (if is_int_token t = true then 0 else 1) ∧
    ints_among (t :: ts) (k + 1) = ints_among ts k + (if is_int_token t = true then 1 else 0) := by
  simp only [strings_among, ints_among, List.take_succ_cons, List.countP_cons]
  cases is_int_token t <;> simp

theorem among_zero (ts : List string_view) : strings_among ts 0 = 0 ∧ ints_among ts 0 = 0 := by
  simp [strings_among, ints_among]

theorem probes_getElem? : ∀ (toks : List string_view) (k cs ci : Nat),
    cs < UINT_RANGE → ci < UINT_RANGE → k < toks.length →
    (probes toks cs ci)[k]? =
      some (some ((cs + strings_among toks (k + 1)) % UINT_RANGE),
        some ((ci + ints_among toks (k + 1)) % UINT_RANGE)) := by
  intro toks
  induction toks with
  | nil => intro k cs ci _ _ hk; simp at hk
  | cons t ts ih =>
    intro k cs ci hcs hci hk
    have hmod : ∀ n, (n + 1) % UINT_RANGE < UINT_RANGE := by
      intro n; simp only [UINT_RANGE]; omega
    obtain ⟨hS, hI⟩ := among_cons t ts k
    by_cases hint : is_int_token t = true
    · rw [hS, hI]
      simp only [probes, hint, if_true, Nat.add_zero]
      cases k with
      | zero =>
        simp only [List.getElem?_cons_zero, (among_zero ts).1, (among_zero ts).2, Nat.add_zero,
          Nat.zero_add, Nat.mod_eq_of_lt hcs]
      | succ k =>
        rw [List.getElem?_cons_succ, ih k cs ((ci + 1) % UINT_RANGE) hcs (hmod ci)
          (by simpa using hk)]
        congr 3
        simp only [UINT_RANGE]
        omega
    · rw [hS, hI]
      simp only [probes, hint, Bool.false_eq_true, if_false, Nat.add_zero]
      cases k with
      | zero =>
        simp only [List.getElem?_cons_zero, (among_zero ts).1, (among_zero ts).2, Nat.add_zero,
          Nat.zero_add, Nat.mod_eq_of_lt hci]
      | succ k =>
        rw [List.getElem?_cons_succ, ih k ((cs + 1) % UINT_RANGE) ci (hmod cs) hci
          (by simpa using hk)]
        congr 3
        simp only [UINT_RANGE]
        omega

theorem among_add (toks : List string_view) (k : Nat) (hk : k ≤ toks.length) :
    strings_among toks k + ints_among toks k = k := by
  have h := List.length_eq_countP_add_countP is_int_token (toks.take k)
  simp only [strings_among, ints_among]
  rw [List.length_take, Nat.min_eq_left hk] at h
  have h2 : List.countP (fun t => !is_int_token t) (List.take k toks) =
      List.countP (fun a => decide ¬is_int_token a = true) (List.take k toks) := by
    congr 1
    funext t
    cases is_int_token t <;> rfl
  rw [h2]
  omega

theorem mock_log (fs fi hs hi as ai : Nat) (input : string_view) (w : World)
    (hm : mock_counts w fs fi hs hi as ai 0 0) :
    ∃ w1, tokenizer2 (counted_function.call ⟨fi, some (probe hs hi)⟩)
        (counted_function.call ⟨fs, some (probe hs hi)⟩) input (w, []) =
      some (.ok (), (w1, probes (maximal_runs input) 0 0)) := by
  obtain ⟨w1, h⟩ := for_each_mock (maximal_runs input) w 0 0 [] hm
  exact ⟨w1, by rw [tokenizer2_eq, h, List.nil_append]⟩

/-- C11 (as amended): `tokenizer2` runs against a mock whose fields `string_token` and
`int_token` are decorated by checkers of two different states, both at count zero, and whose
payloads note down what `current_count()` reads for the two states when they run. For every
input the scan returns with one note per token, and the note of the `k`-th callback (index
`k - 1`) is the number of `string_token` calls and the number of `int_token` calls made so
far, the current one included, each modulo `2^32`; these two numbers add up to `k`, so the
counts read add up to `k` whenever the input has fewer than `2^32` tokens. On `"hello 123"`,
in the world of the test `hello_123_ordered`, the int payload reads 1 for the string
checker. -/
theorem mock_payloads_see_counts (input : string_view) (w : World)
    (fs fi hs hi as ai : Nat) (hm : mock_counts w fs fi hs hi as ai 0 0) :
    (∃ w1 log, tokenizer2 (counted_function.call ⟨fi, some (probe hs hi)⟩)
        (counted_function.call ⟨fs, some (probe hs hi)⟩) input (w, []) =
        some (.ok (), (w1, log)) ∧
      log.length = (maximal_runs input).length ∧
      ∀ k, k < log.length →
        strings_among (maximal_runs input) (k + 1) + ints_among (maximal_runs input) (k + 1)
          = k + 1 ∧
        log[k]? = some (some (strings_among (maximal_runs input) (k + 1) % UINT_RANGE),
          some (ints_among (maximal_runs input) (k + 1) % UINT_RANGE)) ∧
        ((maximal_runs input).length < UINT_RANGE →
          ∃ cs ci, log[k]? = some (some cs, some ci) ∧ cs + ci = k + 1)) ∧
    (∃ w1, tokenizer2 (counted_function.call ⟨2, some (probe 0 2)⟩)
        (counted_function.call ⟨1, some (probe 0 2)⟩) "hello 123".toList
        (hello_123_ordered_world, []) =
      some (.ok (), (w1, [(some 1, some 0), (some 1, some 1)]))) := by
  refine ⟨?_, ⟨_, rfl⟩⟩
  obtain ⟨w1, hrun⟩ := mock_log fs fi hs hi as ai input w hm
  refine ⟨w1, _, hrun, probes_length _ 0 0, ?_⟩
  intro k hk
  rw [probes_length] at hk
  have hsum := among_add (maximal_runs input) (k + 1) (by omega)
  have hget := probes_getElem? (maximal_runs input) k 0 0 (by decide) (by decide) hk
  simp only [Nat.zero_add] at hget
  refine ⟨hsum, hget, fun hlt => ?_⟩
  refine ⟨_, _, hget, ?_⟩
  rw [Nat.mod_eq_of_lt (by omega), Nat.mod_eq_of_lt (by omega)]
  exact hsum

theorem mock_payloads_see_counts_witness :
    (∃ w1 log, tokenizer2 (counted_function.call ⟨1, some (probe 0 1)⟩)
        (counted_function.call ⟨0, some (probe 0 1)⟩) "hello 123".toList (two_counters, []) =
        some (.ok (), (w1, log)) ∧
      log.length = (maximal_runs "hello 123".toList).length ∧
      ∀ k, k < log.length →
        strings_among (maximal_runs "hello 123".toList) (k + 1) +
            ints_among (maximal_runs "hello 123".toList) (k + 1) = k + 1 ∧
        log[k]? = some
          (some (strings_among (maximal_runs "hello 123".toList) (k + 1) % UINT_RANGE),
            some (ints_among (maximal_runs "hello 123".toList) (k + 1) % UINT_RANGE)) ∧
        ((maximal_runs "hello 123".toList).length < UINT_RANGE →
          ∃ cs ci, log[k]? = some (some cs, some ci) ∧ cs + ci = k + 1)) ∧
    (∃ w1, tokenizer2 (counted_function.call ⟨2, some (probe 0 2)⟩)
        (counted_function.call ⟨1, some (probe 0 2)⟩) "hello 123".toList
        (hello_123_ordered_world, []) =
      some (.ok (), (w1, [(some 1, some 0), (some 1, some 1)]))) :=
  mock_payloads_see_counts "hello 123".toList two_counters 0 1 0 1 0 1
    ⟨by decide, rfl, rfl, rfl, rfl, ⟨_, rfl, rfl⟩, ⟨_, rfl, rfl⟩⟩

theorem maximal_runs_repeated (n : Nat) :
    maximal_runs (List.replicate n ['a', ' ']).flatten = List.replicate n ['a'] := by
  induction n with
  | zero => rfl
  | succ n ih =>
    rw [List.replicate_succ, List.flatten_cons, List.replicate_succ]
    have h := maximal_runs_first ['a'] (by simp) (by decide) ' ' (by decide)
      (List.replicate n ['a', ' ']).flatten
    rw [maximal_runs_cons_ws (by decide), ih] at h
    exact h

theorem among_repeated (n : Nat) :
    strings_among (List.replicate n ['a']) n = n ∧ ints_among (List.replicate n ['a']) n = 0 := by
  have htake : (List.replicate n ['a']).take n = List.replicate n ['a'] := by
    rw [List.take_replicate, Nat.min_self]
  have hs : is_int_token ['a'] = false := by decide
  simp only [strings_among, ints_among, htake, List.countP_replicate, hs]
  simp

theorem mock_log_repeated (n : Nat) (hn : 0 < n) :
    ∃ w1 log, tokenizer2 (counted_function.call ⟨1, some (probe 0 1)⟩)
        (counted_function.call ⟨0, some (probe 0 1)⟩)
        (List.replicate n ['a', ' ']).flatten (two_counters, []) =
        some (.ok (), (w1, log)) ∧
      log.length = n ∧ log[n - 1]? = some (some (n % UINT_RANGE), some 0) := by
  obtain ⟨w1, hrun⟩ := mock_log 0 1 0 1 0 1
    (List.replicate n ['a', ' ']).flatten two_counters
    ⟨by decide, rfl, rfl, rfl, rfl, ⟨_, rfl, rfl⟩, ⟨_, rfl, rfl⟩⟩
  rw [maximal_runs_repeated] at hrun
  refine ⟨w1, _, hrun, by rw [probes_length, List.length_replicate], ?_⟩
  have hget := probes_getElem? (List.replicate n ['a']) (n - 1) 0 0 (by decide) (by decide)
    (by rw [List.length_replicate]; omega)
  have hn1 : n - 1 + 1 = n := by omega
  rw [hn1, (among_repeated n).1, (among_repeated n).2] at hget
  simpa using hget

/-- C11 as stated fails: on the input made of `2^32` times `"a "` the scan makes `2^32`
callbacks, all of `string_token`; when the payload of the last one, `k = 2^32`, runs, the
string checker reads 0 and the int checker reads 0, which do not add up to `k`. -/
theorem mock_counts_wrap_counterexample :
    ∃ w1 log, tokenizer2 (counted_function.call ⟨1, some (probe 0 1)⟩)
        (counted_function.call ⟨0, some (probe 0 1)⟩)
        (List.replicate UINT_RANGE ['a', ' ']).flatten (two_counters, []) =
        some (.ok (), (w1, log)) ∧
      log.length = UINT_RANGE ∧ log[UINT_RANGE - 1]? = some (some 0, some 0) := by
  obtain ⟨w1, log, h1, h2, h3⟩ := mock_log_repeated UINT_RANGE (by decide)
  rw [Nat.mod_self] at h3
  exact ⟨w1, log, h1, h2, h3⟩

end Mocking
